import Mathlib

/-!
Verification of `t3f/riemannian.py` (tangent-space projection for tensor
trains).  The file contains two embeddings of the source:

* a value-level embedding over `ℚ` of the einsum contractions of
  `project`, `project_sum` and the core assembly (used for the algebraic
  claims: fixed point, sum consistency, gauge subtraction, weighted sums);
* a shape-level embedding that mirrors every einsum / concat / tile of the
  three public functions together with their validation code, used for the
  rank/shape and error-handling claims.

Mode indices: the source handles TT-tensors (cores `(r, n, r')`) and
TT-matrices (cores `(r, n, m, r')`); at value level we use a single mode
index per core, the TT-matrix case being the same contractions under the
pairing `(i, j) ↦ i * m + j` of the two mode indices.  The shape-level
embedding keeps the two variants apart (`mat` flag), exactly as the
`is_tt_matrix` branches of the source do.

External collaborators (`TensorTrain`, `shapes`, `decompositions`) are not
part of the source; the facts used about them are modelled from the spec
and stated as hypotheses (orthogonalization contract, raw-shape handling).
-/

/-- Sum of `f` over `0, …, n-1`; the ranges of every einsum index. -/
def sumR (n : ℕ) (f : ℕ → ℚ) : ℚ := ∑ x ∈ Finset.range n, f x

/-!
## Value-level embedding of `project` (single output)

The data a call to `project`/`project_sum` works with after validation and
orthogonalization: the batch of perturbation cores `W` (the source always
promotes `what` to a batch, `shapes.expand_batch_dim`), the shared mode
sizes `n` (validation has checked `where.get_raw_shape() ==
what.get_raw_shape()`), the perturbation TT-ranks `wr`, and the two
orthogonal representations of `where` produced by
`decompositions.orthogonalize_tt_cores`: cores `L` with ranks `lr`
(left-orthogonal) and cores `R` with ranks `rr` (right-orthogonal).
Modelled from the spec: the orthogonal basis provider is external; the spec
guarantees both representations share `where`'s raw shape, hence the single
`n`.
-/

structure PIn where
  d : ℕ
  S : ℕ
  n : ℕ → ℕ
  wr : ℕ → ℕ
  W : ℕ → ℕ → ℕ → ℕ → ℕ → ℚ
  lr : ℕ → ℕ
  L : ℕ → ℕ → ℕ → ℕ → ℚ
  rr : ℕ → ℕ
  R : ℕ → ℕ → ℕ → ℕ → ℚ

/-- Partial chain contraction: `chainAux r core d i j a` is the entry `a` of
the product of the last `j` cores evaluated at mode indices `i`, closed with
the unit vector at position `0` on the right (TT boundary rank 1). -/
def chainAux (r : ℕ → ℕ) (core : ℕ → ℕ → ℕ → ℕ → ℚ) (d : ℕ) (i : ℕ → ℕ) :
    ℕ → ℕ → ℚ
  | 0, a => if a = 0 then 1 else 0
  | j + 1, a =>
      sumR (r (d - j)) fun b =>
        core (d - (j + 1)) a (i (d - (j + 1))) b * chainAux r core d i j b

/-- Full tensor entry of batch element `s` of the perturbation. -/
def fullW (p : PIn) (s : ℕ) (i : ℕ → ℕ) : ℚ :=
  chainAux p.wr (fun k => p.W k s) p.d i p.d 0

/-- Full tensor entry of the left-orthogonal representation. -/
def fullL (p : PIn) (i : ℕ → ℕ) : ℚ :=
  chainAux p.lr p.L p.d i p.d 0

/-- The `lhs` sweep of `project`/`project_sum` (the two functions share it
verbatim): `lhs[0] = ones (S,1,1)`;
`lhs[k+1] = einsum('sab,aic,sbid->scd', lhs[k], left_core_k, what_core_k)`. -/
def lhsV (p : PIn) : ℕ → ℕ → ℕ → ℕ → ℚ
  | 0 => fun _s a b => if a = 0 ∧ b = 0 then 1 else 0
  | k + 1 => fun s c dd =>
      sumR (p.lr k) fun a => sumR (p.wr k) fun b => sumR (p.n k) fun i =>
        lhsV p k s a b * p.L k a i c * p.W k s b i dd

/-- Downward recursion for the `rhs` sweep, `rhsAuxV p j = rhs[d - j]`:
`rhs[d] = ones (S,1,1)`;
`rhs[k] = einsum('saib,sbd,cid->sac', what_core_k, rhs[k+1], right_core_k)`. -/
def rhsAuxV (p : PIn) : ℕ → ℕ → ℕ → ℕ → ℚ
  | 0 => fun _s a c => if a = 0 ∧ c = 0 then 1 else 0
  | j + 1 => fun s a c =>
      sumR (p.n (p.d - (j + 1))) fun i =>
        sumR (p.wr (p.d - j)) fun b => sumR (p.rr (p.d - j)) fun dd =>
          p.W (p.d - (j + 1)) s a i b * rhsAuxV p j s b dd *
            p.R (p.d - (j + 1)) c i dd

def rhsV (p : PIn) (k : ℕ) : ℕ → ℕ → ℕ → ℚ := rhsAuxV p (p.d - k)

/-- Projection core of `project` for a single (non-batch) output, mirroring
the `core_idx < ndims - 1` branch
(`einsum('sab,sbic->saic')`, minus `einsum('aib,sbc->saic')`, then
`einsum('saib,sbc->aic')`) and the `core_idx == ndims - 1` branch
(`einsum('sab,sbic->aic')`). -/
def projCoreV (p : PIn) (k : ℕ) (a i c : ℕ) : ℚ :=
  if k < p.d - 1 then
    sumR p.S fun s => sumR (p.wr (k + 1)) fun b =>
      ((sumR (p.wr k) fun bb => lhsV p k s a bb * p.W k s bb i b) -
        (sumR (p.lr (k + 1)) fun e => p.L k a i e * lhsV p (k + 1) s e b)) *
        rhsV p (k + 1) s b c
  else
    sumR p.S fun s => sumR (p.wr k) fun b => lhsV p k s a b * p.W k s b i c

/-- Trailing dimension of the projection core at index `k` (the
concatenation offset used when assembling the output cores). -/
def splitV (p : PIn) (k : ℕ) : ℕ := if k < p.d - 1 then p.rr (k + 1) else p.wr p.d

/-- Output core assembly of `project` (single output): first core
`concat((proj_core, left_core), axis=2)`, last core
`concat((right_core, proj_core), axis=0)`, interior cores the 2×2 block
`[[right_core, 0], [proj_core, left_core]]`.  The `core_idx == 0` branch is
tested first, exactly as in the source (relevant when `d = 1`). -/
def resCoreV (p : PIn) (k : ℕ) (a i c : ℕ) : ℚ :=
  if k = 0 then
    if c < splitV p 0 then projCoreV p 0 a i c else p.L 0 a i (c - splitV p 0)
  else if k = p.d - 1 then
    if a < p.rr (p.d - 1) then p.R (p.d - 1) a i c
    else projCoreV p (p.d - 1) (a - p.rr (p.d - 1)) i c
  else
    if a < p.rr k then
      if c < p.rr (k + 1) then p.R k a i c else 0
    else
      if c < p.rr (k + 1) then projCoreV p k (a - p.rr k) i c
      else p.L k (a - p.rr k) i (c - p.rr (k + 1))

/-- TT-ranks of the assembled output (read off the concatenations). -/
def resRankV (p : PIn) (k : ℕ) : ℕ :=
  if k = 0 then 1
  else if k < p.d then p.rr k + p.lr k
  else if p.d = 1 then p.wr p.d + p.lr p.d
  else p.rr p.d

/-- Full tensor entry of the TT returned by `project` (single output). -/
def fullResV (p : PIn) (i : ℕ → ℕ) : ℚ :=
  chainAux (resRankV p) (resCoreV p) p.d i p.d 0

/-!
## The orthogonalization contract (claim C3)

`decompositions.orthogonalize_tt_cores` is an external collaborator.
Modelled from the spec: the provider left-orthogonalizes `where` by a QR
sweep, so the produced cores `L` are left-orthogonal at every index except
the last one, and there are triangular transfer matrices `T k` (the
accumulated QR factors, trivial at both ends) relating the cores of
`where` to the cores of `L` index by index.
-/

structure IsLeftOrthogonalization (p : PIn) (T : ℕ → ℕ → ℕ → ℚ) : Prop where
  w0 : p.wr 0 = 1
  wd : p.wr p.d = 1
  l0 : p.lr 0 = 1
  ld : p.lr p.d = 1
  t0 : T 0 0 0 = 1
  td : T p.d 0 0 = 1
  orth : ∀ k, k + 1 < p.d → ∀ b, b < p.lr (k + 1) → ∀ b', b' < p.lr (k + 1) →
    (sumR (p.lr k) fun a => sumR (p.n k) fun i => p.L k a i b * p.L k a i b') =
      if b = b' then 1 else 0
  trans : ∀ k, k < p.d → ∀ a, a < p.lr k → ∀ i, i < p.n k →
    ∀ b, b < p.wr (k + 1) →
    (sumR (p.wr k) fun c => T k a c * p.W k 0 c i b) =
      sumR (p.lr (k + 1)) fun e => p.L k a i e * T (k + 1) e b

/-- Concrete 2-mode instance for the fixed-point witness: `where` has mode
sizes `(2,2)`, ranks `(1,2,1)`, its first core is an orthonormal basis and
its own orthogonalization (transfer matrices identity). -/
def pC3 : PIn where
  d := 2
  S := 1
  n := fun _ => 2
  wr := fun k => if k = 1 then 2 else 1
  W := fun k _s a i b =>
    if k = 0 then (if a = 0 ∧ i = b then 1 else 0) else ((a : ℚ) + (i : ℚ) + 1)
  lr := fun k => if k = 1 then 2 else 1
  L := fun k a i b =>
    if k = 0 then (if a = 0 ∧ i = b then 1 else 0) else ((a : ℚ) + (i : ℚ) + 1)
  rr := fun k => if k = 1 then 2 else 1
  R := fun k a i b =>
    if k = 0 then (if a = 0 ∧ i = b then 1 else 0) else ((a : ℚ) + (i : ℚ) + 1)

/-- Identity transfer matrices for `pC3`. -/
def TC3 : ℕ → ℕ → ℕ → ℚ := fun _ a b => if a = b then 1 else 0

/-!
## Value-level embedding of `project_sum` (weights omitted)

`project_sum` shares the two sweeps with `project` (`lhsV`, `rhsV`); its
projection cores are assembled from the `common_term` and the
basis self-contraction `u_proj`.
-/

/-- The `common_term = einsum('sad,sdib,sbc->saic', lhs[k], what_core_k,
rhs[k+1])`. -/
def commonV (p : PIn) (k : ℕ) (s a i c : ℕ) : ℚ :=
  sumR (p.wr k) fun dd => sumR (p.wr (k + 1)) fun b =>
    lhsV p k s a dd * p.W k s dd i b * rhsV p (k + 1) s b c

/-- The `u_proj = einsum('aic,brc->aibr', left_core_k, left_core_k)` term. -/
def uProjV (p : PIn) (k : ℕ) (a i b r2 : ℕ) : ℚ :=
  sumR (p.lr (k + 1)) fun c => p.L k a i c * p.L k b r2 c

/-- Projection core of `project_sum` with `weights=None`:
`proj_core = reduce_sum(common_term, axis=0)` minus
`einsum('aibr,said->brd', u_proj, common_term)` while `core_idx < ndims-1`,
and `einsum('sab,sbic->aic', lhs[k], what_core_k)` at the last index. -/
def projCoreSumV (p : PIn) (k : ℕ) (b r2 dd : ℕ) : ℚ :=
  if k < p.d - 1 then
    (sumR p.S fun s => commonV p k s b r2 dd) -
      sumR (p.lr k) fun a => sumR (p.n k) fun i => sumR p.S fun s =>
        uProjV p k a i b r2 * commonV p k s a i dd
  else
    sumR p.S fun s => sumR (p.wr k) fun bb => lhsV p k s b bb * p.W k s bb r2 dd

/-- Output core assembly of `project_sum` with `weights=None`; identical
block structure to `project` (the source repeats the same `concat` code). -/
def resCoreSumV (p : PIn) (k : ℕ) (a i c : ℕ) : ℚ :=
  if k = 0 then
    if c < splitV p 0 then projCoreSumV p 0 a i c
    else p.L 0 a i (c - splitV p 0)
  else if k = p.d - 1 then
    if a < p.rr (p.d - 1) then p.R (p.d - 1) a i c
    else projCoreSumV p (p.d - 1) (a - p.rr (p.d - 1)) i c
  else
    if a < p.rr k then
      if c < p.rr (k + 1) then p.R k a i c else 0
    else
      if c < p.rr (k + 1) then projCoreSumV p k (a - p.rr k) i c
      else p.L k (a - p.rr k) i (c - p.rr (k + 1))

/-- Full tensor entry of the TT returned by `project_sum` (weights
omitted). -/
def fullResSumV (p : PIn) (i : ℕ → ℕ) : ℚ :=
  chainAux (resRankV p) (resCoreSumV p) p.d i p.d 0

/-!
## The canonical TT representation of the sum of the batch elements

This realizes the spec's `sum_of_batch_elements`: the standard direct-sum
TT (first core: row concatenation over the batch, interior cores: block
diagonal, last core: column concatenation; for a single mode the cores are
simply added).  `fullW_sumIn` below proves it reconstructs to the sum of
the batch elements.
-/

def sumRank (p : PIn) (k : ℕ) : ℕ :=
  if k = 0 ∨ k = p.d then 1 else p.S * p.wr k

def sumCore (p : PIn) (k : ℕ) (a i c : ℕ) : ℚ :=
  if p.d = 1 then sumR p.S fun s => p.W 0 s a i c
  else if k = 0 then p.W 0 (c / p.wr 1) a i (c % p.wr 1)
  else if k = p.d - 1 then p.W k (a / p.wr k) (a % p.wr k) i c
  else if a / p.wr k = c / p.wr (k + 1) then
    p.W k (a / p.wr k) (a % p.wr k) i (c % p.wr (k + 1))
  else 0

/-- The input on which `project(sum_of_batch_elements, where)` runs: same
manifold point data, perturbation replaced by the direct-sum TT (a batch of
one). -/
def sumIn (p : PIn) : PIn where
  d := p.d
  S := 1
  n := p.n
  wr := sumRank p
  W := fun k _s => sumCore p k
  lr := p.lr
  L := p.L
  rr := p.rr
  R := p.R

/-- Concrete batch of two 2-mode TT-tensors for the sum-consistency
witness. -/
def pC4 : PIn where
  d := 2
  S := 2
  n := fun _ => 2
  wr := fun k => if k = 1 then 2 else 1
  W := fun k s a i b =>
    (k : ℚ) + 2 * (s : ℚ) + 3 * (a : ℚ) + 5 * (i : ℚ) + 7 * (b : ℚ)
  lr := fun k => if k = 1 then 2 else 1
  L := fun k a i b => (k : ℚ) + (a : ℚ) + 2 * (i : ℚ) + (b : ℚ)
  rr := fun k => if k = 1 then 2 else 1
  R := fun k a i b => (k : ℚ) - (a : ℚ) + (i : ℚ) - 2 * (b : ℚ)

/-- All-ones instance (all dimensions 1, two modes) on which the gauge
subtraction at `core_idx = 0` visibly changes the projection core. -/
def pC8 : PIn where
  d := 2
  S := 1
  n := fun _ => 1
  wr := fun _ => 1
  W := fun _ _ _ _ _ => 1
  lr := fun _ => 1
  L := fun _ _ _ _ => 1
  rr := fun _ => 1
  R := fun _ _ _ _ => 1

/-!
## Value-level embedding of `project_sum` with a weight matrix

With 2-D weights of second dimension `O > 1` the source sets
`output_is_batch`, contracts every projection core against the weights
(`einsum('saib,so->oaib')` and `einsum('aibr,said,so->obrd')`, and
`einsum('sab,sbic,so->oaic')` at the last index) and tiles the two
orthogonal cores across the output batch, so slice `o` of an output core
concatenates the weighted projection core with the untiled orthogonal
cores.
-/

/-- Projection core of `project_sum` with a weight matrix, output batch
index `o`. -/
def projCoreSumWV (p : PIn) (w : ℕ → ℕ → ℚ) (k o : ℕ) (b r2 dd : ℕ) : ℚ :=
  if k < p.d - 1 then
    (sumR p.S fun s => commonV p k s b r2 dd * w s o) -
      sumR (p.lr k) fun a => sumR (p.n k) fun i => sumR p.S fun s =>
        uProjV p k a i b r2 * commonV p k s a i dd * w s o
  else
    sumR p.S fun s => sumR (p.wr k) fun bb =>
      lhsV p k s b bb * p.W k s bb r2 dd * w s o

/-- Slice `o` of output core `k` of `project_sum` with a weight matrix
(the tiled orthogonal cores slice back to themselves). -/
def resCoreSumWV (p : PIn) (w : ℕ → ℕ → ℚ) (k o : ℕ) (a i c : ℕ) : ℚ :=
  if k = 0 then
    if c < splitV p 0 then projCoreSumWV p w 0 o a i c
    else p.L 0 a i (c - splitV p 0)
  else if k = p.d - 1 then
    if a < p.rr (p.d - 1) then p.R (p.d - 1) a i c
    else projCoreSumWV p w (p.d - 1) o (a - p.rr (p.d - 1)) i c
  else
    if a < p.rr k then
      if c < p.rr (k + 1) then p.R k a i c else 0
    else
      if c < p.rr (k + 1) then projCoreSumWV p w k o (a - p.rr k) i c
      else p.L k (a - p.rr k) i (c - p.rr (k + 1))

/-- Cores of the canonical TT representation of the weighted sum
`Σ_s weights[s,o] · batch[s]`: the direct sum with the first core scaled
by the weights. -/
def wsumCore (p : PIn) (w : ℕ → ℕ → ℚ) (o : ℕ) (k : ℕ) (a i c : ℕ) : ℚ :=
  if p.d = 1 then sumR p.S fun s => w s o * p.W 0 s a i c
  else if k = 0 then w (c / p.wr 1) o * p.W 0 (c / p.wr 1) a i (c % p.wr 1)
  else sumCore p k a i c

/-- The input on which `project(weighted_sum, where)` runs. -/
def wsumIn (p : PIn) (w : ℕ → ℕ → ℚ) (o : ℕ) : PIn where
  d := p.d
  S := 1
  n := p.n
  wr := sumRank p
  W := fun k _s => wsumCore p w o k
  lr := p.lr
  L := p.L
  rr := p.rr
  R := p.R

/-- Full tensor entry of output-batch slice `o` of the TT batch returned by
`project_sum` with a weight matrix. -/
def fullResSumWV (p : PIn) (w : ℕ → ℕ → ℚ) (o : ℕ) (i : ℕ → ℕ) : ℚ :=
  chainAux (resRankV p) (fun k => resCoreSumWV p w k o) p.d i p.d 0

/-- Concrete batch of two 2-mode TT-tensors for the weight-matrix
witness. -/
def pC9 : PIn where
  d := 2
  S := 2
  n := fun _ => 1
  wr := fun _ => 1
  W := fun k s a i b => (k : ℚ) + 2 * (s : ℚ) + (a : ℚ) + (i : ℚ) + (b : ℚ) + 1
  lr := fun _ => 1
  L := fun k a i b => (k : ℚ) + (a : ℚ) + (i : ℚ) + (b : ℚ) + 1
  rr := fun _ => 1
  R := fun k a i b => (k : ℚ) - (a : ℚ) + (i : ℚ) - (b : ℚ) + 1

/-- Concrete weight matrix for the weight-matrix witness. -/
def wC9 : ℕ → ℕ → ℚ := fun s o => (s : ℚ) + (o : ℚ) + 1

/-!
## Shape-level embedding

Tensors are modelled by their shapes (lists of dimension sizes) and the
three operations by the exact sequence of TensorFlow calls the source
makes: every `tf.einsum` is replayed as a subscript-binding check that
produces the output shape or fails, every `tf.concat` and every tensor
subtraction checks its operands' shapes, and the three argument
validations raise the source's typed errors in source order.  Einsum
subscript letters are encoded as numbers:
a=0, b=1, c=2, d=3, e=4, f=5, i=6, j=7, k=8, s=9, o=10, r=11, t=12.
-/

/-- Typed failures of the shape-level run: the three `ValueError`s raised
by the validation code (the shape mismatch carries both raw shapes, the
dtype mismatch both dtypes), and the TensorFlow operation-level failures
(einsum subscript/shape mismatch, subtraction shape mismatch, concat
shape mismatch), each carrying the offending operands. -/
inductive TFErr where
  | notTT : TFErr
  | shapeMismatch : List (List ℕ) → List (List ℕ) → TFErr
  | dtypeMismatch : ℕ → ℕ → TFErr
  | einsumErr : List (List ℕ × List ℕ) → List ℕ → TFErr
  | subErr : List ℕ → List ℕ → TFErr
  | concatErr : ℕ → List ℕ → List ℕ → TFErr
deriving DecidableEq

/-- Modelled from the spec: a `TensorTrain`/`TensorTrainBatch` object as
the source reads it — matrix flag, batch flag and batch size, number of
modes, row and column mode sizes, TT-ranks and dtype.  `TensorTrain` is
the case `isBatch = false`; `isinstance(where, TensorTrain)` is then the
check `isBatch = false`. -/
structure TT where
  isMat : Bool
  isBatch : Bool
  bS : ℕ
  d : ℕ
  rows : ℕ → ℕ
  cols : ℕ → ℕ
  rk : ℕ → ℕ
  dt : ℕ

/-- The returned object: batch flag and batch size, the raw shape passed
to the constructor, and the shapes of the assembled cores. -/
structure ResSh where
  isBatch : Bool
  bS : ℕ
  raw : List (List ℕ)
  cores : List (List ℕ)
deriving DecidableEq

/-- Modelled from the spec: `get_raw_shape()` — the mode sizes, one row
for a TT-tensor, two (rows, columns) for a TT-matrix; a batch's raw shape
has no batch entry. -/
def rawShape (t : TT) : List (List ℕ) :=
  if t.isMat then [(List.range t.d).map t.rows, (List.range t.d).map t.cols]
  else [(List.range t.d).map t.rows]

/-- Shape of `tt_cores[k]`: optional batch size, left rank, row mode size,
column mode size for a matrix, right rank. -/
def coreSh (t : TT) (k : ℕ) : List ℕ :=
  (if t.isBatch then [t.bS] else []) ++ [t.rk k, t.rows k] ++
    (if t.isMat then [t.cols k] else []) ++ [t.rk (k + 1)]

/-- Modelled from the spec: `shapes.expand_batch_dim` wraps a single TT
into a batch of one and leaves a batch unchanged. -/
def expandBatchDim (t : TT) : TT :=
  if t.isBatch then t else { t with isBatch := true, bS := 1 }

/-- Modelled from the spec: `decompositions.orthogonalize_tt_cores`
returns a TT with the same raw shape, dtype and batch status; only its
TT-ranks change, to some ranks `r` we quantify over. -/
def orthoWith (t : TT) (r : ℕ → ℕ) : TT := { t with rk := r }

/-- The three argument validations shared verbatim by `project_sum`,
`project` and `project_matmul`, in source order: `where` must not be a
batch, the raw shapes must coincide (the error carries both), the dtypes
must be compatible (modelled as equality; the error carries both). -/
def validateSh (what whereT : TT) : Except TFErr Unit :=
  if whereT.isBatch then .error .notTT
  else if rawShape whereT ≠ rawShape what then
    .error (.shapeMismatch (rawShape whereT) (rawShape what))
  else if whereT.dt ≠ what.dt then
    .error (.dtypeMismatch whereT.dt what.dt)
  else .ok ()

def lookupN : List (ℕ × ℕ) → ℕ → Option ℕ
  | [], _ => none
  | (k, v) :: rest, l => if k = l then some v else lookupN rest l

/-- Bind one einsum subscript letter to a dimension: a fresh letter is
recorded, a seen letter must carry the same dimension. -/
def bindLbl (env : List (ℕ × ℕ)) (l dim : ℕ) : Option (List (ℕ × ℕ)) :=
  match lookupN env l with
  | none => some ((l, dim) :: env)
  | some v => if v = dim then some env else none

/-- Bind one operand's subscripts to its shape; fails when the operand's
rank differs from its subscript count. -/
def bindOp (env : List (ℕ × ℕ)) : List ℕ → List ℕ → Option (List (ℕ × ℕ))
  | [], [] => some env
  | l :: ls, dim :: dims =>
      match bindLbl env l dim with
      | some env2 => bindOp env2 ls dims
      | none => none
  | _, _ => none

def bindOps (env : List (ℕ × ℕ)) :
    List (List ℕ × List ℕ) → Option (List (ℕ × ℕ))
  | [] => some env
  | (ls, sh) :: rest =>
      match bindOp env ls sh with
      | some env2 => bindOps env2 rest
      | none => none

def outSh (env : List (ℕ × ℕ)) : List ℕ → Option (List ℕ)
  | [] => some []
  | l :: ls =>
      match lookupN env l, outSh env ls with
      | some v, some rest => some (v :: rest)
      | _, _ => none

/-- Modelled from the spec: `tf.einsum` at shape level — bind every
operand's subscripts against its shape, then read the output subscripts
off the binding. -/
def einsumSh (ops : List (List ℕ × List ℕ)) (out : List ℕ) : Option (List ℕ) :=
  match bindOps [] ops with
  | some env => outSh env out
  | none => none

def einsumE (ops : List (List ℕ × List ℕ)) (out : List ℕ) :
    Except TFErr (List ℕ) :=
  match einsumSh ops out with
  | some sh => .ok sh
  | none => .error (.einsumErr ops out)

/-- Modelled from the spec: elementwise tensor subtraction requires equal
shapes. -/
def subE (a b : List ℕ) : Except TFErr (List ℕ) :=
  if a = b then .ok a else .error (.subErr a b)

/-- Modelled from the spec: `tf.concat` along `ax` requires equal ranks
and equal dimensions away from `ax`, and adds the dimensions at `ax`. -/
def concatE (ax : ℕ) (a b : List ℕ) : Except TFErr (List ℕ) :=
  if ax < a.length ∧ a.length = b.length ∧ a.eraseIdx ax = b.eraseIdx ax then
    .ok (a.set ax (a.getD ax 0 + b.getD ax 0))
  else .error (.concatErr ax a b)

/-- The `mode_str`: `'ij'` for a TT-matrix, `'i'` for a TT-tensor. -/
def modeL (mat : Bool) : List ℕ := if mat then [6, 7] else [6]

/-- The `another_mode_str`: `'rt'` for a TT-matrix, `'r'` for a TT-tensor. -/
def amodeL (mat : Bool) : List ℕ := if mat then [11, 12] else [11]

/-- One step of the backward sweep shared by `project` and `project_sum`:
`einsum('sa{m}b,sbd,c{m}d->sac', tens_core, rhs[k+1], right_core)`. -/
def rhsStepSh (mat : Bool) (wb rtt : TT) (k : ℕ) (prev : List ℕ) :
    Except TFErr (List ℕ) :=
  einsumE [([9, 0] ++ modeL mat ++ [1], coreSh wb k), ([9, 1, 3], prev),
    ([2] ++ modeL mat ++ [3], coreSh rtt k)] [9, 0, 2]

/-- Here `rhsSh j` is the shape of `rhs[ndims - j]`; `rhs[ndims]` is the ones
tensor of shape `(batch_size, 1, 1)`. -/
def rhsSh (mat : Bool) (wb rtt : TT) : ℕ → Except TFErr (List ℕ)
  | 0 => .ok [wb.bS, 1, 1]
  | j + 1 => do
      let prev ← rhsSh mat wb rtt j
      rhsStepSh mat wb rtt (wb.d - (j + 1)) prev

/-- One step of the forward sweep shared by `project` and `project_sum`:
`einsum('sab,a{m}c,sb{m}d->scd', lhs[k], left_core, tens_core)`. -/
def lhsStepSh (mat : Bool) (wb ltt : TT) (k : ℕ) (prev : List ℕ) :
    Except TFErr (List ℕ) :=
  einsumE [([9, 0, 1], prev), ([0] ++ modeL mat ++ [2], coreSh ltt k),
    ([9, 1] ++ modeL mat ++ [3], coreSh wb k)] [9, 2, 3]

/-- Here `lhsSh k` is the shape of `lhs[k]`; `lhs[0]` is the ones tensor of
shape `(batch_size, 1, 1)`. -/
def lhsSh (mat : Bool) (wb ltt : TT) : ℕ → Except TFErr (List ℕ)
  | 0 => .ok [wb.bS, 1, 1]
  | k + 1 => do
      let prev ← lhsSh mat wb ltt k
      lhsStepSh mat wb ltt k prev

/-- Projection core of `project`: the interior branch computes
`'sab,sb{m}c->sa{m}c'` minus `'a{m}b,sbc->sa{m}c'`, contracted with
`rhs[k+1]` (`->sa{m}c'` for a batch output, `->a{m}c'` otherwise); the
last branch computes `'sab,sb{m}c->(s)a{m}c'`. -/
def projCoreShP (mat outB : Bool) (wb ltt : TT)
    (lhsk lhsk1 rhsk1 : List ℕ) (k : ℕ) : Except TFErr (List ℕ) :=
  if k < wb.d - 1 then do
    let p1 ← einsumE [([9, 0, 1], lhsk),
      ([9, 1] ++ modeL mat ++ [2], coreSh wb k)] ([9, 0] ++ modeL mat ++ [2])
    let p2 ← einsumE [([0] ++ modeL mat ++ [1], coreSh ltt k),
      ([9, 1, 2], lhsk1)] ([9, 0] ++ modeL mat ++ [2])
    let p3 ← subE p1 p2
    einsumE [([9, 0] ++ modeL mat ++ [1], p3), ([9, 1, 2], rhsk1)]
      ((if outB then [9] else []) ++ [0] ++ modeL mat ++ [2])
  else
    einsumE [([9, 0, 1], lhsk), ([9, 1] ++ modeL mat ++ [2], coreSh wb k)]
      ((if outB then [9] else []) ++ [0] ++ modeL mat ++ [2])

/-- Output-core assembly shared by the three operations: extend the two
orthogonal cores across the output batch when the output is a batch, then
concatenate — first core along the right rank axis, last core along the
left rank axis, interior cores as the 2×2 block with a zero block of shape
`(right_rank[k], mode sizes, left_rank[k+1])`. -/
def assembleSh (mat outB : Bool) (oBS : ℕ) (whereT ltt rtt : TT)
    (proj : List ℕ) (k : ℕ) : Except TFErr (List ℕ) :=
  let rrd := (if mat then 3 else 2) + (if outB then 1 else 0)
  let lrd := if outB then 1 else 0
  let extL := if outB then oBS :: coreSh ltt k else coreSh ltt k
  let extR := if outB then oBS :: coreSh rtt k else coreSh rtt k
  if k = 0 then concatE rrd proj extL
  else if k = whereT.d - 1 then concatE lrd extR proj
  else do
    let zsh := (if outB then [oBS] else []) ++ [rtt.rk k, whereT.rows k] ++
      (if mat then [whereT.cols k] else []) ++ [ltt.rk (k + 1)]
    let upper ← concatE rrd extR zsh
    let lower ← concatE rrd proj extL
    concatE lrd upper lower

/-- The `res_cores_list` loop: run the per-core computation for
`core_idx = 0 .. d-1`, stopping at the first failure. -/
def coresLoop (f : ℕ → Except TFErr (List ℕ)) : ℕ → Except TFErr (List (List ℕ))
  | 0 => .ok []
  | k + 1 => do
      let prev ← coresLoop f k
      let c ← f k
      .ok (prev ++ [c])

/-- The full per-core computation of `project` at `core_idx = k`: fetch
`lhs[k]`, `lhs[k+1]` and `rhs[k+1]` (values of the already-run sweeps),
build the projection core and assemble the output core. -/
def projCoreFull (lt rt : ℕ → ℕ) (what whereT : TT) (k : ℕ) :
    Except TFErr (List ℕ) := do
  let lk ← lhsSh whereT.isMat (expandBatchDim what) (orthoWith whereT lt) k
  let lk1 ← lhsSh whereT.isMat (expandBatchDim what) (orthoWith whereT lt)
    (min (k + 1) ((expandBatchDim what).d - 1))
  let rk1 ← rhsSh whereT.isMat (expandBatchDim what) (orthoWith whereT rt)
    ((expandBatchDim what).d - (k + 1))
  let proj ← projCoreShP whereT.isMat what.isBatch (expandBatchDim what)
    (orthoWith whereT lt) lk lk1 rk1 k
  assembleSh whereT.isMat what.isBatch what.bS whereT (orthoWith whereT lt)
    (orthoWith whereT rt) proj k

/-- Shape-level `project` parametrized by the tangent-space ranks `lt`
(left orthogonalization) and `rt` (right orthogonalization): validation,
both sweeps in source order, then the assembly loop; the returned object
carries `where`'s raw shape, and is a batch exactly when `what` is. -/
def projectSh (lt rt : ℕ → ℕ) (what whereT : TT) : Except TFErr ResSh := do
  let _ ← validateSh what whereT
  let wb := expandBatchDim what
  let _ ← rhsSh whereT.isMat wb (orthoWith whereT rt) (wb.d - 1)
  let _ ← lhsSh whereT.isMat wb (orthoWith whereT lt) (wb.d - 1)
  let cores ← coresLoop (projCoreFull lt rt what whereT) wb.d
  .ok ⟨what.isBatch, what.bS, rawShape whereT, cores⟩

/-- The `output_is_batch` flag of `project_sum`: the weights are 2-D with second
dimension above one. -/
def outBatchW (ws : Option (List ℕ)) : Bool :=
  match ws with
  | none => false
  | some l => decide (1 < l.length) && decide (1 < l.getD 1 0)

/-- The `output_batch_size` of `project_sum` (read only when the output is a
batch). -/
def outBatchSizeW (ws : Option (List ℕ)) : ℕ :=
  match ws with
  | none => 0
  | some l => l.getD 1 0

/-- Projection core of `project_sum`: the interior branch builds the
`common_term` and `u_proj`, then either sums over the batch axis and
subtracts `'a{m}b{r},sa{m}d->b{r}d'` (no weights) or contracts both
against the weights with `'s{o}'` subscripts; the last branch contracts
`lhs` with the core (and the weights when given). -/
def projCoreShPS (mat : Bool) (ws : Option (List ℕ)) (wb ltt : TT)
    (lhsk rhsk1 : List ℕ) (k : ℕ) : Except TFErr (List ℕ) :=
  let outB := outBatchW ws
  let obs : List ℕ := if outB then [10] else []
  if k < wb.d - 1 then do
    let common ← einsumE [([9, 0, 3], lhsk),
      ([9, 3] ++ modeL mat ++ [1], coreSh wb k), ([9, 1, 2], rhsk1)]
      ([9, 0] ++ modeL mat ++ [2])
    let uproj ← einsumE [([0] ++ modeL mat ++ [2], coreSh ltt k),
      ([1] ++ amodeL mat ++ [2], coreSh ltt k)]
      ([0] ++ modeL mat ++ [1] ++ amodeL mat)
    match ws with
    | none => do
        let p1 := common.tail
        let p2 ← einsumE [([0] ++ modeL mat ++ [1] ++ amodeL mat, uproj),
          ([9, 0] ++ modeL mat ++ [3], common)] ([1] ++ amodeL mat ++ [3])
        subE p1 p2
    | some w => do
        let p1 ← einsumE [([9, 0] ++ modeL mat ++ [1], common),
          ([9] ++ obs, w)] (obs ++ [0] ++ modeL mat ++ [1])
        let p2 ← einsumE [([0] ++ modeL mat ++ [1] ++ amodeL mat, uproj),
          ([9, 0] ++ modeL mat ++ [3], common), ([9] ++ obs, w)]
          (obs ++ [1] ++ amodeL mat ++ [3])
        subE p1 p2
  else
    match ws with
    | none =>
        einsumE [([9, 0, 1], lhsk), ([9, 1] ++ modeL mat ++ [2], coreSh wb k)]
          ([0] ++ modeL mat ++ [2])
    | some w =>
        einsumE [([9, 0, 1], lhsk), ([9, 1] ++ modeL mat ++ [2], coreSh wb k),
          ([9] ++ obs, w)] (obs ++ [0] ++ modeL mat ++ [2])

/-- The full per-core computation of `project_sum` at `core_idx = k`. -/
def projCoreFullS (lt rt : ℕ → ℕ) (what whereT : TT) (ws : Option (List ℕ))
    (k : ℕ) : Except TFErr (List ℕ) := do
  let lk ← lhsSh whereT.isMat (expandBatchDim what) (orthoWith whereT lt) k
  let rk1 ← rhsSh whereT.isMat (expandBatchDim what) (orthoWith whereT rt)
    ((expandBatchDim what).d - (k + 1))
  let proj ← projCoreShPS whereT.isMat ws (expandBatchDim what)
    (orthoWith whereT lt) lk rk1 k
  assembleSh whereT.isMat (outBatchW ws) (outBatchSizeW ws) whereT
    (orthoWith whereT lt) (orthoWith whereT rt) proj k

/-- Shape-level `project_sum`: `what` is wrapped into a batch first, then
the three validations run, then both sweeps and the assembly loop; the
result is a batch of size `weights_shape[1]` exactly when
`output_is_batch`. -/
def projectSumSh (lt rt : ℕ → ℕ) (what whereT : TT) (ws : Option (List ℕ)) :
    Except TFErr ResSh := do
  let wb := expandBatchDim what
  let _ ← validateSh wb whereT
  let _ ← rhsSh whereT.isMat wb (orthoWith whereT rt) (wb.d - 1)
  let _ ← lhsSh whereT.isMat wb (orthoWith whereT lt) (wb.d - 1)
  let cores ← coresLoop (projCoreFullS lt rt what whereT ws) wb.d
  .ok ⟨outBatchW ws, outBatchSizeW ws, rawShape whereT, cores⟩

/-- One step of `project_matmul`'s backward sweep:
`einsum('bije,cikf,sdef,sajkd->sabc', matrix_core, right_core, rhs[k+1],
tens_core)`. -/
def rhsStepShM (wb rtt mtx : TT) (k : ℕ) (prev : List ℕ) :
    Except TFErr (List ℕ) :=
  einsumE [([1, 6, 7, 4], coreSh mtx k), ([2, 6, 8, 5], coreSh rtt k),
    ([9, 3, 4, 5], prev), ([9, 0, 7, 8, 3], coreSh wb k)] [9, 0, 1, 2]

/-- Shape of `project_matmul`'s `rhs[ndims - j]`; `rhs[ndims]` is the ones tensor
of shape `(batch_size, 1, 1, 1)`. -/
def rhsShM (wb rtt mtx : TT) : ℕ → Except TFErr (List ℕ)
  | 0 => .ok [wb.bS, 1, 1, 1]
  | j + 1 => do
      let prev ← rhsShM wb rtt mtx j
      rhsStepShM wb rtt mtx (wb.d - (j + 1)) prev

/-- One step of `project_matmul`'s forward sweep:
`einsum('bije,aikd,sabc,scjkf->sdef', matrix_core, left_core, lhs[k],
tens_core)`. -/
def lhsStepShM (wb ltt mtx : TT) (k : ℕ) (prev : List ℕ) :
    Except TFErr (List ℕ) :=
  einsumE [([1, 6, 7, 4], coreSh mtx k), ([0, 6, 8, 3], coreSh ltt k),
    ([9, 0, 1, 2], prev), ([9, 2, 7, 8, 5], coreSh wb k)] [9, 3, 4, 5]

/-- Shape of `project_matmul`'s `lhs[k]`; `lhs[0]` is the ones tensor of shape
`(batch_size, 1, 1, 1)`. -/
def lhsShM (wb ltt mtx : TT) : ℕ → Except TFErr (List ℕ)
  | 0 => .ok [wb.bS, 1, 1, 1]
  | k + 1 => do
      let prev ← lhsShM wb ltt mtx k
      lhsStepShM wb ltt mtx k prev

/-- Projection core of `project_matmul`: `'scjke,sabc,bijd->saikde'` minus
`'aikb,sbcd->saikcd'`, contracted as `'saikcb,sbcd->saikd'`; last branch
`'sabc,bijd,scjke->saike'`.  Both keep the batch subscript `s` in the
output. -/
def projCoreShM (wb ltt mtx : TT) (lhsk lhsk1 rhsk1 : List ℕ) (k : ℕ) :
    Except TFErr (List ℕ) :=
  if k < wb.d - 1 then do
    let p1 ← einsumE [([9, 2, 7, 8, 4], coreSh wb k), ([9, 0, 1, 2], lhsk),
      ([1, 6, 7, 3], coreSh mtx k)] [9, 0, 6, 8, 3, 4]
    let p2 ← einsumE [([0, 6, 8, 1], coreSh ltt k), ([9, 1, 2, 3], lhsk1)]
      [9, 0, 6, 8, 2, 3]
    let p3 ← subE p1 p2
    einsumE [([9, 0, 6, 8, 2, 1], p3), ([9, 1, 2, 3], rhsk1)] [9, 0, 6, 8, 3]
  else
    einsumE [([9, 0, 1, 2], lhsk), ([1, 6, 7, 3], coreSh mtx k),
      ([9, 2, 7, 8, 4], coreSh wb k)] [9, 0, 6, 8, 4]

/-- The full per-core computation of `project_matmul` at `core_idx = k`. -/
def projCoreFullM (lt rt : ℕ → ℕ) (what whereT mtx : TT) (k : ℕ) :
    Except TFErr (List ℕ) := do
  let lk ← lhsShM (expandBatchDim what) (orthoWith whereT lt) mtx k
  let lk1 ← lhsShM (expandBatchDim what) (orthoWith whereT lt) mtx
    (min (k + 1) ((expandBatchDim what).d - 1))
  let rk1 ← rhsShM (expandBatchDim what) (orthoWith whereT rt) mtx
    ((expandBatchDim what).d - (k + 1))
  let proj ← projCoreShM (expandBatchDim what) (orthoWith whereT lt) mtx
    lk lk1 rk1 k
  assembleSh true what.isBatch what.bS whereT (orthoWith whereT lt)
    (orthoWith whereT rt) proj k

/-- Shape-level `project_matmul`: the same three validations (none of
which reads `matrix`), the four-subscript sweeps, and the matrix-style
assembly. -/
def projectMatmulSh (lt rt : ℕ → ℕ) (what whereT mtx : TT) :
    Except TFErr ResSh := do
  let _ ← validateSh what whereT
  let wb := expandBatchDim what
  let _ ← rhsShM wb (orthoWith whereT rt) mtx (wb.d - 1)
  let _ ← lhsShM wb (orthoWith whereT lt) mtx (wb.d - 1)
  let cores ← coresLoop (projCoreFullM lt rt what whereT mtx) wb.d
  .ok ⟨what.isBatch, what.bS, rawShape whereT, cores⟩

/-- Expected output-core shapes of `project`/`project_sum` on a single
TT-tensor argument: read off the concatenations, the internal rank at cut
`k` is `rt k + lt k`, and for a single mode the trailing rank is
`1 + lt 1`. -/
def projResCoreSh (lt rt : ℕ → ℕ) (t : TT) (k : ℕ) : List ℕ :=
  if t.d = 1 then [lt 0, t.rows 0, 1 + lt 1]
  else if k = 0 then [lt 0, t.rows 0, rt 1 + lt 1]
  else if k = t.d - 1 then
    [rt (t.d - 1) + lt (t.d - 1), t.rows (t.d - 1), 1]
  else [rt k + lt k, t.rows k, rt (k + 1) + lt (k + 1)]

/-- Concrete 2-mode TT-tensor manifold point: mode sizes `(2, 2)`. -/
def cWhere : TT := ⟨false, false, 0, 2, fun _ => 2, fun _ => 0,
  fun k => if k = 1 then 2 else 1, 0⟩

/-- Concrete 2-mode rank-one perturbation of the same raw shape. -/
def cWhat : TT := ⟨false, false, 0, 2, fun _ => 2, fun _ => 0, fun _ => 1, 0⟩

/-- Batch of two such perturbations. -/
def cWhatB : TT := ⟨false, true, 2, 2, fun _ => 2, fun _ => 0, fun _ => 1, 0⟩

/-- A batch in `where` position (invalid first argument). -/
def cWhereB : TT := ⟨false, true, 3, 2, fun _ => 2, fun _ => 0,
  fun k => if k = 1 then 2 else 1, 0⟩

/-- Single-mode manifold point. -/
def dWhere : TT := ⟨false, false, 0, 1, fun _ => 2, fun _ => 0, fun _ => 1, 0⟩

/-- Single-mode perturbation. -/
def dWhat : TT := ⟨false, false, 0, 1, fun _ => 2, fun _ => 0, fun _ => 1, 0⟩

/-- Tangent-space ranks of the concrete instances: interior rank 2. -/
def cLt : ℕ → ℕ := fun k => if k = 1 then 2 else 1

/-- Right-orthogonal tangent-space ranks of the concrete instances. -/
def cRt : ℕ → ℕ := fun k => if k = 1 then 2 else 1

/-- Concrete 2-mode TT-matrix manifold point, mode sizes `(2, 2) × (2, 2)`. -/
def mWhere : TT := ⟨true, false, 0, 2, fun _ => 2, fun _ => 2,
  fun k => if k = 1 then 2 else 1, 0⟩

/-- Concrete TT-matrix perturbation of the same raw shape (non-batch). -/
def mWhat : TT := ⟨true, false, 0, 2, fun _ => 2, fun _ => 2, fun _ => 1, 0⟩

/-- Batch of two TT-matrix perturbations. -/
def mWhatB : TT := ⟨true, true, 2, 2, fun _ => 2, fun _ => 2, fun _ => 1, 0⟩

/-- Identity-shaped TT-matrix: square modes matching `mWhat`, ranks 1. -/
def mMtx : TT := ⟨true, false, 0, 2, fun _ => 2, fun _ => 2, fun _ => 1, 0⟩

/-- TT-matrix whose column modes (3) do not match `mWhat`'s rows (2). -/
def mMtxBad : TT := ⟨true, false, 0, 2, fun _ => 2, fun _ => 3, fun _ => 1, 0⟩

/-- TT-matrix whose column modes (4) do not match `mWhat`'s rows (2). -/
def mMtxBad4 : TT := ⟨true, false, 0, 2, fun _ => 2, fun _ => 4, fun _ => 1, 0⟩

/-- Optional leading batch entry of a core shape. -/
def bdim (b : Bool) (s : ℕ) : List ℕ := if b then [s] else []

/-- Optional column-mode entry of a core shape. -/
def mdim (m : Bool) (c : ℕ) : List ℕ := if m then [c] else []

/-- Expected output-core shapes of the three operations on a valid pair,
general form: optional output-batch entry, then the concatenated block
core — the internal rank at cut `k` is `rt k + lt k`, and for a single
mode the trailing rank is `1 + lt 1`. -/
def projResCoreShG (lt rt : ℕ → ℕ) (t : TT) (outB : Bool) (oBS : ℕ)
    (k : ℕ) : List ℕ :=
  bdim outB oBS ++
    (if t.d = 1 then
      [lt 0, t.rows 0] ++ mdim t.isMat (t.cols 0) ++ [1 + lt 1]
    else if k = 0 then
      [lt 0, t.rows 0] ++ mdim t.isMat (t.cols 0) ++ [rt 1 + lt 1]
    else if k = t.d - 1 then
      [rt (t.d - 1) + lt (t.d - 1), t.rows (t.d - 1)] ++
        mdim t.isMat (t.cols (t.d - 1)) ++ [1]
    else
      [rt k + lt k, t.rows k] ++ mdim t.isMat (t.cols k) ++
        [rt (k + 1) + lt (k + 1)])

theorem sumR_congr {n : ℕ} {f g : ℕ → ℚ} (h : ∀ x < n, f x = g x) :
    sumR n f = sumR n g :=
  Finset.sum_congr rfl fun x hx => h x (Finset.mem_range.mp hx)

theorem sumR_zero {n : ℕ} {f : ℕ → ℚ} (h : ∀ x < n, f x = 0) : sumR n f = 0 := by
  rw [sumR, Finset.sum_eq_zero]
  intro x hx
  exact h x (Finset.mem_range.mp hx)

theorem sumR_add (n : ℕ) (f g : ℕ → ℚ) :
    sumR n (fun x => f x + g x) = sumR n f + sumR n g :=
  Finset.sum_add_distrib

theorem sumR_sub (n : ℕ) (f g : ℕ → ℚ) :
    sumR n (fun x => f x - g x) = sumR n f - sumR n g :=
  Finset.sum_sub_distrib

theorem sumR_mul (n : ℕ) (f : ℕ → ℚ) (c : ℚ) :
    sumR n (fun x => f x * c) = sumR n f * c :=
  (Finset.sum_mul ..).symm

theorem mul_sumR (n : ℕ) (f : ℕ → ℚ) (c : ℚ) :
    sumR n (fun x => c * f x) = c * sumR n f :=
  (Finset.mul_sum ..).symm

theorem sumR_comm (m n : ℕ) (f : ℕ → ℕ → ℚ) :
    sumR m (fun x => sumR n (fun y => f x y)) =
      sumR n (fun y => sumR m (fun x => f x y)) :=
  Finset.sum_comm

/-- The sum `∑_{e<n} (if c = e then 1 else 0) * f e` picks out `f c`. -/
theorem sumR_delta (n : ℕ) (c : ℕ) (hc : c < n) (f : ℕ → ℚ) :
    sumR n (fun e => (if c = e then (1 : ℚ) else 0) * f e) = f c := by
  rw [sumR]
  rw [Finset.sum_eq_single c]
  · simp
  · intro b _ hb
    simp [Ne.symm hb]
  · intro hb
    exact absurd (Finset.mem_range.mpr hc) hb

theorem sumR_split (m k : ℕ) (f : ℕ → ℚ) :
    sumR (m + k) f = sumR m f + sumR k (fun x => f (m + x)) :=
  Finset.sum_range_add f m k

theorem sumR_one (f : ℕ → ℚ) : sumR 1 f = f 0 := by
  rw [sumR, Finset.sum_range_one]

/-- Splitting a sum over a block index `s * r + b` into the two components. -/
theorem sumR_block (S r : ℕ) (f : ℕ → ℚ) :
    sumR (S * r) f = sumR S (fun s => sumR r (fun b => f (s * r + b))) := by
  induction S with
  | zero => simp [sumR]
  | succ S ih =>
      rw [Nat.succ_mul, sumR_split, ih, sumR_split _ 1, sumR_one]
      simp

theorem sumR_delta_zero (n : ℕ) (hn : 0 < n) (f : ℕ → ℚ) :
    sumR n (fun c => f c * (if c = 0 then 1 else 0)) = f 0 := by
  rw [sumR, Finset.sum_eq_single 0]
  · simp
  · intro b _ hb
    simp [hb]
  · intro hb
    exact absurd (Finset.mem_range.mpr hn) hb

/-- On batch element `0`, the `lhs` accumulators of `project(where, where)`
coincide with the transfer matrices of the left orthogonalization. -/
theorem lhs_eq_T (p : PIn) (T : ℕ → ℕ → ℕ → ℚ)
    (h : IsLeftOrthogonalization p T) :
    ∀ k, k < p.d → ∀ a, a < p.lr k → ∀ b, b < p.wr k →
      lhsV p k 0 a b = T k a b := by
  intro k
  induction k with
  | zero =>
      intro _ a ha b hb
      rw [h.l0] at ha
      rw [h.w0] at hb
      have ha0 : a = 0 := by omega
      have hb0 : b = 0 := by omega
      subst ha0; subst hb0
      simp [lhsV, h.t0]
  | succ k ih =>
      intro hk1 c hc dd hdd
      have hk : k < p.d := Nat.lt_of_succ_lt hk1
      rw [lhsV]
      calc
        (sumR (p.lr k) fun a => sumR (p.wr k) fun b => sumR (p.n k) fun i =>
            lhsV p k 0 a b * p.L k a i c * p.W k 0 b i dd)
            = sumR (p.lr k) fun a => sumR (p.n k) fun i =>
                p.L k a i c * sumR (p.wr k) fun b =>
                  T k a b * p.W k 0 b i dd := by
              apply sumR_congr; intro a ha
              rw [sumR_comm]
              apply sumR_congr; intro i _
              rw [← mul_sumR]
              apply sumR_congr; intro b hb
              rw [ih hk a ha b hb]; ring
        _ = sumR (p.lr k) fun a => sumR (p.n k) fun i =>
              p.L k a i c * sumR (p.lr (k + 1)) fun e =>
                p.L k a i e * T (k + 1) e dd := by
              apply sumR_congr; intro a ha
              apply sumR_congr; intro i hi
              rw [h.trans k hk a ha i hi dd hdd]
        _ = sumR (p.lr (k + 1)) fun e =>
              (sumR (p.lr k) fun a => sumR (p.n k) fun i =>
                p.L k a i c * p.L k a i e) * T (k + 1) e dd := by
              calc
                (sumR (p.lr k) fun a => sumR (p.n k) fun i =>
                    p.L k a i c * sumR (p.lr (k + 1)) fun e =>
                      p.L k a i e * T (k + 1) e dd)
                    = sumR (p.lr k) fun a => sumR (p.lr (k + 1)) fun e =>
                        sumR (p.n k) fun i =>
                          p.L k a i c * p.L k a i e * T (k + 1) e dd := by
                      apply sumR_congr; intro a _
                      rw [sumR_comm]
                      apply sumR_congr; intro i _
                      rw [← mul_sumR]
                      apply sumR_congr; intro e _
                      ring
                _ = sumR (p.lr (k + 1)) fun e => sumR (p.lr k) fun a =>
                      sumR (p.n k) fun i =>
                        p.L k a i c * p.L k a i e * T (k + 1) e dd :=
                      sumR_comm ..
                _ = sumR (p.lr (k + 1)) fun e =>
                      (sumR (p.lr k) fun a => sumR (p.n k) fun i =>
                        p.L k a i c * p.L k a i e) * T (k + 1) e dd := by
                      apply sumR_congr; intro e _
                      rw [← sumR_mul]
                      apply sumR_congr; intro a _
                      rw [← sumR_mul]
        _ = sumR (p.lr (k + 1)) fun e =>
              (if c = e then (1 : ℚ) else 0) * T (k + 1) e dd := by
              apply sumR_congr; intro e he
              rw [h.orth k hk1 c hc e he]
        _ = T (k + 1) c dd := sumR_delta _ c hc _

/-- When projecting `where` onto its own tangent space, every projection
core except the last vanishes: the two terms of the
`core_idx < ndims - 1` branch cancel. -/
theorem projCore_eq_zero (p : PIn) (T : ℕ → ℕ → ℕ → ℚ)
    (h : IsLeftOrthogonalization p T) (hS : p.S = 1) :
    ∀ k, k + 1 < p.d → ∀ a, a < p.lr k → ∀ i, i < p.n k → ∀ c,
      projCoreV p k a i c = 0 := by
  intro k hk a ha i hi c
  have hkd : k < p.d - 1 := by omega
  rw [projCoreV, if_pos hkd]
  apply sumR_zero; intro s hs
  have hs0 : s = 0 := by omega
  subst hs0
  apply sumR_zero; intro b hb
  have ht1 : (sumR (p.wr k) fun bb => lhsV p k 0 a bb * p.W k 0 bb i b) =
      sumR (p.lr (k + 1)) fun e => p.L k a i e * T (k + 1) e b := by
    rw [← h.trans k (by omega) a ha i hi b hb]
    apply sumR_congr; intro bb hbb
    rw [lhs_eq_T p T h k (by omega) a ha bb hbb]
  have ht2 : (sumR (p.lr (k + 1)) fun e => p.L k a i e * lhsV p (k + 1) 0 e b) =
      sumR (p.lr (k + 1)) fun e => p.L k a i e * T (k + 1) e b := by
    apply sumR_congr; intro e he
    rw [lhs_eq_T p T h (k + 1) hk e he b hb]
  rw [ht1, ht2, sub_self, zero_mul]

/-- The last projection core of `project(where, where)` equals the last
left-orthogonal core. -/
theorem projCore_last (p : PIn) (T : ℕ → ℕ → ℕ → ℚ)
    (h : IsLeftOrthogonalization p T) (hS : p.S = 1) (hd : 1 ≤ p.d) :
    ∀ a, a < p.lr (p.d - 1) → ∀ i, i < p.n (p.d - 1) →
      projCoreV p (p.d - 1) a i 0 = p.L (p.d - 1) a i 0 := by
  intro a ha i hi
  have hsub : p.d - 1 + 1 = p.d := by omega
  rw [projCoreV, if_neg (lt_irrefl _), hS, sumR_one]
  have hwd0 : 0 < p.wr (p.d - 1 + 1) := by rw [hsub, h.wd]; omega
  calc
    (sumR (p.wr (p.d - 1)) fun b => lhsV p (p.d - 1) 0 a b * p.W (p.d - 1) 0 b i 0)
        = sumR (p.wr (p.d - 1)) fun b => T (p.d - 1) a b * p.W (p.d - 1) 0 b i 0 := by
          apply sumR_congr; intro b hb
          rw [lhs_eq_T p T h (p.d - 1) (by omega) a ha b hb]
    _ = sumR (p.lr (p.d - 1 + 1)) fun e => p.L (p.d - 1) a i e * T (p.d - 1 + 1) e 0 := by
          exact h.trans (p.d - 1) (by omega) a ha i hi 0 hwd0
    _ = p.L (p.d - 1) a i 0 := by
          rw [hsub, h.ld, sumR_one, h.td, mul_one]

/-- Tail of the chain contraction of the result of `project(where, where)`:
on the lower (left-orthogonal) block indices it reproduces the tail of the
chain contraction of the left-orthogonal representation. -/
theorem chain_tail (p : PIn) (T : ℕ → ℕ → ℕ → ℚ)
    (h : IsLeftOrthogonalization p T) (hS : p.S = 1) (hd : 2 ≤ p.d)
    (hrd : p.rr p.d = 1) (i : ℕ → ℕ) (hi : ∀ k < p.d, i k < p.n k) :
    ∀ j, 1 ≤ j → j ≤ p.d - 1 → ∀ b, b < p.lr (p.d - j) →
      chainAux (resRankV p) (resCoreV p) p.d i j (p.rr (p.d - j) + b) =
        chainAux p.lr p.L p.d i j b := by
  intro j
  induction j with
  | zero => intro hj; omega
  | succ j ih =>
      intro _ hj b hb
      rcases Nat.eq_zero_or_pos j with hj0 | hj1
      · -- last core, `j + 1 = 1`
        subst hj0
        simp only [Nat.zero_add] at hb ⊢
        rw [chainAux, chainAux]
        have hdd : p.d - 0 = p.d := by omega
        rw [hdd]
        have hrk : resRankV p p.d = p.rr p.d := by
          rw [resRankV, if_neg (by omega), if_neg (by omega), if_neg (by omega)]
        rw [hrk, hrd, h.ld, sumR_one, sumR_one, chainAux, chainAux]
        simp only [eq_self_iff_true, if_true, mul_one]
        have hne : ¬ (p.d - 1 = 0) := by omega
        have hnlt : ¬ (p.rr (p.d - 1) + b < p.rr (p.d - 1)) := by omega
        simp only [Nat.zero_add]
        rw [resCoreV, if_neg hne, if_pos rfl, if_neg hnlt, Nat.add_sub_cancel_left]
        exact projCore_last p T h hS (by omega) b (by simpa using hb) (i (p.d - 1))
          (hi (p.d - 1) (by omega))
      · -- interior core `k = p.d - (j + 1)` with `1 ≤ k ≤ p.d - 2`
        have hk1 : 1 ≤ p.d - (j + 1) := by omega
        have hksub : p.d - (j + 1) + 1 = p.d - j := by omega
        rw [chainAux, chainAux]
        have hrk : resRankV p (p.d - j) = p.rr (p.d - j) + p.lr (p.d - j) := by
          rw [resRankV, if_neg (by omega), if_pos (by omega)]
        rw [hrk, sumR_split]
        have hz : (sumR (p.rr (p.d - j)) fun c =>
            resCoreV p (p.d - (j + 1)) (p.rr (p.d - (j + 1)) + b) (i (p.d - (j + 1))) c *
              chainAux (resRankV p) (resCoreV p) p.d i j c) = 0 := by
          apply sumR_zero; intro c hcc
          have hne0 : ¬ (p.d - (j + 1) = 0) := by omega
          have hnel : ¬ (p.d - (j + 1) = p.d - 1) := by omega
          have hnlt : ¬ (p.rr (p.d - (j + 1)) + b < p.rr (p.d - (j + 1))) := by omega
          rw [resCoreV, if_neg hne0, if_neg hnel, if_neg hnlt, if_pos (by rw [hksub]; exact hcc),
            Nat.add_sub_cancel_left,
            projCore_eq_zero p T h hS (p.d - (j + 1)) (by omega) b (by simpa using hb)
              (i (p.d - (j + 1))) (hi (p.d - (j + 1)) (by omega)) c, zero_mul]
        rw [hz, zero_add]
        apply sumR_congr; intro e he
        have hne0 : ¬ (p.d - (j + 1) = 0) := by omega
        have hnel : ¬ (p.d - (j + 1) = p.d - 1) := by omega
        have hnlt : ¬ (p.rr (p.d - (j + 1)) + b < p.rr (p.d - (j + 1))) := by omega
        have hnlt2 : ¬ (p.rr (p.d - j) + e < p.rr (p.d - (j + 1) + 1)) := by
          rw [hksub]; omega
        rw [resCoreV, if_neg hne0, if_neg hnel, if_neg hnlt, if_neg hnlt2,
          Nat.add_sub_cancel_left]
        have he2 : p.rr (p.d - j) + e - p.rr (p.d - (j + 1) + 1) = e := by
          rw [hksub]; omega
        rw [he2, ih hj1 (by omega) e he]

/-- Suffix form of the transfer relation: contracting the transfer matrix
into the tail of `where`'s chain contraction yields the tail of the
left-orthogonal chain contraction. -/
theorem chainW_T (p : PIn) (T : ℕ → ℕ → ℕ → ℚ)
    (h : IsLeftOrthogonalization p T) (i : ℕ → ℕ)
    (hi : ∀ k < p.d, i k < p.n k) :
    ∀ j, j ≤ p.d → ∀ a, a < p.lr (p.d - j) →
      (sumR (p.wr (p.d - j)) fun b =>
        T (p.d - j) a b * chainAux p.wr (fun k => p.W k 0) p.d i j b) =
        chainAux p.lr p.L p.d i j a := by
  intro j
  induction j with
  | zero =>
      intro _ a ha
      simp only [Nat.sub_zero] at ha ⊢
      rw [h.wd, sumR_one, chainAux, chainAux]
      rw [h.ld] at ha
      have ha0 : a = 0 := by omega
      subst ha0
      simp [h.td]
  | succ j ih =>
      intro hj a ha
      have hklt : p.d - (j + 1) < p.d := by omega
      have hksub : p.d - (j + 1) + 1 = p.d - j := by omega
      have htr : ∀ c, c < p.wr (p.d - j) →
          (sumR (p.wr (p.d - (j + 1))) fun b =>
            T (p.d - (j + 1)) a b * p.W (p.d - (j + 1)) 0 b (i (p.d - (j + 1))) c) =
            sumR (p.lr (p.d - j)) fun e =>
              p.L (p.d - (j + 1)) a (i (p.d - (j + 1))) e * T (p.d - j) e c := by
        intro c hc
        have ht := h.trans (p.d - (j + 1)) hklt a ha (i (p.d - (j + 1)))
          (hi _ hklt) c (by rw [hksub]; exact hc)
        rwa [hksub] at ht
      simp only [chainAux]
      calc
        (sumR (p.wr (p.d - (j + 1))) fun b =>
            T (p.d - (j + 1)) a b *
              sumR (p.wr (p.d - j)) fun c =>
                p.W (p.d - (j + 1)) 0 b (i (p.d - (j + 1))) c *
                  chainAux p.wr (fun k => p.W k 0) p.d i j c)
            = sumR (p.wr (p.d - (j + 1))) fun b =>
                sumR (p.wr (p.d - j)) fun c =>
                  T (p.d - (j + 1)) a b *
                    p.W (p.d - (j + 1)) 0 b (i (p.d - (j + 1))) c *
                    chainAux p.wr (fun k => p.W k 0) p.d i j c := by
              apply sumR_congr; intro b _
              rw [← mul_sumR]
              apply sumR_congr; intro c _
              ring
        _ = sumR (p.wr (p.d - j)) fun c =>
              sumR (p.wr (p.d - (j + 1))) fun b =>
                T (p.d - (j + 1)) a b *
                  p.W (p.d - (j + 1)) 0 b (i (p.d - (j + 1))) c *
                  chainAux p.wr (fun k => p.W k 0) p.d i j c := sumR_comm ..
        _ = sumR (p.wr (p.d - j)) fun c =>
              (sumR (p.wr (p.d - (j + 1))) fun b =>
                T (p.d - (j + 1)) a b *
                  p.W (p.d - (j + 1)) 0 b (i (p.d - (j + 1))) c) *
                chainAux p.wr (fun k => p.W k 0) p.d i j c := by
              apply sumR_congr; intro c _
              rw [← sumR_mul]
        _ = sumR (p.wr (p.d - j)) fun c =>
              (sumR (p.lr (p.d - j)) fun e =>
                p.L (p.d - (j + 1)) a (i (p.d - (j + 1))) e * T (p.d - j) e c) *
                chainAux p.wr (fun k => p.W k 0) p.d i j c := by
              apply sumR_congr; intro c hc
              rw [htr c hc]
        _ = sumR (p.wr (p.d - j)) fun c =>
              sumR (p.lr (p.d - j)) fun e =>
                p.L (p.d - (j + 1)) a (i (p.d - (j + 1))) e * T (p.d - j) e c *
                  chainAux p.wr (fun k => p.W k 0) p.d i j c := by
              apply sumR_congr; intro c _
              rw [← sumR_mul]
        _ = sumR (p.lr (p.d - j)) fun e =>
              sumR (p.wr (p.d - j)) fun c =>
                p.L (p.d - (j + 1)) a (i (p.d - (j + 1))) e * T (p.d - j) e c *
                  chainAux p.wr (fun k => p.W k 0) p.d i j c := sumR_comm ..
        _ = sumR (p.lr (p.d - j)) fun e =>
              p.L (p.d - (j + 1)) a (i (p.d - (j + 1))) e *
                chainAux p.lr p.L p.d i j e := by
              apply sumR_congr; intro e he
              have hfac : (sumR (p.wr (p.d - j)) fun c =>
                  p.L (p.d - (j + 1)) a (i (p.d - (j + 1))) e * T (p.d - j) e c *
                    chainAux p.wr (fun k => p.W k 0) p.d i j c) =
                  p.L (p.d - (j + 1)) a (i (p.d - (j + 1))) e *
                    sumR (p.wr (p.d - j)) fun c =>
                      T (p.d - j) e c * chainAux p.wr (fun k => p.W k 0) p.d i j c := by
                rw [← mul_sumR]
                apply sumR_congr; intro c _
                ring
              rw [hfac, ih (by omega) e he]

/-- Unfolding the first core out of a full chain contraction. -/
theorem chain_unfold_head (r : ℕ → ℕ) (core : ℕ → ℕ → ℕ → ℕ → ℚ) (d : ℕ)
    (i : ℕ → ℕ) (hd : 1 ≤ d) :
    chainAux r core d i d 0 =
      sumR (r 1) fun b => core 0 0 (i 0) b * chainAux r core d i (d - 1) b := by
  have hd' : d = (d - 1) + 1 := by omega
  conv_lhs => rw [hd']
  rw [chainAux, Nat.add_sub_cancel_left, Nat.sub_self, ← hd']

/-- C3: `project(where, where)` reproduces `where` exactly: the full-tensor
reconstruction of the assembled output of `project` equals the
reconstruction of `where`.  Here `p.W` holds the cores of `where` itself
(as the batch of one that `expand_batch_dim` produces) and `p.L`, `p.R` the
left- and right-orthogonal representations returned by the external
orthogonalizer, whose contract is `IsLeftOrthogonalization`. -/
theorem claim3_fixed_point (p : PIn) (T : ℕ → ℕ → ℕ → ℚ)
    (h : IsLeftOrthogonalization p T) (hS : p.S = 1) (hd : 1 ≤ p.d)
    (hrd : p.rr p.d = 1) (i : ℕ → ℕ) (hi : ∀ k < p.d, i k < p.n k) :
    fullResV p i = fullW p 0 i := by
  have hLW : chainAux p.lr p.L p.d i p.d 0 =
      chainAux p.wr (fun k => p.W k 0) p.d i p.d 0 := by
    have hc := chainW_T p T h i hi p.d (le_refl _) 0
      (by rw [Nat.sub_self, h.l0]; omega)
    rw [Nat.sub_self] at hc
    rw [h.w0, sumR_one, h.t0, one_mul] at hc
    exact hc.symm
  rcases Nat.lt_or_ge p.d 2 with hd1 | hd2
  · -- single-mode case: the one projection core is `lhs[0] · what_core`
    have hd1' : p.d = 1 := by omega
    have hw1 : p.wr 1 = 1 := by have hq := h.wd; rw [hd1'] at hq; exact hq
    have hl1 : p.lr 1 = 1 := by have hq := h.ld; rw [hd1'] at hq; exact hq
    rw [fullResV, fullW, chain_unfold_head _ _ _ _ hd,
      chain_unfold_head _ _ _ _ hd, hd1']
    have hr1 : resRankV p 1 = 2 := by
      rw [resRankV, if_neg (by omega), if_neg (by omega), if_pos hd1', hd1',
        hw1, hl1]
    rw [hr1, Nat.sub_self, hw1]
    simp only [chainAux]
    rw [sumR_delta_zero 2 (by omega) _, sumR_delta_zero 1 (by omega) _]
    rw [resCoreV, if_pos rfl]
    have hsp : splitV p 0 = 1 := by
      rw [splitV, if_neg (by omega), hd1', hw1]
    rw [hsp, if_pos (by omega), projCoreV, if_neg (by omega), hS, sumR_one,
      h.w0, sumR_one, lhsV]
    norm_num
  · -- `d ≥ 2`: the head projection core vanishes and the tail telescopes
    have hres : chainAux (resRankV p) (resCoreV p) p.d i p.d 0 =
        chainAux p.lr p.L p.d i p.d 0 := by
      rw [chain_unfold_head _ _ _ _ hd, chain_unfold_head _ _ _ _ hd]
      have hr1 : resRankV p 1 = p.rr 1 + p.lr 1 := by
        rw [resRankV, if_neg (by omega), if_pos (by omega)]
      have hsp : splitV p 0 = p.rr 1 := by
        rw [splitV, if_pos (by omega)]
      rw [hr1, sumR_split]
      have hz : (sumR (p.rr 1) fun c =>
          resCoreV p 0 0 (i 0) c *
            chainAux (resRankV p) (resCoreV p) p.d i (p.d - 1) c) = 0 := by
        apply sumR_zero; intro c hc
        rw [resCoreV, if_pos rfl, if_pos (by rw [hsp]; exact hc),
          projCore_eq_zero p T h hS 0 (by omega) 0 (by rw [h.l0]; omega)
            (i 0) (hi 0 (by omega)) c, zero_mul]
      rw [hz, zero_add]
      apply sumR_congr; intro e he
      have hnlt : ¬ (p.rr 1 + e < splitV p 0) := by rw [hsp]; omega
      rw [resCoreV, if_pos rfl, if_neg hnlt, hsp, Nat.add_sub_cancel_left]
      have hpd1 : p.d - (p.d - 1) = 1 := by omega
      have htl := chain_tail p T h hS hd2 hrd i hi (p.d - 1) (by omega)
        (le_refl _) e (by rw [hpd1]; exact he)
      rw [hpd1] at htl
      rw [htl]
    rw [fullResV, fullW]
    exact hres.trans hLW

theorem claim3_fixed_point_witness :
    (IsLeftOrthogonalization pC3 TC3 ∧ pC3.S = 1 ∧ 1 ≤ pC3.d ∧
      pC3.rr pC3.d = 1 ∧ (∀ k < pC3.d, (fun _ : ℕ => 0) k < pC3.n k)) ∧
      fullResV pC3 (fun _ => 0) = fullW pC3 0 (fun _ => 0) := by
  have horth : IsLeftOrthogonalization pC3 TC3 := by
    refine ⟨rfl, rfl, rfl, rfl, rfl, rfl, ?_, ?_⟩
    · intro k hk
      have hk2 : k + 1 < 2 := hk
      have hk0 : k = 0 := by omega
      subst hk0
      intro b hb b' hb'
      have hb2 : b < 2 := hb
      have hb2' : b' < 2 := hb'
      clear hb hb'
      interval_cases b <;> interval_cases b' <;>
        norm_num [pC3, TC3, sumR, Finset.sum_range_succ]
    · intro k hk
      have hk2 : k < 2 := hk
      clear hk
      interval_cases k
      · intro a ha i hi b hb
        have ha1 : a < 1 := ha
        have hi2 : i < 2 := hi
        have hb2 : b < 2 := hb
        clear ha hi hb
        interval_cases a <;> interval_cases i <;> interval_cases b <;>
          norm_num [pC3, TC3, sumR, Finset.sum_range_succ]
      · intro a ha i hi b hb
        have ha2 : a < 2 := ha
        have hi2 : i < 2 := hi
        have hb1 : b < 1 := hb
        clear ha hi hb
        interval_cases a <;> interval_cases i <;> interval_cases b <;>
          norm_num [pC3, TC3, sumR, Finset.sum_range_succ]
  exact ⟨⟨horth, rfl, by decide, by decide, by decide⟩,
    claim3_fixed_point pC3 TC3 horth rfl (by decide) (by decide) _ (by decide)⟩

theorem sumR_ite_eq (n : ℕ) (c : ℕ) (f : ℕ → ℚ) :
    sumR n (fun x => if x = c then f x else 0) = if c < n then f c else 0 := by
  rw [sumR, Finset.sum_ite_eq' (Finset.range n) c f]
  simp [Finset.mem_range]

theorem block_div (s q b : ℕ) (hb : b < q) : (s * q + b) / q = s := by
  rw [mul_comm, Nat.mul_add_div (by omega), Nat.div_eq_of_lt hb, Nat.add_zero]

theorem block_mod (s q b : ℕ) (hb : b < q) : (s * q + b) % q = b := by
  rw [mul_comm, Nat.mul_add_mod]
  exact Nat.mod_eq_of_lt hb

theorem sumIn_d (p : PIn) : (sumIn p).d = p.d := rfl

theorem sumIn_S (p : PIn) : (sumIn p).S = 1 := rfl

theorem sumIn_n (p : PIn) : (sumIn p).n = p.n := rfl

theorem sumIn_wr (p : PIn) : (sumIn p).wr = sumRank p := rfl

theorem sumIn_W (p : PIn) (k s : ℕ) : (sumIn p).W k s = sumCore p k := rfl

theorem sumIn_lr (p : PIn) : (sumIn p).lr = p.lr := rfl

theorem sumIn_L (p : PIn) : (sumIn p).L = p.L := rfl

theorem sumIn_rr (p : PIn) : (sumIn p).rr = p.rr := rfl

theorem sumIn_R (p : PIn) : (sumIn p).R = p.R := rfl

/-- On the direct-sum TT, the `lhs` accumulator restricted to a block of
the concatenated rank index is the `lhs` accumulator of the corresponding
batch element. -/
theorem lhs_sumIn (p : PIn) (hw0 : p.wr 0 = 1) :
    ∀ k, 1 ≤ k → k < p.d → ∀ a, ∀ s, s < p.S → ∀ b, b < p.wr k →
      lhsV (sumIn p) k 0 a (s * p.wr k + b) = lhsV p k s a b := by
  intro k
  induction k with
  | zero => intro h1; omega
  | succ k ih =>
      intro _ hkd a s hs b hb
      rcases Nat.eq_zero_or_pos k with hk0 | hk1
      · -- first step of the sweep, reading the row-concatenated core 0
        subst hk0
        simp only [lhsV, sumIn_lr, sumIn_wr, sumIn_n, sumIn_L, sumIn_W]
        simp only [Nat.zero_add] at hb ⊢
        have hsr0 : sumRank p 0 = 1 := by rw [sumRank, if_pos (Or.inl rfl)]
        rw [hw0, hsr0]
        apply sumR_congr; intro aa _
        apply sumR_congr; intro bb hbb
        apply sumR_congr; intro i _
        have hbb0 : bb = 0 := by omega
        subst hbb0
        by_cases haa0 : aa = 0
        · subst haa0
          have hsc : sumCore p 0 0 i (s * p.wr 1 + b) = p.W 0 s 0 i b := by
            rw [sumCore, if_neg (by omega), if_pos rfl, block_div s _ b hb,
              block_mod s _ b hb]
          rw [hsc]
        · simp [haa0]
      · -- interior step, reading a block-diagonal core
        simp only [lhsV, sumIn_lr, sumIn_wr, sumIn_n, sumIn_L, sumIn_W]
        apply sumR_congr; intro aa _
        have hsr : sumRank p k = p.S * p.wr k := by
          rw [sumRank, if_neg (by omega)]
        rw [hsr, sumR_block]
        have hstep : ∀ s2, s2 < p.S →
            (sumR (p.wr k) fun bb => sumR (p.n k) fun i =>
              lhsV (sumIn p) k 0 aa (s2 * p.wr k + bb) * p.L k aa i a *
                sumCore p k (s2 * p.wr k + bb) i (s * p.wr (k + 1) + b)) =
            if s2 = s then
              sumR (p.wr k) fun bb => sumR (p.n k) fun i =>
                lhsV p k s2 aa bb * p.L k aa i a * p.W k s2 bb i b
            else 0 := by
          intro s2 hs2
          by_cases hss : s2 = s
          · rw [if_pos hss]
            apply sumR_congr; intro bb hbb
            apply sumR_congr; intro i _
            rw [ih hk1 (by omega) aa s2 hs2 bb hbb]
            have hsc : sumCore p k (s2 * p.wr k + bb) i (s * p.wr (k + 1) + b)
                = p.W k s2 bb i b := by
              rw [sumCore, if_neg (by omega), if_neg (by omega),
                if_neg (by omega), block_div _ _ _ hbb, block_div _ _ _ hb,
                if_pos hss, block_mod _ _ _ hbb, block_mod _ _ _ hb]
            rw [hsc]
          · rw [if_neg hss]
            apply sumR_zero; intro bb hbb
            apply sumR_zero; intro i _
            have hsc : sumCore p k (s2 * p.wr k + bb) i (s * p.wr (k + 1) + b)
                = 0 := by
              rw [sumCore, if_neg (by omega), if_neg (by omega),
                if_neg (by omega), block_div _ _ _ hbb, block_div _ _ _ hb,
                if_neg hss]
            rw [hsc, mul_zero]
        rw [sumR_congr hstep, sumR_ite_eq, if_pos hs]

/-- On the direct-sum TT, the `rhs` accumulator restricted to a block of
the concatenated rank index is the `rhs` accumulator of the corresponding
batch element. -/
theorem rhs_sumIn (p : PIn) (hwd : p.wr p.d = 1) (hrd : 0 < p.rr p.d) :
    ∀ j, 1 ≤ j → j ≤ p.d - 1 → ∀ c, ∀ s, s < p.S → ∀ b, b < p.wr (p.d - j) →
      rhsAuxV (sumIn p) j 0 (s * p.wr (p.d - j) + b) c = rhsAuxV p j s b c := by
  intro j
  induction j with
  | zero => intro h1; omega
  | succ j ih =>
      intro _ hj c s hs b hb
      rcases Nat.eq_zero_or_pos j with hj0 | hj1
      · -- last core (`rhs[d-1]`), reading the column-concatenated core
        subst hj0
        have hd2 : 2 ≤ p.d := by omega
        simp only [rhsAuxV, sumIn_d, sumIn_n, sumIn_wr, sumIn_rr, sumIn_R,
          sumIn_W]
        simp only [Nat.zero_add, Nat.sub_zero] at hb ⊢
        have hsrd : sumRank p p.d = 1 := by rw [sumRank, if_pos (Or.inr rfl)]
        rw [hsrd, hwd]
        apply sumR_congr; intro i _
        rw [sumR_one, sumR_one]
        have hone : (sumR (p.rr p.d) fun dd =>
            sumCore p (p.d - 1) (s * p.wr (p.d - 1) + b) i 0 *
              (if 0 = 0 ∧ dd = 0 then 1 else 0) * p.R (p.d - 1) c i dd) =
            sumCore p (p.d - 1) (s * p.wr (p.d - 1) + b) i 0 *
              p.R (p.d - 1) c i 0 := by
          rw [← sumR_delta_zero (p.rr p.d) hrd
            (fun dd => sumCore p (p.d - 1) (s * p.wr (p.d - 1) + b) i 0 *
              p.R (p.d - 1) c i dd)]
          apply sumR_congr; intro dd _
          by_cases hdd : dd = 0 <;> simp [hdd]
        have hone2 : (sumR (p.rr p.d) fun dd =>
            p.W (p.d - 1) s b i 0 * (if 0 = 0 ∧ dd = 0 then 1 else 0) *
              p.R (p.d - 1) c i dd) =
            p.W (p.d - 1) s b i 0 * p.R (p.d - 1) c i 0 := by
          rw [← sumR_delta_zero (p.rr p.d) hrd
            (fun dd => p.W (p.d - 1) s b i 0 * p.R (p.d - 1) c i dd)]
          apply sumR_congr; intro dd _
          by_cases hdd : dd = 0 <;> simp [hdd]
        rw [hone, hone2]
        have hsc : sumCore p (p.d - 1) (s * p.wr (p.d - 1) + b) i 0 =
            p.W (p.d - 1) s b i 0 := by
          rw [sumCore, if_neg (by omega), if_neg (by omega), if_pos rfl,
            block_div _ _ _ hb, block_mod _ _ _ hb]
        rw [hsc]
      · -- interior step, reading a block-diagonal core
        have hksub : p.d - (j + 1) + 1 = p.d - j := by omega
        simp only [rhsAuxV, sumIn_d, sumIn_n, sumIn_wr, sumIn_rr, sumIn_R,
          sumIn_W]
        apply sumR_congr; intro i _
        have hsr : sumRank p (p.d - j) = p.S * p.wr (p.d - j) := by
          rw [sumRank, if_neg (by omega)]
        rw [hsr, sumR_block]
        have hstep : ∀ s2, s2 < p.S →
            (sumR (p.wr (p.d - j)) fun e => sumR (p.rr (p.d - j)) fun dd =>
              sumCore p (p.d - (j + 1)) (s * p.wr (p.d - (j + 1)) + b) i
                  (s2 * p.wr (p.d - j) + e) *
                rhsAuxV (sumIn p) j 0 (s2 * p.wr (p.d - j) + e) dd *
                p.R (p.d - (j + 1)) c i dd) =
            if s2 = s then
              sumR (p.wr (p.d - j)) fun e => sumR (p.rr (p.d - j)) fun dd =>
                p.W (p.d - (j + 1)) s b i e * rhsAuxV p j s2 e dd *
                  p.R (p.d - (j + 1)) c i dd
            else 0 := by
          intro s2 hs2
          by_cases hss : s2 = s
          · rw [if_pos hss]
            apply sumR_congr; intro e he
            apply sumR_congr; intro dd _
            rw [ih hj1 (by omega) dd s2 hs2 e he]
            have hsc : sumCore p (p.d - (j + 1)) (s * p.wr (p.d - (j + 1)) + b)
                i (s2 * p.wr (p.d - j) + e) = p.W (p.d - (j + 1)) s b i e := by
              rw [sumCore, if_neg (by omega), if_neg (by omega),
                if_neg (by omega), hksub, block_div _ _ _ hb,
                block_div _ _ _ he, block_mod _ _ _ hb, block_mod _ _ _ he,
                if_pos hss.symm]
            rw [hsc]
          · rw [if_neg hss]
            apply sumR_zero; intro e he
            apply sumR_zero; intro dd _
            have hsc : sumCore p (p.d - (j + 1)) (s * p.wr (p.d - (j + 1)) + b)
                i (s2 * p.wr (p.d - j) + e) = 0 := by
              rw [sumCore, if_neg (by omega), if_neg (by omega),
                if_neg (by omega), hksub, block_div _ _ _ hb,
                block_div _ _ _ he, if_neg (fun hq => hss hq.symm)]
            rw [hsc, zero_mul, zero_mul]
        rw [sumR_congr hstep, sumR_ite_eq, if_pos hs]

/-- Contracting a left core against the `common_term` advances the `lhs`
accumulator: the inner reduction behind the gauge-subtraction identity. -/
theorem common_contract (p : PIn) (k : ℕ) (s c dd : ℕ) :
    (sumR (p.lr k) fun a => sumR (p.n k) fun i =>
      p.L k a i c * commonV p k s a i dd) =
      sumR (p.wr (k + 1)) fun b2 =>
        lhsV p (k + 1) s c b2 * rhsV p (k + 1) s b2 dd := by
  calc
    (sumR (p.lr k) fun a => sumR (p.n k) fun i =>
        p.L k a i c * commonV p k s a i dd)
        = sumR (p.lr k) fun a => sumR (p.n k) fun i =>
            sumR (p.wr k) fun d2 => sumR (p.wr (k + 1)) fun b2 =>
              lhsV p k s a d2 * p.L k a i c * p.W k s d2 i b2 *
                rhsV p (k + 1) s b2 dd := by
          apply sumR_congr; intro a _
          apply sumR_congr; intro i _
          rw [commonV, ← mul_sumR]
          apply sumR_congr; intro d2 _
          rw [← mul_sumR]
          apply sumR_congr; intro b2 _
          ring
    _ = sumR (p.lr k) fun a => sumR (p.n k) fun i =>
          sumR (p.wr (k + 1)) fun b2 => sumR (p.wr k) fun d2 =>
            lhsV p k s a d2 * p.L k a i c * p.W k s d2 i b2 *
              rhsV p (k + 1) s b2 dd := by
          apply sumR_congr; intro a _
          apply sumR_congr; intro i _
          exact sumR_comm ..
    _ = sumR (p.lr k) fun a => sumR (p.wr (k + 1)) fun b2 =>
          sumR (p.n k) fun i => sumR (p.wr k) fun d2 =>
            lhsV p k s a d2 * p.L k a i c * p.W k s d2 i b2 *
              rhsV p (k + 1) s b2 dd := by
          apply sumR_congr; intro a _
          exact sumR_comm ..
    _ = sumR (p.wr (k + 1)) fun b2 => sumR (p.lr k) fun a =>
          sumR (p.n k) fun i => sumR (p.wr k) fun d2 =>
            lhsV p k s a d2 * p.L k a i c * p.W k s d2 i b2 *
              rhsV p (k + 1) s b2 dd := sumR_comm ..
    _ = sumR (p.wr (k + 1)) fun b2 => sumR (p.lr k) fun a =>
          sumR (p.wr k) fun d2 => sumR (p.n k) fun i =>
            lhsV p k s a d2 * p.L k a i c * p.W k s d2 i b2 *
              rhsV p (k + 1) s b2 dd := by
          apply sumR_congr; intro b2 _
          apply sumR_congr; intro a _
          exact sumR_comm ..
    _ = sumR (p.wr (k + 1)) fun b2 =>
          lhsV p (k + 1) s c b2 * rhsV p (k + 1) s b2 dd := by
          apply sumR_congr; intro b2 _
          calc
            (sumR (p.lr k) fun a => sumR (p.wr k) fun d2 =>
                sumR (p.n k) fun i =>
                  lhsV p k s a d2 * p.L k a i c * p.W k s d2 i b2 *
                    rhsV p (k + 1) s b2 dd)
                = sumR (p.lr k) fun a => sumR (p.wr k) fun d2 =>
                    (sumR (p.n k) fun i =>
                      lhsV p k s a d2 * p.L k a i c * p.W k s d2 i b2) *
                      rhsV p (k + 1) s b2 dd := by
                  apply sumR_congr; intro a _
                  apply sumR_congr; intro d2 _
                  rw [sumR_mul]
            _ = sumR (p.lr k) fun a =>
                  (sumR (p.wr k) fun d2 => sumR (p.n k) fun i =>
                    lhsV p k s a d2 * p.L k a i c * p.W k s d2 i b2) *
                    rhsV p (k + 1) s b2 dd := by
                  apply sumR_congr; intro a _
                  rw [sumR_mul]
            _ = (sumR (p.lr k) fun a => sumR (p.wr k) fun d2 =>
                  sumR (p.n k) fun i =>
                    lhsV p k s a d2 * p.L k a i c * p.W k s d2 i b2) *
                  rhsV p (k + 1) s b2 dd := by
                  rw [sumR_mul]
            _ = lhsV p (k + 1) s c b2 * rhsV p (k + 1) s b2 dd := by
                  rw [lhsV]

/-- Per-batch-element form of the gauge subtraction of `project_sum`: the
`u_proj`-contraction of the `common_term` equals the `lhs`-based
subtraction used by `project`. -/
theorem gauge_eq_s (p : PIn) (k : ℕ) (b r2 dd s : ℕ) :
    (sumR (p.lr k) fun a => sumR (p.n k) fun i =>
      uProjV p k a i b r2 * commonV p k s a i dd) =
      sumR (p.wr (k + 1)) fun b2 =>
        (sumR (p.lr (k + 1)) fun e => p.L k b r2 e * lhsV p (k + 1) s e b2) *
          rhsV p (k + 1) s b2 dd := by
  calc
    (sumR (p.lr k) fun a => sumR (p.n k) fun i =>
        uProjV p k a i b r2 * commonV p k s a i dd)
        = sumR (p.lr k) fun a => sumR (p.n k) fun i =>
            sumR (p.lr (k + 1)) fun e =>
              p.L k b r2 e * (p.L k a i e * commonV p k s a i dd) := by
          apply sumR_congr; intro a _
          apply sumR_congr; intro i _
          rw [uProjV, ← sumR_mul]
          apply sumR_congr; intro e _
          ring
    _ = sumR (p.lr k) fun a => sumR (p.lr (k + 1)) fun e =>
          sumR (p.n k) fun i =>
            p.L k b r2 e * (p.L k a i e * commonV p k s a i dd) := by
          apply sumR_congr; intro a _
          exact sumR_comm ..
    _ = sumR (p.lr (k + 1)) fun e => sumR (p.lr k) fun a =>
          sumR (p.n k) fun i =>
            p.L k b r2 e * (p.L k a i e * commonV p k s a i dd) := sumR_comm ..
    _ = sumR (p.lr (k + 1)) fun e =>
          p.L k b r2 e * sumR (p.wr (k + 1)) fun b2 =>
            lhsV p (k + 1) s e b2 * rhsV p (k + 1) s b2 dd := by
          apply sumR_congr; intro e _
          rw [← common_contract p k s e dd, ← mul_sumR]
          apply sumR_congr; intro a _
          rw [← mul_sumR]
    _ = sumR (p.lr (k + 1)) fun e => sumR (p.wr (k + 1)) fun b2 =>
          p.L k b r2 e *
            (lhsV p (k + 1) s e b2 * rhsV p (k + 1) s b2 dd) := by
          apply sumR_congr; intro e _
          rw [← mul_sumR]
    _ = sumR (p.wr (k + 1)) fun b2 => sumR (p.lr (k + 1)) fun e =>
          p.L k b r2 e *
            (lhsV p (k + 1) s e b2 * rhsV p (k + 1) s b2 dd) := sumR_comm ..
    _ = sumR (p.wr (k + 1)) fun b2 =>
          (sumR (p.lr (k + 1)) fun e => p.L k b r2 e * lhsV p (k + 1) s e b2) *
            rhsV p (k + 1) s b2 dd := by
          apply sumR_congr; intro b2 _
          rw [← sumR_mul]
          apply sumR_congr; intro e _
          ring

/-- The gauge subtraction of `project_sum` (summed over the batch) equals
the `lhs`-based subtraction of `project`, batch element by batch element. -/
theorem gauge_eq (p : PIn) (k : ℕ) (b r2 dd : ℕ) :
    (sumR (p.lr k) fun a => sumR (p.n k) fun i => sumR p.S fun s =>
      uProjV p k a i b r2 * commonV p k s a i dd) =
      sumR p.S fun s => sumR (p.wr (k + 1)) fun b2 =>
        (sumR (p.lr (k + 1)) fun e => p.L k b r2 e * lhsV p (k + 1) s e b2) *
          rhsV p (k + 1) s b2 dd := by
  calc
    (sumR (p.lr k) fun a => sumR (p.n k) fun i => sumR p.S fun s =>
        uProjV p k a i b r2 * commonV p k s a i dd)
        = sumR (p.lr k) fun a => sumR p.S fun s => sumR (p.n k) fun i =>
            uProjV p k a i b r2 * commonV p k s a i dd := by
          apply sumR_congr; intro a _
          exact sumR_comm ..
    _ = sumR p.S fun s => sumR (p.lr k) fun a => sumR (p.n k) fun i =>
          uProjV p k a i b r2 * commonV p k s a i dd := sumR_comm ..
    _ = sumR p.S fun s => sumR (p.wr (k + 1)) fun b2 =>
          (sumR (p.lr (k + 1)) fun e => p.L k b r2 e * lhsV p (k + 1) s e b2) *
            rhsV p (k + 1) s b2 dd := by
          apply sumR_congr; intro s _
          exact gauge_eq_s p k b r2 dd s

/-- The first factor of the projection core of `project(sum_of_batch,
where)` reduces block-wise to the per-element factor. -/
theorem t1_sumIn (p : PIn) (hw0 : p.wr 0 = 1) (k : ℕ) (hkd : k + 1 < p.d)
    (a i : ℕ) :
    ∀ s, s < p.S → ∀ e2, e2 < p.wr (k + 1) →
      (sumR (sumRank p k) fun bb =>
        lhsV (sumIn p) k 0 a bb * sumCore p k bb i (s * p.wr (k + 1) + e2)) =
      sumR (p.wr k) fun bb => lhsV p k s a bb * p.W k s bb i e2 := by
  intro s hs e2 he2
  rcases Nat.eq_zero_or_pos k with hk0 | hk1
  · subst hk0
    simp only [Nat.zero_add] at he2 ⊢
    rw [show sumRank p 0 = 1 from by rw [sumRank, if_pos (Or.inl rfl)],
      sumR_one, hw0, sumR_one]
    have hsc : sumCore p 0 0 i (s * p.wr 1 + e2) = p.W 0 s 0 i e2 := by
      rw [sumCore, if_neg (by omega), if_pos rfl, block_div _ _ _ he2,
        block_mod _ _ _ he2]
    rw [hsc]
    simp only [lhsV]
  · rw [show sumRank p k = p.S * p.wr k from by rw [sumRank, if_neg (by omega)],
      sumR_block]
    have hstep : ∀ s2, s2 < p.S →
        (sumR (p.wr k) fun bb =>
          lhsV (sumIn p) k 0 a (s2 * p.wr k + bb) *
            sumCore p k (s2 * p.wr k + bb) i (s * p.wr (k + 1) + e2)) =
        if s2 = s then
          sumR (p.wr k) fun bb => lhsV p k s2 a bb * p.W k s2 bb i e2
        else 0 := by
      intro s2 hs2
      by_cases hss : s2 = s
      · rw [if_pos hss]
        apply sumR_congr; intro bb hbb
        rw [lhs_sumIn p hw0 k hk1 (by omega) a s2 hs2 bb hbb]
        have hsc : sumCore p k (s2 * p.wr k + bb) i (s * p.wr (k + 1) + e2)
            = p.W k s2 bb i e2 := by
          rw [sumCore, if_neg (by omega), if_neg (by omega), if_neg (by omega),
            block_div _ _ _ hbb, block_div _ _ _ he2, if_pos hss,
            block_mod _ _ _ hbb, block_mod _ _ _ he2]
        rw [hsc]
      · rw [if_neg hss]
        apply sumR_zero; intro bb hbb
        have hsc : sumCore p k (s2 * p.wr k + bb) i (s * p.wr (k + 1) + e2)
            = 0 := by
          rw [sumCore, if_neg (by omega), if_neg (by omega), if_neg (by omega),
            block_div _ _ _ hbb, block_div _ _ _ he2, if_neg hss]
        rw [hsc, mul_zero]
    rw [sumR_congr hstep, sumR_ite_eq, if_pos hs]

/-- Interior projection cores of `project(sum_of_batch, where)` in the
per-element `common`/`lhs` form. -/
theorem projCore_sumIn (p : PIn) (hw0 : p.wr 0 = 1) (hwd : p.wr p.d = 1)
    (hrd : 0 < p.rr p.d) (k : ℕ) (hk : k < p.d - 1) (a i c : ℕ) :
    projCoreV (sumIn p) k a i c =
      (sumR p.S fun s => commonV p k s a i c) -
        sumR p.S fun s => sumR (p.wr (k + 1)) fun b2 =>
          (sumR (p.lr (k + 1)) fun e => p.L k a i e * lhsV p (k + 1) s e b2) *
            rhsV p (k + 1) s b2 c := by
  have hjj : p.d - (p.d - (k + 1)) = k + 1 := by omega
  rw [projCoreV]
  simp only [sumIn_d, sumIn_S, sumIn_wr, sumIn_lr, sumIn_n, sumIn_L, sumIn_W,
    rhsV]
  rw [if_pos hk, sumR_one]
  rw [show sumRank p (k + 1) = p.S * p.wr (k + 1) from by
    rw [sumRank, if_neg (by omega)], sumR_block]
  have hF : ∀ s, s < p.S → ∀ e2, e2 < p.wr (k + 1) →
      ((sumR (sumRank p k) fun bb =>
          lhsV (sumIn p) k 0 a bb *
            sumCore p k bb i (s * p.wr (k + 1) + e2)) -
        (sumR (p.lr (k + 1)) fun e =>
          p.L k a i e * lhsV (sumIn p) (k + 1) 0 e (s * p.wr (k + 1) + e2))) *
        rhsAuxV (sumIn p) (p.d - (k + 1)) 0 (s * p.wr (k + 1) + e2) c =
      ((sumR (p.wr k) fun bb => lhsV p k s a bb * p.W k s bb i e2) -
        (sumR (p.lr (k + 1)) fun e => p.L k a i e * lhsV p (k + 1) s e e2)) *
        rhsAuxV p (p.d - (k + 1)) s e2 c := by
    intro s hs e2 he2
    rw [t1_sumIn p hw0 k (by omega) a i s hs e2 he2]
    have ht2 : (sumR (p.lr (k + 1)) fun e =>
        p.L k a i e * lhsV (sumIn p) (k + 1) 0 e (s * p.wr (k + 1) + e2)) =
        sumR (p.lr (k + 1)) fun e => p.L k a i e * lhsV p (k + 1) s e e2 := by
      apply sumR_congr; intro e _
      rw [lhs_sumIn p hw0 (k + 1) (by omega) (by omega) e s hs e2 he2]
    have hrw : rhsAuxV (sumIn p) (p.d - (k + 1)) 0 (s * p.wr (k + 1) + e2) c =
        rhsAuxV p (p.d - (k + 1)) s e2 c := by
      have hr := rhs_sumIn p hwd hrd (p.d - (k + 1)) (by omega) (by omega) c
        s hs e2 (by rw [hjj]; exact he2)
      rwa [hjj] at hr
    rw [ht2, hrw]
  calc
    (sumR p.S fun s => sumR (p.wr (k + 1)) fun e2 =>
        ((sumR (sumRank p k) fun bb =>
            lhsV (sumIn p) k 0 a bb *
              sumCore p k bb i (s * p.wr (k + 1) + e2)) -
          (sumR (p.lr (k + 1)) fun e =>
            p.L k a i e *
              lhsV (sumIn p) (k + 1) 0 e (s * p.wr (k + 1) + e2))) *
          rhsAuxV (sumIn p) (p.d - (k + 1)) 0 (s * p.wr (k + 1) + e2) c)
        = sumR p.S fun s => sumR (p.wr (k + 1)) fun e2 =>
            ((sumR (p.wr k) fun bb => lhsV p k s a bb * p.W k s bb i e2) -
              (sumR (p.lr (k + 1)) fun e =>
                p.L k a i e * lhsV p (k + 1) s e e2)) *
              rhsAuxV p (p.d - (k + 1)) s e2 c := by
          apply sumR_congr; intro s hs
          apply sumR_congr; intro e2 he2
          exact hF s hs e2 he2
    _ = sumR p.S fun s =>
          (sumR (p.wr (k + 1)) fun e2 =>
            (sumR (p.wr k) fun bb => lhsV p k s a bb * p.W k s bb i e2) *
              rhsAuxV p (p.d - (k + 1)) s e2 c) -
          sumR (p.wr (k + 1)) fun e2 =>
            (sumR (p.lr (k + 1)) fun e =>
              p.L k a i e * lhsV p (k + 1) s e e2) *
              rhsAuxV p (p.d - (k + 1)) s e2 c := by
          apply sumR_congr; intro s _
          rw [← sumR_sub]
          apply sumR_congr; intro e2 _
          ring
    _ = (sumR p.S fun s => sumR (p.wr (k + 1)) fun e2 =>
          (sumR (p.wr k) fun bb => lhsV p k s a bb * p.W k s bb i e2) *
            rhsAuxV p (p.d - (k + 1)) s e2 c) -
        sumR p.S fun s => sumR (p.wr (k + 1)) fun e2 =>
          (sumR (p.lr (k + 1)) fun e => p.L k a i e * lhsV p (k + 1) s e e2) *
            rhsAuxV p (p.d - (k + 1)) s e2 c := sumR_sub ..
    _ = (sumR p.S fun s => commonV p k s a i c) -
        sumR p.S fun s => sumR (p.wr (k + 1)) fun e2 =>
          (sumR (p.lr (k + 1)) fun e => p.L k a i e * lhsV p (k + 1) s e e2) *
            rhsAuxV p (p.d - (k + 1)) s e2 c := by
          have hcm : ∀ s, s < p.S →
              (sumR (p.wr (k + 1)) fun e2 =>
                (sumR (p.wr k) fun bb => lhsV p k s a bb * p.W k s bb i e2) *
                  rhsAuxV p (p.d - (k + 1)) s e2 c) = commonV p k s a i c := by
            intro s _
            rw [commonV]
            calc
              (sumR (p.wr (k + 1)) fun e2 =>
                  (sumR (p.wr k) fun bb =>
                    lhsV p k s a bb * p.W k s bb i e2) *
                    rhsAuxV p (p.d - (k + 1)) s e2 c)
                  = sumR (p.wr (k + 1)) fun e2 => sumR (p.wr k) fun bb =>
                      lhsV p k s a bb * p.W k s bb i e2 *
                        rhsAuxV p (p.d - (k + 1)) s e2 c := by
                    apply sumR_congr; intro e2 _
                    rw [← sumR_mul]
              _ = sumR (p.wr k) fun bb => sumR (p.wr (k + 1)) fun e2 =>
                    lhsV p k s a bb * p.W k s bb i e2 *
                      rhsAuxV p (p.d - (k + 1)) s e2 c := sumR_comm ..
              _ = sumR (p.wr k) fun bb => sumR (p.wr (k + 1)) fun e2 =>
                    lhsV p k s a bb * p.W k s bb i e2 *
                      rhsV p (k + 1) s e2 c := rfl
          congr 1
          exact sumR_congr hcm

/-- The last projection core of `project(sum_of_batch, where)` equals the
last projection core of `project_sum` (the block reindexing is exactly the
batch sum of the source's final einsum). -/
theorem projCore_sumIn_last (p : PIn) (hw0 : p.wr 0 = 1) (hd : 1 ≤ p.d)
    (a i c : ℕ) :
    projCoreV (sumIn p) (p.d - 1) a i c = projCoreSumV p (p.d - 1) a i c := by
  rw [projCoreV, projCoreSumV]
  simp only [sumIn_d, sumIn_S, sumIn_wr, sumIn_lr, sumIn_n, sumIn_L, sumIn_W]
  rw [if_neg (lt_irrefl _), if_neg (lt_irrefl _), sumR_one]
  rcases Nat.lt_or_ge p.d 2 with hd1 | hd2
  · -- single mode: the direct-sum core is the plain sum of the batch cores
    have hd1' : p.d = 1 := by omega
    rw [hd1']
    simp only [Nat.sub_self]
    rw [show sumRank p 0 = 1 from by rw [sumRank, if_pos (Or.inl rfl)],
      sumR_one]
    have hsc : sumCore p 0 0 i c = sumR p.S fun s => p.W 0 s 0 i c := by
      rw [sumCore, if_pos hd1']
    rw [hsc]
    calc
      (lhsV (sumIn p) 0 0 a 0 * sumR p.S fun s => p.W 0 s 0 i c)
          = sumR p.S fun s => lhsV p 0 s a 0 * p.W 0 s 0 i c := by
            rw [← mul_sumR]
            apply sumR_congr; intro s _
            simp only [lhsV]
      _ = sumR p.S fun s => sumR (p.wr 0) fun b => lhsV p 0 s a b *
            p.W 0 s b i c := by
            apply sumR_congr; intro s _
            rw [hw0, sumR_one]
  · -- at least two modes: reindex the column-concatenated last core
    have h1d : 1 ≤ p.d - 1 := by omega
    rw [show sumRank p (p.d - 1) = p.S * p.wr (p.d - 1) from by
      rw [sumRank, if_neg (by omega)], sumR_block]
    apply sumR_congr; intro s hs
    apply sumR_congr; intro bb hbb
    rw [lhs_sumIn p hw0 (p.d - 1) h1d (by omega) a s hs bb hbb]
    have hsc : sumCore p (p.d - 1) (s * p.wr (p.d - 1) + bb) i c =
        p.W (p.d - 1) s bb i c := by
      rw [sumCore, if_neg (by omega), if_neg (by omega), if_pos rfl,
        block_div _ _ _ hbb, block_mod _ _ _ hbb]
    rw [hsc]

/-- Congruence for chain contractions whose ranks and cores agree. -/
theorem chainAux_congr (r r' : ℕ → ℕ) (core core' : ℕ → ℕ → ℕ → ℕ → ℚ)
    (d : ℕ) (i : ℕ → ℕ)
    (hr : ∀ k, 1 ≤ k → k ≤ d → r k = r' k)
    (hc : ∀ k, k < d → ∀ a b, core k a (i k) b = core' k a (i k) b) :
    ∀ j, j ≤ d → ∀ a, chainAux r core d i j a = chainAux r' core' d i j a := by
  intro j
  induction j with
  | zero => intro _ a; rw [chainAux, chainAux]
  | succ j ih =>
      intro hj a
      rw [chainAux, chainAux, hr (d - j) (by omega) (by omega)]
      apply sumR_congr; intro b _
      rw [hc (d - (j + 1)) (by omega) a b, ih (by omega) b]

/-- Interior form of the `project_sum` projection core rewritten through
the gauge identity. -/
theorem projCoreSum_common (p : PIn) (k : ℕ) (hk : k < p.d - 1)
    (b r2 dd : ℕ) :
    projCoreSumV p k b r2 dd =
      (sumR p.S fun s => commonV p k s b r2 dd) -
        sumR p.S fun s => sumR (p.wr (k + 1)) fun b2 =>
          (sumR (p.lr (k + 1)) fun e => p.L k b r2 e * lhsV p (k + 1) s e b2) *
            rhsV p (k + 1) s b2 dd := by
  rw [projCoreSumV, if_pos hk, gauge_eq]

/-- The projection cores of `project_sum(batch, where)` (weights omitted)
coincide with those of `project(sum_of_batch_elements, where)`. -/
theorem projCore_sum_eq (p : PIn) (hw0 : p.wr 0 = 1) (hwd : p.wr p.d = 1)
    (hrd : 0 < p.rr p.d) (hd : 1 ≤ p.d) (k : ℕ) (hk : k < p.d) (a i c : ℕ) :
    projCoreSumV p k a i c = projCoreV (sumIn p) k a i c := by
  rcases Nat.lt_or_ge k (p.d - 1) with hlt | hge
  · rw [projCoreSum_common p k hlt, projCore_sumIn p hw0 hwd hrd k hlt]
  · have hk1 : k = p.d - 1 := by omega
    subst hk1
    exact (projCore_sumIn_last p hw0 hd a i c).symm

/-- The output cores of `project_sum(batch, where)` (weights omitted)
coincide with those of `project(sum_of_batch_elements, where)`. -/
theorem resCore_sum_eq (p : PIn) (hw0 : p.wr 0 = 1) (hwd : p.wr p.d = 1)
    (hrd : 0 < p.rr p.d) (hd : 1 ≤ p.d) (k : ℕ) (hk : k < p.d) (a i c : ℕ) :
    resCoreSumV p k a i c = resCoreV (sumIn p) k a i c := by
  have hsp : splitV (sumIn p) 0 = splitV p 0 := by
    rw [splitV, splitV]
    simp only [sumIn_d, sumIn_wr, sumIn_rr]
    by_cases h0 : 0 < p.d - 1
    · rw [if_pos h0, if_pos h0]
    · rw [if_neg h0, if_neg h0,
        show sumRank p p.d = 1 from by rw [sumRank, if_pos (Or.inr rfl)], hwd]
  rw [resCoreSumV, resCoreV]
  simp only [sumIn_d, sumIn_rr, sumIn_L, sumIn_R, hsp]
  by_cases hk0 : k = 0
  · subst hk0
    rw [if_pos rfl, if_pos rfl]
    by_cases hc : c < splitV p 0
    · rw [if_pos hc, if_pos hc, projCore_sum_eq p hw0 hwd hrd hd 0 hd a i c]
    · rw [if_neg hc, if_neg hc]
  · rw [if_neg hk0, if_neg hk0]
    by_cases hk1 : k = p.d - 1
    · rw [if_pos hk1, if_pos hk1]
      by_cases ha : a < p.rr (p.d - 1)
      · rw [if_pos ha, if_pos ha]
      · rw [if_neg ha, if_neg ha,
          projCore_sum_eq p hw0 hwd hrd hd (p.d - 1) (by omega) _ i c]
    · rw [if_neg hk1, if_neg hk1]
      by_cases ha : a < p.rr k
      · rw [if_pos ha, if_pos ha]
      · rw [if_neg ha, if_neg ha]
        by_cases hc : c < p.rr (k + 1)
        · rw [if_pos hc, if_pos hc, projCore_sum_eq p hw0 hwd hrd hd k hk _ i c]
        · rw [if_neg hc, if_neg hc]

/-- Tail of the chain contraction of the direct-sum TT: block-wise it is
the tail of the chain contraction of the corresponding batch element. -/
theorem chainSum_tail (p : PIn) (hwd : p.wr p.d = 1) (i : ℕ → ℕ) :
    ∀ j, 1 ≤ j → j ≤ p.d - 1 → ∀ s, s < p.S → ∀ b, b < p.wr (p.d - j) →
      chainAux (sumRank p) (sumCore p) p.d i j (s * p.wr (p.d - j) + b) =
        chainAux p.wr (fun k => p.W k s) p.d i j b := by
  intro j
  induction j with
  | zero => intro h1; omega
  | succ j ih =>
      intro _ hj s hs b hb
      rcases Nat.eq_zero_or_pos j with hj0 | hj1
      · subst hj0
        simp only [Nat.zero_add] at hb ⊢
        rw [chainAux, chainAux]
        have hdd : p.d - 0 = p.d := by omega
        rw [hdd, show sumRank p p.d = 1 from by
          rw [sumRank, if_pos (Or.inr rfl)], hwd, sumR_one, sumR_one,
          chainAux, chainAux]
        simp only [eq_self_iff_true, if_true, mul_one]
        rw [sumCore, if_neg (by omega), if_neg (by omega), if_pos rfl,
          block_div _ _ _ hb, block_mod _ _ _ hb]
      · have hksub : p.d - (j + 1) + 1 = p.d - j := by omega
        rw [chainAux, chainAux,
          show sumRank p (p.d - j) = p.S * p.wr (p.d - j) from by
            rw [sumRank, if_neg (by omega)], sumR_block]
        have hstep : ∀ s2, s2 < p.S →
            (sumR (p.wr (p.d - j)) fun e =>
              sumCore p (p.d - (j + 1)) (s * p.wr (p.d - (j + 1)) + b)
                  (i (p.d - (j + 1))) (s2 * p.wr (p.d - j) + e) *
                chainAux (sumRank p) (sumCore p) p.d i j
                  (s2 * p.wr (p.d - j) + e)) =
            if s2 = s then
              sumR (p.wr (p.d - j)) fun e =>
                p.W (p.d - (j + 1)) s b (i (p.d - (j + 1))) e *
                  chainAux p.wr (fun k => p.W k s) p.d i j e
            else 0 := by
          intro s2 hs2
          by_cases hss : s2 = s
          · subst hss
            rw [if_pos rfl]
            apply sumR_congr; intro e he
            rw [ih hj1 (by omega) s2 hs2 e he]
            have hsc : sumCore p (p.d - (j + 1))
                (s2 * p.wr (p.d - (j + 1)) + b) (i (p.d - (j + 1)))
                (s2 * p.wr (p.d - j) + e) =
                p.W (p.d - (j + 1)) s2 b (i (p.d - (j + 1))) e := by
              rw [sumCore, if_neg (by omega), if_neg (by omega),
                if_neg (by omega), hksub, block_div _ _ _ hb,
                block_div _ _ _ he, block_mod _ _ _ hb, block_mod _ _ _ he,
                if_pos rfl]
            rw [hsc]
          · rw [if_neg hss]
            apply sumR_zero; intro e he
            have hsc : sumCore p (p.d - (j + 1))
                (s * p.wr (p.d - (j + 1)) + b) (i (p.d - (j + 1)))
                (s2 * p.wr (p.d - j) + e) = 0 := by
              rw [sumCore, if_neg (by omega), if_neg (by omega),
                if_neg (by omega), hksub, block_div _ _ _ hb,
                block_div _ _ _ he, if_neg (fun hq => hss hq.symm)]
            rw [hsc, zero_mul]
        rw [sumR_congr hstep, sumR_ite_eq, if_pos hs]

/-- The direct-sum TT reconstructs to the sum of the batch elements —
the justification that `sumIn` realizes `sum_of_batch_elements`. -/
theorem fullW_sumIn (p : PIn) (hwd : p.wr p.d = 1)
    (hd : 1 ≤ p.d) (i : ℕ → ℕ) :
    fullW (sumIn p) 0 i = sumR p.S fun s => fullW p s i := by
  have hfw : fullW (sumIn p) 0 i =
      chainAux (sumRank p) (sumCore p) p.d i p.d 0 := rfl
  rw [hfw]
  rcases Nat.lt_or_ge p.d 2 with hd1 | hd2
  · have hd1' : p.d = 1 := by omega
    have hw1 : p.wr 1 = 1 := by have hq := hwd; rw [hd1'] at hq; exact hq
    have hfull1 : ∀ s, fullW p s i = p.W 0 s 0 (i 0) 0 := by
      intro s
      rw [fullW, chain_unfold_head _ _ _ _ hd, hw1, sumR_one, hd1']
      have h0 : (1 : ℕ) - 1 = 0 := rfl
      rw [h0, chainAux]
      simp
    rw [chain_unfold_head _ _ _ _ hd,
      show sumRank p 1 = 1 from by rw [sumRank, if_pos (Or.inr hd1'.symm)],
      sumR_one, hd1']
    have h0 : (1 : ℕ) - 1 = 0 := rfl
    rw [h0, chainAux]
    have hsc : sumCore p 0 0 (i 0) 0 = sumR p.S fun s => p.W 0 s 0 (i 0) 0 := by
      rw [sumCore, if_pos hd1']
    rw [hsc]
    simp only [eq_self_iff_true, if_true, mul_one]
    apply sumR_congr; intro s _
    rw [hfull1 s]
  · rw [chain_unfold_head _ _ _ _ hd,
      show sumRank p 1 = p.S * p.wr 1 from by rw [sumRank, if_neg (by omega)],
      sumR_block]
    apply sumR_congr; intro s hs
    rw [fullW, chain_unfold_head _ _ _ _ hd]
    apply sumR_congr; intro b hb
    have hsc : sumCore p 0 0 (i 0) (s * p.wr 1 + b) = p.W 0 s 0 (i 0) b := by
      rw [sumCore, if_neg (by omega), if_pos rfl, block_div _ _ _ hb,
        block_mod _ _ _ hb]
    rw [hsc]
    have hpd1 : p.d - (p.d - 1) = 1 := by omega
    have htl := chainSum_tail p hwd i (p.d - 1) (by omega) (le_refl _) s hs b
      (by rw [hpd1]; exact hb)
    rw [hpd1] at htl
    rw [htl]

/-- C4: `project_sum(batch, where)` with the `weights` argument omitted
equals `project(sum_of_batch_elements, where)` in full-tensor
reconstruction; `sumIn p` is the canonical TT representation of the sum of
the batch elements (second conjunct). -/
theorem claim4_sum_consistency (p : PIn) (hw0 : p.wr 0 = 1)
    (hwd : p.wr p.d = 1) (hrd : 0 < p.rr p.d) (hd : 1 ≤ p.d) (i : ℕ → ℕ) :
    fullResSumV p i = fullResV (sumIn p) i ∧
      fullW (sumIn p) 0 i = sumR p.S fun s => fullW p s i := by
  constructor
  · rw [fullResSumV, fullResV]
    apply chainAux_congr (resRankV p) (resRankV (sumIn p)) (resCoreSumV p)
      (resCoreV (sumIn p)) p.d i ?_ ?_ p.d (le_refl _) 0
    · intro k _ _
      rw [resRankV, resRankV]
      simp only [sumIn_d, sumIn_rr, sumIn_lr, sumIn_wr]
      by_cases hk0 : k = 0
      · rw [if_pos hk0, if_pos hk0]
      · rw [if_neg hk0, if_neg hk0]
        by_cases hkd : k < p.d
        · rw [if_pos hkd, if_pos hkd]
        · rw [if_neg hkd, if_neg hkd]
          by_cases hone : p.d = 1
          · rw [if_pos hone, if_pos hone, hwd,
              show sumRank p p.d = 1 from by rw [sumRank, if_pos (Or.inr rfl)]]
          · rw [if_neg hone, if_neg hone]
    · intro k hk a b
      exact resCore_sum_eq p hw0 hwd hrd hd k hk a (i k) b
  · exact fullW_sumIn p hwd hd i

theorem claim4_sum_consistency_witness :
    (pC4.wr 0 = 1 ∧ pC4.wr pC4.d = 1 ∧ 0 < pC4.rr pC4.d ∧ 1 ≤ pC4.d) ∧
      (fullResSumV pC4 (fun _ => 0) = fullResV (sumIn pC4) (fun _ => 0) ∧
        fullW (sumIn pC4) 0 (fun _ => 0) =
          sumR pC4.S fun s => fullW pC4 s (fun _ => 0)) :=
  ⟨⟨rfl, rfl, by decide, by decide⟩,
    claim4_sum_consistency pC4 rfl rfl (by decide) (by decide) _⟩

/-- C8 counterexample: in `project_sum` the gauge subtraction is applied at
`core_idx = 0` as well — on `pC8` the projection core at index 0 differs
from the plain batch sum of the `common_term`, refuting "applied exactly at
`0 < k < d-1`". -/
theorem claim8_counterexample :
    projCoreSumV pC8 0 0 0 0 ≠ sumR pC8.S fun s => commonV pC8 0 s 0 0 0 := by
  simp only [projCoreSumV, commonV, uProjV, lhsV, rhsV, rhsAuxV, pC8, sumR,
    Finset.sum_range_succ, Finset.sum_range_zero]
  norm_num

/-- C8 (amended): the gauge subtraction (the `u_proj` contraction of the
`common_term`) is applied at exactly the indices `0 ≤ k < d-1`; the last
index `d-1` uses the plain `lhs`-times-core contraction with no
subtraction. -/
theorem claim8_gauge_indices (p : PIn) (k : ℕ) (b r2 dd : ℕ) :
    (k < p.d - 1 →
      projCoreSumV p k b r2 dd =
        (sumR p.S fun s => commonV p k s b r2 dd) -
          sumR (p.lr k) fun a => sumR (p.n k) fun i => sumR p.S fun s =>
            uProjV p k a i b r2 * commonV p k s a i dd) ∧
    (p.d - 1 ≤ k →
      projCoreSumV p k b r2 dd =
        sumR p.S fun s => sumR (p.wr k) fun bb =>
          lhsV p k s b bb * p.W k s bb r2 dd) := by
  constructor
  · intro hk
    rw [projCoreSumV, if_pos hk]
  · intro hk
    rw [projCoreSumV, if_neg (by omega)]

theorem claim8_gauge_indices_witness :
    projCoreSumV pC8 0 0 0 0 =
      (sumR pC8.S fun s => commonV pC8 0 s 0 0 0) -
        sumR (pC8.lr 0) fun a => sumR (pC8.n 0) fun i => sumR pC8.S fun s =>
          uProjV pC8 0 a i 0 0 * commonV pC8 0 s a i 0 :=
  (claim8_gauge_indices pC8 0 0 0 0).1 (by decide)

theorem wsumIn_d (p : PIn) (w : ℕ → ℕ → ℚ) (o : ℕ) :
    (wsumIn p w o).d = p.d := rfl

theorem wsumIn_S (p : PIn) (w : ℕ → ℕ → ℚ) (o : ℕ) :
    (wsumIn p w o).S = 1 := rfl

theorem wsumIn_n (p : PIn) (w : ℕ → ℕ → ℚ) (o : ℕ) :
    (wsumIn p w o).n = p.n := rfl

theorem wsumIn_wr (p : PIn) (w : ℕ → ℕ → ℚ) (o : ℕ) :
    (wsumIn p w o).wr = sumRank p := rfl

theorem wsumIn_W (p : PIn) (w : ℕ → ℕ → ℚ) (o k s : ℕ) :
    (wsumIn p w o).W k s = wsumCore p w o k := rfl

theorem wsumIn_lr (p : PIn) (w : ℕ → ℕ → ℚ) (o : ℕ) :
    (wsumIn p w o).lr = p.lr := rfl

theorem wsumIn_L (p : PIn) (w : ℕ → ℕ → ℚ) (o : ℕ) :
    (wsumIn p w o).L = p.L := rfl

theorem wsumIn_rr (p : PIn) (w : ℕ → ℕ → ℚ) (o : ℕ) :
    (wsumIn p w o).rr = p.rr := rfl

theorem wsumIn_R (p : PIn) (w : ℕ → ℕ → ℚ) (o : ℕ) :
    (wsumIn p w o).R = p.R := rfl

/-- Away from the first core the weighted direct sum has the same cores as
the unweighted one. -/
theorem wsumCore_hi (p : PIn) (w : ℕ → ℕ → ℚ) (o k : ℕ) (hd2 : 2 ≤ p.d)
    (hk : 1 ≤ k) (a i c : ℕ) :
    wsumCore p w o k a i c = sumCore p k a i c := by
  rw [wsumCore, if_neg (by omega), if_neg (by omega)]

/-- The `rhs` sweep never reads the first core, so on the weighted direct
sum it coincides with the unweighted one. -/
theorem rhsAux_wsum (p : PIn) (w : ℕ → ℕ → ℚ) (o : ℕ) :
    ∀ j, j ≤ p.d - 1 → ∀ s a c,
      rhsAuxV (wsumIn p w o) j s a c = rhsAuxV (sumIn p) j s a c := by
  intro j
  induction j with
  | zero => intro _ s a c; rw [rhsAuxV, rhsAuxV]
  | succ j ih =>
      intro hj s a c
      rw [rhsAuxV, rhsAuxV]
      simp only [wsumIn_d, wsumIn_n, wsumIn_wr, wsumIn_rr, wsumIn_R, wsumIn_W,
        sumIn_d, sumIn_n, sumIn_wr, sumIn_rr, sumIn_R, sumIn_W]
      apply sumR_congr; intro i _
      apply sumR_congr; intro b _
      apply sumR_congr; intro dd _
      rw [ih (by omega) s b dd,
        wsumCore_hi p w o (p.d - (j + 1)) (by omega) (by omega)]

/-- On the weighted direct sum, the `lhs` accumulator picks up the weight
of the corresponding batch element. -/
theorem lhsW_sumIn (p : PIn) (w : ℕ → ℕ → ℚ) (o : ℕ) (hw0 : p.wr 0 = 1) :
    ∀ k, 1 ≤ k → k < p.d → ∀ a, ∀ s, s < p.S → ∀ b, b < p.wr k →
      lhsV (wsumIn p w o) k 0 a (s * p.wr k + b) =
        w s o * lhsV p k s a b := by
  intro k
  induction k with
  | zero => intro h1; omega
  | succ k ih =>
      intro _ hkd a s hs b hb
      rcases Nat.eq_zero_or_pos k with hk0 | hk1
      · subst hk0
        simp only [lhsV, wsumIn_lr, wsumIn_wr, wsumIn_n, wsumIn_L, wsumIn_W]
        simp only [Nat.zero_add] at hb ⊢
        have hsr0 : sumRank p 0 = 1 := by rw [sumRank, if_pos (Or.inl rfl)]
        rw [hw0, hsr0, ← mul_sumR]
        apply sumR_congr; intro aa _
        rw [← mul_sumR]
        apply sumR_congr; intro bb _
        rw [← mul_sumR]
        apply sumR_congr; intro i _
        have hsc : wsumCore p w o 0 bb i (s * p.wr 1 + b) =
            w s o * p.W 0 s bb i b := by
          rw [wsumCore, if_neg (by omega), if_pos rfl, block_div _ _ _ hb,
            block_mod _ _ _ hb]
        rw [hsc]
        ring
      · simp only [lhsV, wsumIn_lr, wsumIn_wr, wsumIn_n, wsumIn_L, wsumIn_W]
        rw [← mul_sumR]
        apply sumR_congr; intro aa _
        have hsr : sumRank p k = p.S * p.wr k := by
          rw [sumRank, if_neg (by omega)]
        rw [hsr, sumR_block]
        have hstep : ∀ s2, s2 < p.S →
            (sumR (p.wr k) fun bb => sumR (p.n k) fun i =>
              lhsV (wsumIn p w o) k 0 aa (s2 * p.wr k + bb) * p.L k aa i a *
                wsumCore p w o k (s2 * p.wr k + bb) i
                  (s * p.wr (k + 1) + b)) =
            if s2 = s then
              w s2 o * sumR (p.wr k) fun bb => sumR (p.n k) fun i =>
                lhsV p k s2 aa bb * p.L k aa i a * p.W k s2 bb i b
            else 0 := by
          intro s2 hs2
          by_cases hss : s2 = s
          · rw [if_pos hss, ← mul_sumR]
            apply sumR_congr; intro bb hbb
            rw [← mul_sumR]
            apply sumR_congr; intro i _
            rw [ih hk1 (by omega) aa s2 hs2 bb hbb,
              wsumCore_hi p w o k (by omega) hk1]
            have hsc : sumCore p k (s2 * p.wr k + bb) i
                (s * p.wr (k + 1) + b) = p.W k s2 bb i b := by
              rw [sumCore, if_neg (by omega), if_neg (by omega),
                if_neg (by omega), block_div _ _ _ hbb, block_div _ _ _ hb,
                if_pos hss, block_mod _ _ _ hbb, block_mod _ _ _ hb]
            rw [hsc]
            ring
          · rw [if_neg hss]
            apply sumR_zero; intro bb hbb
            apply sumR_zero; intro i _
            rw [wsumCore_hi p w o k (by omega) hk1]
            have hsc : sumCore p k (s2 * p.wr k + bb) i
                (s * p.wr (k + 1) + b) = 0 := by
              rw [sumCore, if_neg (by omega), if_neg (by omega),
                if_neg (by omega), block_div _ _ _ hbb, block_div _ _ _ hb,
                if_neg hss]
            rw [hsc, mul_zero]
        rw [sumR_congr hstep, sumR_ite_eq, if_pos hs]

/-- Weighted analogue of `t1_sumIn`. -/
theorem t1W_sumIn (p : PIn) (w : ℕ → ℕ → ℚ) (o : ℕ) (hw0 : p.wr 0 = 1)
    (k : ℕ) (hkd : k + 1 < p.d) (a i : ℕ) :
    ∀ s, s < p.S → ∀ e2, e2 < p.wr (k + 1) →
      (sumR (sumRank p k) fun bb =>
        lhsV (wsumIn p w o) k 0 a bb *
          wsumCore p w o k bb i (s * p.wr (k + 1) + e2)) =
      w s o * sumR (p.wr k) fun bb =>
        lhsV p k s a bb * p.W k s bb i e2 := by
  intro s hs e2 he2
  rcases Nat.eq_zero_or_pos k with hk0 | hk1
  · subst hk0
    simp only [Nat.zero_add] at he2 ⊢
    rw [show sumRank p 0 = 1 from by rw [sumRank, if_pos (Or.inl rfl)],
      sumR_one, hw0, sumR_one]
    have hsc : wsumCore p w o 0 0 i (s * p.wr 1 + e2) =
        w s o * p.W 0 s 0 i e2 := by
      rw [wsumCore, if_neg (by omega), if_pos rfl, block_div _ _ _ he2,
        block_mod _ _ _ he2]
    rw [hsc]
    simp only [lhsV]
    ring
  · rw [show sumRank p k = p.S * p.wr k from by rw [sumRank, if_neg (by omega)],
      sumR_block]
    have hstep : ∀ s2, s2 < p.S →
        (sumR (p.wr k) fun bb =>
          lhsV (wsumIn p w o) k 0 a (s2 * p.wr k + bb) *
            wsumCore p w o k (s2 * p.wr k + bb) i (s * p.wr (k + 1) + e2)) =
        if s2 = s then
          w s2 o * sumR (p.wr k) fun bb => lhsV p k s2 a bb * p.W k s2 bb i e2
        else 0 := by
      intro s2 hs2
      by_cases hss : s2 = s
      · rw [if_pos hss, ← mul_sumR]
        apply sumR_congr; intro bb hbb
        rw [lhsW_sumIn p w o hw0 k hk1 (by omega) a s2 hs2 bb hbb,
          wsumCore_hi p w o k (by omega) hk1]
        have hsc : sumCore p k (s2 * p.wr k + bb) i (s * p.wr (k + 1) + e2)
            = p.W k s2 bb i e2 := by
          rw [sumCore, if_neg (by omega), if_neg (by omega), if_neg (by omega),
            block_div _ _ _ hbb, block_div _ _ _ he2, if_pos hss,
            block_mod _ _ _ hbb, block_mod _ _ _ he2]
        rw [hsc]
        ring
      · rw [if_neg hss]
        apply sumR_zero; intro bb hbb
        rw [wsumCore_hi p w o k (by omega) hk1]
        have hsc : sumCore p k (s2 * p.wr k + bb) i (s * p.wr (k + 1) + e2)
            = 0 := by
          rw [sumCore, if_neg (by omega), if_neg (by omega), if_neg (by omega),
            block_div _ _ _ hbb, block_div _ _ _ he2, if_neg hss]
        rw [hsc, mul_zero]
    rw [sumR_congr hstep, sumR_ite_eq, if_pos hs]

/-- Weighted analogue of `gauge_eq`: both sides of the gauge identity carry
the per-element weight. -/
theorem gauge_eqW (p : PIn) (w : ℕ → ℕ → ℚ) (o : ℕ) (k : ℕ) (b r2 dd : ℕ) :
    (sumR (p.lr k) fun a => sumR (p.n k) fun i => sumR p.S fun s =>
      uProjV p k a i b r2 * commonV p k s a i dd * w s o) =
      sumR p.S fun s => sumR (p.wr (k + 1)) fun b2 =>
        (sumR (p.lr (k + 1)) fun e => p.L k b r2 e * lhsV p (k + 1) s e b2) *
          rhsV p (k + 1) s b2 dd * w s o := by
  calc
    (sumR (p.lr k) fun a => sumR (p.n k) fun i => sumR p.S fun s =>
        uProjV p k a i b r2 * commonV p k s a i dd * w s o)
        = sumR (p.lr k) fun a => sumR p.S fun s => sumR (p.n k) fun i =>
            uProjV p k a i b r2 * commonV p k s a i dd * w s o := by
          apply sumR_congr; intro a _
          exact sumR_comm ..
    _ = sumR p.S fun s => sumR (p.lr k) fun a => sumR (p.n k) fun i =>
          uProjV p k a i b r2 * commonV p k s a i dd * w s o := sumR_comm ..
    _ = sumR p.S fun s =>
          (sumR (p.lr k) fun a => sumR (p.n k) fun i =>
            uProjV p k a i b r2 * commonV p k s a i dd) * w s o := by
          apply sumR_congr; intro s _
          rw [← sumR_mul]
          apply sumR_congr; intro a _
          rw [← sumR_mul]
    _ = sumR p.S fun s =>
          (sumR (p.wr (k + 1)) fun b2 =>
            (sumR (p.lr (k + 1)) fun e =>
              p.L k b r2 e * lhsV p (k + 1) s e b2) *
              rhsV p (k + 1) s b2 dd) * w s o := by
          apply sumR_congr; intro s _
          rw [gauge_eq_s p k b r2 dd s]
    _ = sumR p.S fun s => sumR (p.wr (k + 1)) fun b2 =>
          (sumR (p.lr (k + 1)) fun e => p.L k b r2 e * lhsV p (k + 1) s e b2) *
            rhsV p (k + 1) s b2 dd * w s o := by
          apply sumR_congr; intro s _
          rw [← sumR_mul]

/-- Interior projection cores of `project(weighted_sum, where)` in the
per-element `common`/`lhs` form, with the weight riding along. -/
theorem projCoreW_sumIn (p : PIn) (w : ℕ → ℕ → ℚ) (o : ℕ)
    (hw0 : p.wr 0 = 1) (hwd : p.wr p.d = 1) (hrd : 0 < p.rr p.d)
    (k : ℕ) (hk : k < p.d - 1) (a i c : ℕ) :
    projCoreV (wsumIn p w o) k a i c =
      (sumR p.S fun s => commonV p k s a i c * w s o) -
        sumR p.S fun s => sumR (p.wr (k + 1)) fun b2 =>
          (sumR (p.lr (k + 1)) fun e => p.L k a i e * lhsV p (k + 1) s e b2) *
            rhsV p (k + 1) s b2 c * w s o := by
  have hjj : p.d - (p.d - (k + 1)) = k + 1 := by omega
  rw [projCoreV]
  simp only [wsumIn_d, wsumIn_S, wsumIn_wr, wsumIn_lr, wsumIn_n, wsumIn_L,
    wsumIn_W, rhsV]
  rw [if_pos hk, sumR_one]
  rw [show sumRank p (k + 1) = p.S * p.wr (k + 1) from by
    rw [sumRank, if_neg (by omega)], sumR_block]
  have hF : ∀ s, s < p.S → ∀ e2, e2 < p.wr (k + 1) →
      ((sumR (sumRank p k) fun bb =>
          lhsV (wsumIn p w o) k 0 a bb *
            wsumCore p w o k bb i (s * p.wr (k + 1) + e2)) -
        (sumR (p.lr (k + 1)) fun e =>
          p.L k a i e *
            lhsV (wsumIn p w o) (k + 1) 0 e (s * p.wr (k + 1) + e2))) *
        rhsAuxV (wsumIn p w o) (p.d - (k + 1)) 0 (s * p.wr (k + 1) + e2) c =
      ((sumR (p.wr k) fun bb => lhsV p k s a bb * p.W k s bb i e2) -
        (sumR (p.lr (k + 1)) fun e => p.L k a i e * lhsV p (k + 1) s e e2)) *
        rhsAuxV p (p.d - (k + 1)) s e2 c * w s o := by
    intro s hs e2 he2
    rw [t1W_sumIn p w o hw0 k (by omega) a i s hs e2 he2]
    have ht2 : (sumR (p.lr (k + 1)) fun e =>
        p.L k a i e * lhsV (wsumIn p w o) (k + 1) 0 e
          (s * p.wr (k + 1) + e2)) =
        w s o *
          sumR (p.lr (k + 1)) fun e => p.L k a i e * lhsV p (k + 1) s e e2 := by
      rw [← mul_sumR]
      apply sumR_congr; intro e _
      rw [lhsW_sumIn p w o hw0 (k + 1) (by omega) (by omega) e s hs e2 he2]
      ring
    have hrw : rhsAuxV (wsumIn p w o) (p.d - (k + 1)) 0
        (s * p.wr (k + 1) + e2) c = rhsAuxV p (p.d - (k + 1)) s e2 c := by
      rw [rhsAux_wsum p w o (p.d - (k + 1)) (by omega)]
      have hr := rhs_sumIn p hwd hrd (p.d - (k + 1)) (by omega) (by omega) c
        s hs e2 (by rw [hjj]; exact he2)
      rwa [hjj] at hr
    rw [ht2, hrw]
    ring
  calc
    (sumR p.S fun s => sumR (p.wr (k + 1)) fun e2 =>
        ((sumR (sumRank p k) fun bb =>
            lhsV (wsumIn p w o) k 0 a bb *
              wsumCore p w o k bb i (s * p.wr (k + 1) + e2)) -
          (sumR (p.lr (k + 1)) fun e =>
            p.L k a i e *
              lhsV (wsumIn p w o) (k + 1) 0 e (s * p.wr (k + 1) + e2))) *
          rhsAuxV (wsumIn p w o) (p.d - (k + 1)) 0 (s * p.wr (k + 1) + e2) c)
        = sumR p.S fun s => sumR (p.wr (k + 1)) fun e2 =>
            ((sumR (p.wr k) fun bb => lhsV p k s a bb * p.W k s bb i e2) -
              (sumR (p.lr (k + 1)) fun e =>
                p.L k a i e * lhsV p (k + 1) s e e2)) *
              rhsAuxV p (p.d - (k + 1)) s e2 c * w s o := by
          apply sumR_congr; intro s hs
          apply sumR_congr; intro e2 he2
          exact hF s hs e2 he2
    _ = sumR p.S fun s =>
          (sumR (p.wr (k + 1)) fun e2 =>
            (sumR (p.wr k) fun bb => lhsV p k s a bb * p.W k s bb i e2) *
              rhsAuxV p (p.d - (k + 1)) s e2 c) * w s o -
          sumR (p.wr (k + 1)) fun e2 =>
            (sumR (p.lr (k + 1)) fun e =>
              p.L k a i e * lhsV p (k + 1) s e e2) *
              rhsAuxV p (p.d - (k + 1)) s e2 c * w s o := by
          apply sumR_congr; intro s _
          rw [← sumR_mul, ← sumR_sub]
          apply sumR_congr; intro e2 _
          ring
    _ = (sumR p.S fun s =>
          (sumR (p.wr (k + 1)) fun e2 =>
            (sumR (p.wr k) fun bb => lhsV p k s a bb * p.W k s bb i e2) *
              rhsAuxV p (p.d - (k + 1)) s e2 c) * w s o) -
        sumR p.S fun s => sumR (p.wr (k + 1)) fun e2 =>
          (sumR (p.lr (k + 1)) fun e => p.L k a i e * lhsV p (k + 1) s e e2) *
            rhsAuxV p (p.d - (k + 1)) s e2 c * w s o := sumR_sub ..
    _ = (sumR p.S fun s => commonV p k s a i c * w s o) -
        sumR p.S fun s => sumR (p.wr (k + 1)) fun e2 =>
          (sumR (p.lr (k + 1)) fun e => p.L k a i e * lhsV p (k + 1) s e e2) *
            rhsAuxV p (p.d - (k + 1)) s e2 c * w s o := by
          have hcm : ∀ s, s < p.S →
              (sumR (p.wr (k + 1)) fun e2 =>
                (sumR (p.wr k) fun bb => lhsV p k s a bb * p.W k s bb i e2) *
                  rhsAuxV p (p.d - (k + 1)) s e2 c) * w s o =
                commonV p k s a i c * w s o := by
            intro s _
            congr 1
            rw [commonV]
            calc
              (sumR (p.wr (k + 1)) fun e2 =>
                  (sumR (p.wr k) fun bb =>
                    lhsV p k s a bb * p.W k s bb i e2) *
                    rhsAuxV p (p.d - (k + 1)) s e2 c)
                  = sumR (p.wr (k + 1)) fun e2 => sumR (p.wr k) fun bb =>
                      lhsV p k s a bb * p.W k s bb i e2 *
                        rhsAuxV p (p.d - (k + 1)) s e2 c := by
                    apply sumR_congr; intro e2 _
                    rw [← sumR_mul]
              _ = sumR (p.wr k) fun bb => sumR (p.wr (k + 1)) fun e2 =>
                    lhsV p k s a bb * p.W k s bb i e2 *
                      rhsAuxV p (p.d - (k + 1)) s e2 c := sumR_comm ..
              _ = sumR (p.wr k) fun bb => sumR (p.wr (k + 1)) fun e2 =>
                    lhsV p k s a bb * p.W k s bb i e2 *
                      rhsV p (k + 1) s e2 c := rfl
          congr 1
          exact sumR_congr hcm

/-- The last projection core of `project(weighted_sum, where)` equals the
last weighted projection core of `project_sum`. -/
theorem projCoreW_last (p : PIn) (w : ℕ → ℕ → ℚ) (o : ℕ) (hw0 : p.wr 0 = 1)
    (hd : 1 ≤ p.d) (a i c : ℕ) :
    projCoreV (wsumIn p w o) (p.d - 1) a i c =
      projCoreSumWV p w (p.d - 1) o a i c := by
  rw [projCoreV, projCoreSumWV]
  simp only [wsumIn_d, wsumIn_S, wsumIn_wr, wsumIn_lr, wsumIn_n, wsumIn_L,
    wsumIn_W]
  rw [if_neg (lt_irrefl _), if_neg (lt_irrefl _), sumR_one]
  rcases Nat.lt_or_ge p.d 2 with hd1 | hd2
  · -- single mode: the weighted direct-sum core is the weighted batch sum
    have hd1' : p.d = 1 := by omega
    rw [hd1']
    simp only [Nat.sub_self]
    rw [show sumRank p 0 = 1 from by rw [sumRank, if_pos (Or.inl rfl)],
      sumR_one]
    have hsc : wsumCore p w o 0 0 i c =
        sumR p.S fun s => w s o * p.W 0 s 0 i c := by
      rw [wsumCore, if_pos hd1']
    rw [hsc]
    calc
      (lhsV (wsumIn p w o) 0 0 a 0 * sumR p.S fun s => w s o * p.W 0 s 0 i c)
          = sumR p.S fun s => lhsV p 0 s a 0 * p.W 0 s 0 i c * w s o := by
            rw [← mul_sumR]
            apply sumR_congr; intro s _
            simp only [lhsV]
            ring
      _ = sumR p.S fun s => sumR (p.wr 0) fun b => lhsV p 0 s a b *
            p.W 0 s b i c * w s o := by
            apply sumR_congr; intro s _
            rw [hw0, sumR_one]
  · -- at least two modes: reindex the column-concatenated last core
    have h1d : 1 ≤ p.d - 1 := by omega
    rw [show sumRank p (p.d - 1) = p.S * p.wr (p.d - 1) from by
      rw [sumRank, if_neg (by omega)], sumR_block]
    apply sumR_congr; intro s hs
    apply sumR_congr; intro bb hbb
    rw [lhsW_sumIn p w o hw0 (p.d - 1) h1d (by omega) a s hs bb hbb,
      wsumCore_hi p w o (p.d - 1) hd2 h1d]
    have hsc : sumCore p (p.d - 1) (s * p.wr (p.d - 1) + bb) i c =
        p.W (p.d - 1) s bb i c := by
      rw [sumCore, if_neg (by omega), if_neg (by omega), if_pos rfl,
        block_div _ _ _ hbb, block_mod _ _ _ hbb]
    rw [hsc]
    ring

/-- Interior form of the weighted `project_sum` projection core rewritten
through the gauge identity. -/
theorem projCoreSumW_common (p : PIn) (w : ℕ → ℕ → ℚ) (o : ℕ) (k : ℕ)
    (hk : k < p.d - 1) (b r2 dd : ℕ) :
    projCoreSumWV p w k o b r2 dd =
      (sumR p.S fun s => commonV p k s b r2 dd * w s o) -
        sumR p.S fun s => sumR (p.wr (k + 1)) fun b2 =>
          (sumR (p.lr (k + 1)) fun e => p.L k b r2 e * lhsV p (k + 1) s e b2) *
            rhsV p (k + 1) s b2 dd * w s o := by
  rw [projCoreSumWV, if_pos hk, gauge_eqW]

/-- Slice `o` of the weighted projection cores of `project_sum` coincides
with the projection cores of `project(weighted_sum_o, where)`. -/
theorem projCoreW_eq (p : PIn) (w : ℕ → ℕ → ℚ) (o : ℕ) (hw0 : p.wr 0 = 1)
    (hwd : p.wr p.d = 1) (hrd : 0 < p.rr p.d) (hd : 1 ≤ p.d) (k : ℕ)
    (hk : k < p.d) (a i c : ℕ) :
    projCoreSumWV p w k o a i c = projCoreV (wsumIn p w o) k a i c := by
  rcases Nat.lt_or_ge k (p.d - 1) with hlt | hge
  · rw [projCoreSumW_common p w o k hlt,
      projCoreW_sumIn p w o hw0 hwd hrd k hlt]
  · have hk1 : k = p.d - 1 := by omega
    subst hk1
    exact (projCoreW_last p w o hw0 hd a i c).symm

/-- Slice `o` of the output cores of `project_sum` with a weight matrix
coincides with the output cores of `project(weighted_sum_o, where)`. -/
theorem resCoreW_eq (p : PIn) (w : ℕ → ℕ → ℚ) (o : ℕ) (hw0 : p.wr 0 = 1)
    (hwd : p.wr p.d = 1) (hrd : 0 < p.rr p.d) (hd : 1 ≤ p.d) (k : ℕ)
    (hk : k < p.d) (a i c : ℕ) :
    resCoreSumWV p w k o a i c = resCoreV (wsumIn p w o) k a i c := by
  have hsp : splitV (wsumIn p w o) 0 = splitV p 0 := by
    rw [splitV, splitV]
    simp only [wsumIn_d, wsumIn_wr, wsumIn_rr]
    by_cases h0 : 0 < p.d - 1
    · rw [if_pos h0, if_pos h0]
    · rw [if_neg h0, if_neg h0,
        show sumRank p p.d = 1 from by rw [sumRank, if_pos (Or.inr rfl)], hwd]
  rw [resCoreSumWV, resCoreV]
  simp only [wsumIn_d, wsumIn_rr, wsumIn_L, wsumIn_R, hsp]
  by_cases hk0 : k = 0
  · subst hk0
    rw [if_pos rfl, if_pos rfl]
    by_cases hc : c < splitV p 0
    · rw [if_pos hc, if_pos hc,
        projCoreW_eq p w o hw0 hwd hrd hd 0 hd a i c]
    · rw [if_neg hc, if_neg hc]
  · rw [if_neg hk0, if_neg hk0]
    by_cases hk1 : k = p.d - 1
    · rw [if_pos hk1, if_pos hk1]
      by_cases ha : a < p.rr (p.d - 1)
      · rw [if_pos ha, if_pos ha]
      · rw [if_neg ha, if_neg ha,
          projCoreW_eq p w o hw0 hwd hrd hd (p.d - 1) (by omega) _ i c]
    · rw [if_neg hk1, if_neg hk1]
      by_cases ha : a < p.rr k
      · rw [if_pos ha, if_pos ha]
      · rw [if_neg ha, if_neg ha]
        by_cases hc : c < p.rr (k + 1)
        · rw [if_pos hc, if_pos hc,
            projCoreW_eq p w o hw0 hwd hrd hd k hk _ i c]
        · rw [if_neg hc, if_neg hc]

/-- The tail of the chain contraction never reads the first core, so it is
the same on the weighted and the unweighted direct sum. -/
theorem chainW_tail (p : PIn) (w : ℕ → ℕ → ℚ) (o : ℕ) (hd2 : 2 ≤ p.d)
    (i : ℕ → ℕ) :
    ∀ j, j ≤ p.d - 1 → ∀ a,
      chainAux (sumRank p) (wsumCore p w o) p.d i j a =
        chainAux (sumRank p) (sumCore p) p.d i j a := by
  intro j
  induction j with
  | zero => intro _ a; rw [chainAux, chainAux]
  | succ j ih =>
      intro hj a
      rw [chainAux, chainAux]
      apply sumR_congr; intro b _
      rw [ih (by omega) b,
        wsumCore_hi p w o (p.d - (j + 1)) hd2 (by omega)]

/-- The weighted direct-sum TT reconstructs to the weighted sum of the
batch elements — the justification that `wsumIn` realizes the spec's
weighted sum for output-batch index `o`. -/
theorem fullW_wsumIn (p : PIn) (w : ℕ → ℕ → ℚ) (o : ℕ) (hwd : p.wr p.d = 1)
    (hd : 1 ≤ p.d) (i : ℕ → ℕ) :
    fullW (wsumIn p w o) 0 i = sumR p.S fun s => w s o * fullW p s i := by
  have hfw : fullW (wsumIn p w o) 0 i =
      chainAux (sumRank p) (wsumCore p w o) p.d i p.d 0 := rfl
  rw [hfw]
  rcases Nat.lt_or_ge p.d 2 with hd1 | hd2
  · have hd1' : p.d = 1 := by omega
    have hw1 : p.wr 1 = 1 := by have hq := hwd; rw [hd1'] at hq; exact hq
    have hfull1 : ∀ s, fullW p s i = p.W 0 s 0 (i 0) 0 := by
      intro s
      rw [fullW, chain_unfold_head _ _ _ _ hd, hw1, sumR_one, hd1']
      have h0 : (1 : ℕ) - 1 = 0 := rfl
      rw [h0, chainAux]
      simp
    rw [chain_unfold_head _ _ _ _ hd,
      show sumRank p 1 = 1 from by rw [sumRank, if_pos (Or.inr hd1'.symm)],
      sumR_one, hd1']
    have h0 : (1 : ℕ) - 1 = 0 := rfl
    rw [h0, chainAux]
    have hsc : wsumCore p w o 0 0 (i 0) 0 =
        sumR p.S fun s => w s o * p.W 0 s 0 (i 0) 0 := by
      rw [wsumCore, if_pos hd1']
    rw [hsc]
    simp only [eq_self_iff_true, if_true, mul_one]
    apply sumR_congr; intro s _
    rw [hfull1 s]
  · rw [chain_unfold_head _ _ _ _ hd,
      show sumRank p 1 = p.S * p.wr 1 from by rw [sumRank, if_neg (by omega)],
      sumR_block]
    apply sumR_congr; intro s hs
    rw [fullW, chain_unfold_head _ _ _ _ hd, ← mul_sumR]
    apply sumR_congr; intro b hb
    have hsc : wsumCore p w o 0 0 (i 0) (s * p.wr 1 + b) =
        w s o * p.W 0 s 0 (i 0) b := by
      rw [wsumCore, if_neg (by omega), if_pos rfl, block_div _ _ _ hb,
        block_mod _ _ _ hb]
    rw [hsc]
    have hpd1 : p.d - (p.d - 1) = 1 := by omega
    have htl := chainSum_tail p hwd i (p.d - 1) (by omega) (le_refl _) s hs b
      (by rw [hpd1]; exact hb)
    rw [hpd1] at htl
    rw [chainW_tail p w o hd2 i (p.d - 1) (le_refl _), htl]
    ring

/-- C9 (amended, value level): slice `o` of `project_sum(batch, where,
weights)` equals `project` of the weighted sum `Σ_s weights[s,o] ·
batch[s]` in full-tensor reconstruction; `wsumIn p w o` is the canonical
TT representation of that weighted sum (second conjunct). -/
theorem claim9_weight_matrix (p : PIn) (w : ℕ → ℕ → ℚ) (o : ℕ)
    (hw0 : p.wr 0 = 1) (hwd : p.wr p.d = 1) (hrd : 0 < p.rr p.d)
    (hd : 1 ≤ p.d) (i : ℕ → ℕ) :
    fullResSumWV p w o i = fullResV (wsumIn p w o) i ∧
      fullW (wsumIn p w o) 0 i = sumR p.S fun s => w s o * fullW p s i := by
  constructor
  · rw [fullResSumWV, fullResV]
    apply chainAux_congr (resRankV p) (resRankV (wsumIn p w o))
      (fun k => resCoreSumWV p w k o) (resCoreV (wsumIn p w o)) p.d i ?_ ?_
      p.d (le_refl _) 0
    · intro k _ _
      rw [resRankV, resRankV]
      simp only [wsumIn_d, wsumIn_rr, wsumIn_lr, wsumIn_wr]
      by_cases hk0 : k = 0
      · rw [if_pos hk0, if_pos hk0]
      · rw [if_neg hk0, if_neg hk0]
        by_cases hkd : k < p.d
        · rw [if_pos hkd, if_pos hkd]
        · rw [if_neg hkd, if_neg hkd]
          by_cases hone : p.d = 1
          · rw [if_pos hone, if_pos hone, hwd,
              show sumRank p p.d = 1 from by rw [sumRank, if_pos (Or.inr rfl)]]
          · rw [if_neg hone, if_neg hone]
    · intro k hk a b
      exact resCoreW_eq p w o hw0 hwd hrd hd k hk a (i k) b
  · exact fullW_wsumIn p w o hwd hd i

theorem claim9_weight_matrix_witness :
    (pC9.wr 0 = 1 ∧ pC9.wr pC9.d = 1 ∧ 0 < pC9.rr pC9.d ∧ 1 ≤ pC9.d) ∧
      (fullResSumWV pC9 wC9 1 (fun _ => 0) =
          fullResV (wsumIn pC9 wC9 1) (fun _ => 0) ∧
        fullW (wsumIn pC9 wC9 1) 0 (fun _ => 0) =
          sumR pC9.S fun s => wC9 s 1 * fullW pC9 s (fun _ => 0)) :=
  ⟨⟨rfl, rfl, by decide, by decide⟩,
    claim9_weight_matrix pC9 wC9 1 rfl rfl (by decide) (by decide) _⟩

theorem rhsStep_eval (S wrk wrk1 nk rtk rtk1 : ℕ) :
    einsumSh [([9, 0, 6, 1], [S, wrk, nk, wrk1]), ([9, 1, 3], [S, wrk1, rtk1]),
      ([2, 6, 3], [rtk, nk, rtk1])] [9, 0, 2] = some [S, wrk, rtk] := by
  simp [einsumSh, bindOps, bindOp, bindLbl, lookupN, outSh]

theorem orthoWith_isMat (t : TT) (r : ℕ → ℕ) : (orthoWith t r).isMat = t.isMat := rfl

theorem orthoWith_isBatch (t : TT) (r : ℕ → ℕ) : (orthoWith t r).isBatch = t.isBatch := rfl

theorem orthoWith_d (t : TT) (r : ℕ → ℕ) : (orthoWith t r).d = t.d := rfl

theorem orthoWith_rows (t : TT) (r : ℕ → ℕ) : (orthoWith t r).rows = t.rows := rfl

theorem orthoWith_rk (t : TT) (r : ℕ → ℕ) : (orthoWith t r).rk = r := rfl

theorem coreSh_batch_tensor (t : TT) (hb : t.isBatch = true)
    (hm : t.isMat = false) (k : ℕ) :
    coreSh t k = [t.bS, t.rk k, t.rows k, t.rk (k + 1)] := by
  simp [coreSh, hb, hm]

theorem coreSh_plain_tensor (t : TT) (hb : t.isBatch = false)
    (hm : t.isMat = false) (k : ℕ) :
    coreSh t k = [t.rk k, t.rows k, t.rk (k + 1)] := by
  simp [coreSh, hb, hm]

theorem expandBatchDim_of_single (t : TT) (hb : t.isBatch = false) :
    expandBatchDim t = { t with isBatch := true, bS := 1 } := by
  rw [expandBatchDim, if_neg (by rw [hb]; exact Bool.false_ne_true)]

/-- On a single (non-batch) TT-tensor argument pair, the backward sweep of
`project`/`project_sum` succeeds and `rhs[d - j]` has shape
`(1, what_rank, right_tangent_rank)` at cut `d - j`. -/
theorem rhsSh_eval (what whereT : TT) (rt : ℕ → ℕ)
    (hm : whereT.isMat = false) (hwm : what.isMat = false)
    (hb : what.isBatch = false) (hwbm : whereT.isBatch = false)
    (hrows : ∀ k, what.rows k = whereT.rows k)
    (hwd : what.rk what.d = 1) (hrtd : rt what.d = 1) :
    ∀ j, j ≤ what.d - 1 →
      rhsSh false (expandBatchDim what) (orthoWith whereT rt) j =
        .ok [1, what.rk (what.d - j), rt (what.d - j)] := by
  have heb : expandBatchDim what = { what with isBatch := true, bS := 1 } :=
    expandBatchDim_of_single what hb
  intro j
  induction j with
  | zero =>
      intro _
      rw [rhsSh, show (expandBatchDim what).bS = 1 from by rw [heb],
        Nat.sub_zero, hwd, hrtd]
  | succ j ih =>
      intro hj
      rw [rhsSh, ih (by omega)]
      show rhsStepSh false (expandBatchDim what) (orthoWith whereT rt)
        ((expandBatchDim what).d - (j + 1))
        [1, what.rk (what.d - j), rt (what.d - j)] = _
      rw [show (expandBatchDim what).d = what.d from by rw [heb]]
      have hco : coreSh (expandBatchDim what) (what.d - (j + 1)) =
          [1, what.rk (what.d - (j + 1)), whereT.rows (what.d - (j + 1)),
            what.rk (what.d - j)] := by
        rw [coreSh_batch_tensor _ (by rw [heb]) (by rw [heb]; exact hwm),
          show (expandBatchDim what).bS = 1 from by rw [heb],
          show (expandBatchDim what).rk = what.rk from by rw [heb],
          show (expandBatchDim what).rows = what.rows from by rw [heb],
          hrows (what.d - (j + 1)),
          show what.d - (j + 1) + 1 = what.d - j from by omega]
      have hcr : coreSh (orthoWith whereT rt) (what.d - (j + 1)) =
          [rt (what.d - (j + 1)), whereT.rows (what.d - (j + 1)),
            rt (what.d - j)] := by
        rw [coreSh_plain_tensor _ (by rw [orthoWith_isBatch]; exact hwbm)
          (by rw [orthoWith_isMat]; exact hm), orthoWith_rk, orthoWith_rows,
          show what.d - (j + 1) + 1 = what.d - j from by omega]
      rw [rhsStepSh, hco, hcr]
      simp [einsumE, einsumSh, bindOps, bindOp, bindLbl, lookupN, outSh, modeL]

/-- On a single (non-batch) TT-tensor argument pair, the forward sweep of
`project`/`project_sum` succeeds and `lhs[k]` has shape
`(1, left_tangent_rank, what_rank)` at cut `k`. -/
theorem lhsSh_eval (what whereT : TT) (lt : ℕ → ℕ)
    (hm : whereT.isMat = false) (hwm : what.isMat = false)
    (hb : what.isBatch = false) (hwbm : whereT.isBatch = false)
    (hrows : ∀ k, what.rows k = whereT.rows k)
    (hw0 : what.rk 0 = 1) (hlt0 : lt 0 = 1) :
    ∀ k, k ≤ what.d - 1 →
      lhsSh false (expandBatchDim what) (orthoWith whereT lt) k =
        .ok [1, lt k, what.rk k] := by
  have heb : expandBatchDim what = { what with isBatch := true, bS := 1 } :=
    expandBatchDim_of_single what hb
  intro k
  induction k with
  | zero =>
      intro _
      rw [lhsSh, show (expandBatchDim what).bS = 1 from by rw [heb], hlt0, hw0]
  | succ k ih =>
      intro hk
      rw [lhsSh, ih (by omega)]
      show lhsStepSh false (expandBatchDim what) (orthoWith whereT lt) k
        [1, lt k, what.rk k] = _
      have hco : coreSh (expandBatchDim what) k =
          [1, what.rk k, whereT.rows k, what.rk (k + 1)] := by
        rw [coreSh_batch_tensor _ (by rw [heb]) (by rw [heb]; exact hwm),
          show (expandBatchDim what).bS = 1 from by rw [heb],
          show (expandBatchDim what).rk = what.rk from by rw [heb],
          show (expandBatchDim what).rows = what.rows from by rw [heb],
          hrows k]
      have hcl : coreSh (orthoWith whereT lt) k =
          [lt k, whereT.rows k, lt (k + 1)] := by
        rw [coreSh_plain_tensor _ (by rw [orthoWith_isBatch]; exact hwbm)
          (by rw [orthoWith_isMat]; exact hm), orthoWith_rk, orthoWith_rows]
      rw [lhsStepSh, hco, hcl]
      simp [einsumE, einsumSh, bindOps, bindOp, bindLbl, lookupN, outSh, modeL]

theorem coresLoop_eval (f : ℕ → Except TFErr (List ℕ)) (g : ℕ → List ℕ) :
    ∀ d, (∀ k, k < d → f k = .ok (g k)) →
      coresLoop f d = .ok ((List.range d).map g) := by
  intro d
  induction d with
  | zero => intro _; rw [coresLoop]; rfl
  | succ d ih =>
      intro h
      rw [coresLoop, ih (fun k hk => h k (by omega))]
      show (do
        let c ← f d
        pure ((List.range d).map g ++ [c]) : Except TFErr (List (List ℕ))) = _
      rw [h d (by omega)]
      show Except.ok ((List.range d).map g ++ [g d]) = _
      rw [List.range_succ, List.map_append, List.map_singleton]

theorem rawShape_eq_of (what whereT : TT) (hm : whereT.isMat = false)
    (hwm : what.isMat = false) (hdd : what.d = whereT.d)
    (hrows : ∀ k, what.rows k = whereT.rows k) :
    rawShape whereT = rawShape what := by
  simp only [rawShape, hm, hwm, Bool.false_eq_true, if_false]
  rw [hdd]
  exact congrArg (fun l => [l])
    (List.map_congr_left fun a _ => (hrows a).symm)

theorem validateSh_ok_of (what whereT : TT) (hwbm : whereT.isBatch = false)
    (hraw : rawShape whereT = rawShape what) (hdt : whereT.dt = what.dt) :
    validateSh what whereT = .ok () := by
  rw [validateSh, if_neg (by rw [hwbm]; exact Bool.false_ne_true),
    if_neg (by rw [hraw]; exact fun h => h rfl),
    if_neg (by rw [hdt]; exact fun h => h rfl)]

/-- Last-index projection core of `project` (single output) at shape
level. -/
theorem projCoreShP_last_eval (what whereT : TT) (lt : ℕ → ℕ)
    (hm : whereT.isMat = false) (hwm : what.isMat = false)
    (hb : what.isBatch = false)
    (hrows : ∀ k, what.rows k = whereT.rows k)
    (hd : 1 ≤ what.d) (lk1 rk1 : List ℕ) :
    projCoreShP false false (expandBatchDim what) (orthoWith whereT lt)
      [1, lt (what.d - 1), what.rk (what.d - 1)] lk1 rk1 (what.d - 1) =
      .ok [lt (what.d - 1), whereT.rows (what.d - 1), what.rk what.d] := by
  have heb : expandBatchDim what = { what with isBatch := true, bS := 1 } :=
    expandBatchDim_of_single what hb
  have hebd : (expandBatchDim what).d = what.d := by rw [heb]
  rw [projCoreShP, if_neg (by rw [hebd]; omega)]
  have hco : coreSh (expandBatchDim what) (what.d - 1) =
      [1, what.rk (what.d - 1), whereT.rows (what.d - 1), what.rk what.d] := by
    rw [coreSh_batch_tensor _ (by rw [heb]) (by rw [heb]; exact hwm),
      show (expandBatchDim what).bS = 1 from by rw [heb],
      show (expandBatchDim what).rk = what.rk from by rw [heb],
      show (expandBatchDim what).rows = what.rows from by rw [heb],
      hrows (what.d - 1), show what.d - 1 + 1 = what.d from by omega]
  rw [hco]
  simp [einsumE, einsumSh, bindOps, bindOp, bindLbl, lookupN, outSh, modeL]

/-- Interior projection core of `project` (single output) at shape
level. -/
theorem projCoreShP_int_eval (what whereT : TT) (lt rt : ℕ → ℕ)
    (hm : whereT.isMat = false) (hwm : what.isMat = false)
    (hb : what.isBatch = false) (hwbm : whereT.isBatch = false)
    (hrows : ∀ k, what.rows k = whereT.rows k)
    (k : ℕ) (hk : k < what.d - 1) :
    projCoreShP false false (expandBatchDim what) (orthoWith whereT lt)
      [1, lt k, what.rk k] [1, lt (k + 1), what.rk (k + 1)]
      [1, what.rk (k + 1), rt (k + 1)] k =
      .ok [lt k, whereT.rows k, rt (k + 1)] := by
  have heb : expandBatchDim what = { what with isBatch := true, bS := 1 } :=
    expandBatchDim_of_single what hb
  have hebd : (expandBatchDim what).d = what.d := by rw [heb]
  rw [projCoreShP, if_pos (by rw [hebd]; omega)]
  have hco : coreSh (expandBatchDim what) k =
      [1, what.rk k, whereT.rows k, what.rk (k + 1)] := by
    rw [coreSh_batch_tensor _ (by rw [heb]) (by rw [heb]; exact hwm),
      show (expandBatchDim what).bS = 1 from by rw [heb],
      show (expandBatchDim what).rk = what.rk from by rw [heb],
      show (expandBatchDim what).rows = what.rows from by rw [heb],
      hrows k]
  have hcl : coreSh (orthoWith whereT lt) k =
      [lt k, whereT.rows k, lt (k + 1)] := by
    rw [coreSh_plain_tensor _ (by rw [orthoWith_isBatch]; exact hwbm)
      (by rw [orthoWith_isMat]; exact hm), orthoWith_rk, orthoWith_rows]
  rw [hco, hcl]
  simp [einsumE, einsumSh, bindOps, bindOp, bindLbl, lookupN, outSh, modeL,
    subE, bind, Except.bind]

/-- First-core assembly of the single-tensor output:
`concat((proj_core, left_core), axis=2)`. -/
theorem assembleSh_first_eval (whereT : TT) (lt rt : ℕ → ℕ) (oBS c : ℕ)
    (hm : whereT.isMat = false) (hwbm : whereT.isBatch = false) :
    assembleSh false false oBS whereT (orthoWith whereT lt)
      (orthoWith whereT rt) [lt 0, whereT.rows 0, c] 0 =
      .ok [lt 0, whereT.rows 0, c + lt 1] := by
  have hcl : coreSh (orthoWith whereT lt) 0 =
      [lt 0, whereT.rows 0, lt 1] := by
    rw [coreSh_plain_tensor _ (by rw [orthoWith_isBatch]; exact hwbm)
      (by rw [orthoWith_isMat]; exact hm), orthoWith_rk, orthoWith_rows]
  rw [assembleSh, if_pos rfl, hcl]
  show concatE 2 [lt 0, whereT.rows 0, c] [lt 0, whereT.rows 0, lt 1] = _
  rw [concatE, if_pos ⟨by simp, rfl, rfl⟩]
  rfl

/-- Last-core assembly (`d ≥ 2`) of the single-tensor output:
`concat((right_core, proj_core), axis=0)`. -/
theorem assembleSh_last_eval (whereT : TT) (lt rt : ℕ → ℕ) (oBS x : ℕ)
    (hm : whereT.isMat = false) (hwbm : whereT.isBatch = false)
    (hd2 : 2 ≤ whereT.d) (hrt : rt (whereT.d - 1 + 1) = 1) :
    assembleSh false false oBS whereT (orthoWith whereT lt)
      (orthoWith whereT rt) [x, whereT.rows (whereT.d - 1), 1]
      (whereT.d - 1) =
      .ok [rt (whereT.d - 1) + x, whereT.rows (whereT.d - 1), 1] := by
  have hcr : coreSh (orthoWith whereT rt) (whereT.d - 1) =
      [rt (whereT.d - 1), whereT.rows (whereT.d - 1), 1] := by
    rw [coreSh_plain_tensor _ (by rw [orthoWith_isBatch]; exact hwbm)
      (by rw [orthoWith_isMat]; exact hm), orthoWith_rk, orthoWith_rows, hrt]
  rw [assembleSh, if_neg (by omega), if_pos rfl, hcr]
  show concatE 0 [rt (whereT.d - 1), whereT.rows (whereT.d - 1), 1]
    [x, whereT.rows (whereT.d - 1), 1] = _
  rw [concatE, if_pos ⟨by simp, rfl, rfl⟩]
  rfl

/-- Interior-core assembly of the single-tensor output: the 2×2 block
`[[right_core, zeros], [proj_core, left_core]]`. -/
theorem assembleSh_mid_eval (whereT : TT) (lt rt : ℕ → ℕ) (oBS k : ℕ)
    (hm : whereT.isMat = false) (hwbm : whereT.isBatch = false)
    (hk1 : 1 ≤ k) (hk : k < whereT.d - 1) :
    assembleSh false false oBS whereT (orthoWith whereT lt)
      (orthoWith whereT rt) [lt k, whereT.rows k, rt (k + 1)] k =
      .ok [rt k + lt k, whereT.rows k, rt (k + 1) + lt (k + 1)] := by
  have hcl : coreSh (orthoWith whereT lt) k =
      [lt k, whereT.rows k, lt (k + 1)] := by
    rw [coreSh_plain_tensor _ (by rw [orthoWith_isBatch]; exact hwbm)
      (by rw [orthoWith_isMat]; exact hm), orthoWith_rk, orthoWith_rows]
  have hcr : coreSh (orthoWith whereT rt) k =
      [rt k, whereT.rows k, rt (k + 1)] := by
    rw [coreSh_plain_tensor _ (by rw [orthoWith_isBatch]; exact hwbm)
      (by rw [orthoWith_isMat]; exact hm), orthoWith_rk, orthoWith_rows]
  rw [assembleSh, if_neg (by omega), if_neg (by omega), hcl, hcr]
  show (do
    let upper ← concatE 2 [rt k, whereT.rows k, rt (k + 1)]
      ((if false = true then [oBS] else []) ++
        [(orthoWith whereT rt).rk k, whereT.rows k] ++
        (if false = true then [whereT.cols k] else []) ++
        [(orthoWith whereT lt).rk (k + 1)])
    let lower ← concatE 2 [lt k, whereT.rows k, rt (k + 1)]
      [lt k, whereT.rows k, lt (k + 1)]
    concatE 0 upper lower : Except TFErr (List ℕ)) = _
  rw [show ((if false = true then [oBS] else []) ++
      [(orthoWith whereT rt).rk k, whereT.rows k] ++
      (if false = true then [whereT.cols k] else []) ++
      [(orthoWith whereT lt).rk (k + 1)]) =
      [rt k, whereT.rows k, lt (k + 1)] from by
    rw [orthoWith_rk, orthoWith_rk]; rfl]
  rw [show concatE 2 [rt k, whereT.rows k, rt (k + 1)]
      [rt k, whereT.rows k, lt (k + 1)] =
      .ok [rt k, whereT.rows k, rt (k + 1) + lt (k + 1)] from by
    rw [concatE, if_pos ⟨by simp, rfl, rfl⟩]; rfl]
  show (do
    let lower ← concatE 2 [lt k, whereT.rows k, rt (k + 1)]
      [lt k, whereT.rows k, lt (k + 1)]
    concatE 0 [rt k, whereT.rows k, rt (k + 1) + lt (k + 1)] lower :
      Except TFErr (List ℕ)) = _
  rw [show concatE 2 [lt k, whereT.rows k, rt (k + 1)]
      [lt k, whereT.rows k, lt (k + 1)] =
      .ok [lt k, whereT.rows k, rt (k + 1) + lt (k + 1)] from by
    rw [concatE, if_pos ⟨by simp, rfl, rfl⟩]; rfl]
  show concatE 0 [rt k, whereT.rows k, rt (k + 1) + lt (k + 1)]
    [lt k, whereT.rows k, rt (k + 1) + lt (k + 1)] = _
  rw [concatE, if_pos ⟨by simp, rfl, rfl⟩]
  rfl

theorem ok_bind {α β : Type} (a : α) (f : α → Except TFErr β) :
    (Except.ok a >>= f) = f a := rfl

/-- Per-core evaluation of `project` on a single TT-tensor pair: core `k`
of the output has the shape read off the concatenations. -/
theorem projCoreFull_eval (lt rt : ℕ → ℕ) (what whereT : TT)
    (hm : whereT.isMat = false) (hwm : what.isMat = false)
    (hb : what.isBatch = false) (hwbm : whereT.isBatch = false)
    (hdd : what.d = whereT.d)
    (hrows : ∀ k, what.rows k = whereT.rows k)
    (hw0 : what.rk 0 = 1) (hwd : what.rk what.d = 1)
    (hlt0 : lt 0 = 1) (hrtd : rt what.d = 1)
    (hd : 1 ≤ what.d) (k : ℕ) (hk : k < what.d) :
    projCoreFull lt rt what whereT k = .ok (projResCoreSh lt rt whereT k) := by
  have heb : expandBatchDim what = { what with isBatch := true, bS := 1 } :=
    expandBatchDim_of_single what hb
  have hebd : (expandBatchDim what).d = what.d := by rw [heb]
  rw [projCoreFull, hm, hb, hebd]
  rcases Nat.lt_or_ge what.d 2 with hd2 | hd2
  · -- single mode: k = 0, the first-core branch assembles the only core
    have hd1 : what.d = 1 := by omega
    have hk0 : k = 0 := by omega
    subst hk0
    rw [lhsSh_eval what whereT lt hm hwm hb hwbm hrows hw0 hlt0 0 (by omega),
      hd1]
    rw [show min (0 + 1) (1 - 1) = 0 from by omega,
      lhsSh_eval what whereT lt hm hwm hb hwbm hrows hw0 hlt0 0 (by omega),
      show (1 : ℕ) - (0 + 1) = 0 from by omega,
      show rhsSh false (expandBatchDim what) (orthoWith whereT rt) 0 =
        .ok [1, what.rk 1, rt 1] from by
          have hq := rhsSh_eval what whereT rt hm hwm hb hwbm hrows hwd hrtd 0
            (by omega)
          rw [Nat.sub_zero, hd1] at hq
          exact hq]
    simp only [ok_bind]
    have hproj : projCoreShP false false (expandBatchDim what)
        (orthoWith whereT lt) [1, lt 0, what.rk 0] [1, lt 0, what.rk 0]
        [1, what.rk 1, rt 1] 0 =
        .ok [lt 0, whereT.rows 0, what.rk 1] := by
      rw [projCoreShP, if_neg (by rw [hebd, hd1]; omega)]
      have hco : coreSh (expandBatchDim what) 0 =
          [1, what.rk 0, whereT.rows 0, what.rk 1] := by
        rw [coreSh_batch_tensor _ (by rw [heb]) (by rw [heb]; exact hwm),
          show (expandBatchDim what).bS = 1 from by rw [heb],
          show (expandBatchDim what).rk = what.rk from by rw [heb],
          show (expandBatchDim what).rows = what.rows from by rw [heb],
          hrows 0]
      rw [hco]
      simp [einsumE, einsumSh, bindOps, bindOp, bindLbl, lookupN, outSh, modeL]
    rw [hproj]
    simp only [ok_bind]
    rw [assembleSh_first_eval whereT lt rt what.bS (what.rk 1) hm hwbm,
      show what.rk 1 = 1 from hd1 ▸ hwd,
      projResCoreSh, if_pos (by omega)]
  · rcases Nat.eq_zero_or_pos k with hk0 | hk1
    · -- first core
      subst hk0
      rw [lhsSh_eval what whereT lt hm hwm hb hwbm hrows hw0 hlt0 0 (by omega),
        show min (0 + 1) (what.d - 1) = 1 from by omega,
        lhsSh_eval what whereT lt hm hwm hb hwbm hrows hw0 hlt0 1 (by omega),
        show rhsSh false (expandBatchDim what) (orthoWith whereT rt)
          (what.d - (0 + 1)) = .ok [1, what.rk 1, rt 1] from by
            have hq := rhsSh_eval what whereT rt hm hwm hb hwbm hrows hwd hrtd
              (what.d - 1) (by omega)
            rw [show what.d - (what.d - 1) = 1 from by omega] at hq
            exact hq]
      simp only [ok_bind]
      rw [projCoreShP_int_eval what whereT lt rt hm hwm hb hwbm hrows 0
        (by omega)]
      simp only [ok_bind]
      rw [assembleSh_first_eval whereT lt rt what.bS (rt 1) hm hwbm,
        projResCoreSh, if_neg (by omega), if_pos rfl]
    · rcases Nat.lt_or_ge k (what.d - 1) with hkm | hkl
      · -- interior core
        rw [lhsSh_eval what whereT lt hm hwm hb hwbm hrows hw0 hlt0 k
          (by omega),
          show min (k + 1) (what.d - 1) = k + 1 from by omega,
          lhsSh_eval what whereT lt hm hwm hb hwbm hrows hw0 hlt0 (k + 1)
            (by omega),
          show rhsSh false (expandBatchDim what) (orthoWith whereT rt)
            (what.d - (k + 1)) = .ok [1, what.rk (k + 1), rt (k + 1)] from by
              have hq := rhsSh_eval what whereT rt hm hwm hb hwbm hrows hwd
                hrtd (what.d - (k + 1)) (by omega)
              rw [show what.d - (what.d - (k + 1)) = k + 1 from by omega] at hq
              exact hq]
        simp only [ok_bind]
        rw [projCoreShP_int_eval what whereT lt rt hm hwm hb hwbm hrows k hkm]
        simp only [ok_bind]
        rw [assembleSh_mid_eval whereT lt rt what.bS k hm hwbm hk1
          (by omega),
          projResCoreSh, if_neg (by omega), if_neg (by omega),
          if_neg (by omega)]
      · -- last core
        have hkl' : k = what.d - 1 := by omega
        subst hkl'
        rw [lhsSh_eval what whereT lt hm hwm hb hwbm hrows hw0 hlt0
          (what.d - 1) (by omega),
          show min (what.d - 1 + 1) (what.d - 1) = what.d - 1 from by omega,
          lhsSh_eval what whereT lt hm hwm hb hwbm hrows hw0 hlt0
            (what.d - 1) (by omega),
          show rhsSh false (expandBatchDim what) (orthoWith whereT rt)
            (what.d - (what.d - 1 + 1)) =
            .ok [1, what.rk what.d, rt what.d] from by
              have hq := rhsSh_eval what whereT rt hm hwm hb hwbm hrows hwd
                hrtd 0 (by omega)
              rw [Nat.sub_zero] at hq
              rw [show what.d - (what.d - 1 + 1) = 0 from by omega]
              exact hq]
        simp only [ok_bind]
        rw [projCoreShP_last_eval what whereT lt hm hwm hb hrows hd
          [1, lt (what.d - 1), what.rk (what.d - 1)] [1, what.rk what.d,
            rt what.d]]
        simp only [ok_bind]
        rw [hwd]
        have hrt1 : rt (whereT.d - 1 + 1) = 1 := by
          rw [show whereT.d - 1 + 1 = what.d from by omega]
          exact hrtd
        have has := assembleSh_last_eval whereT lt rt what.bS
          (lt (what.d - 1)) hm hwbm (by omega) hrt1
        rw [← hdd] at has
        rw [has, projResCoreSh, if_neg (by omega), if_neg (by omega),
          if_pos (by rw [← hdd])]
        rw [hdd]

/-- Success of `project` on a single TT-tensor pair, with the output cores
given explicitly. -/
theorem projectSh_eval (lt rt : ℕ → ℕ) (what whereT : TT)
    (hm : whereT.isMat = false) (hwm : what.isMat = false)
    (hb : what.isBatch = false) (hwbm : whereT.isBatch = false)
    (hdd : what.d = whereT.d)
    (hrows : ∀ k, what.rows k = whereT.rows k)
    (hdt : whereT.dt = what.dt)
    (hw0 : what.rk 0 = 1) (hwd : what.rk what.d = 1)
    (hlt0 : lt 0 = 1) (hrtd : rt what.d = 1) (hd : 1 ≤ what.d) :
    projectSh lt rt what whereT =
      .ok ⟨false, what.bS, rawShape whereT,
        (List.range what.d).map (projResCoreSh lt rt whereT)⟩ := by
  have heb : expandBatchDim what = { what with isBatch := true, bS := 1 } :=
    expandBatchDim_of_single what hb
  have hebd : (expandBatchDim what).d = what.d := by rw [heb]
  have hv := validateSh_ok_of what whereT hwbm
    (rawShape_eq_of what whereT hm hwm hdd hrows) hdt
  rw [projectSh, hv]
  simp only [ok_bind]
  rw [hm, hebd,
    rhsSh_eval what whereT rt hm hwm hb hwbm hrows hwd hrtd (what.d - 1)
      (le_refl _)]
  simp only [ok_bind]
  rw [lhsSh_eval what whereT lt hm hwm hb hwbm hrows hw0 hlt0 (what.d - 1)
    (le_refl _)]
  simp only [ok_bind]
  rw [coresLoop_eval (projCoreFull lt rt what whereT)
    (projResCoreSh lt rt whereT) what.d
    (fun k hk => projCoreFull_eval lt rt what whereT hm hwm hb hwbm hdd hrows
      hw0 hwd hlt0 hrtd hd k hk)]
  simp only [ok_bind]
  rw [hb]

/-- Interior projection core of `project_sum` (weights omitted) at shape
level: the `common_term`/`u_proj` route yields the same shape as
`project`'s interior core. -/
theorem projCoreShPS_int_eval (what whereT : TT) (lt rt : ℕ → ℕ)
    (hm : whereT.isMat = false) (hwm : what.isMat = false)
    (hb : what.isBatch = false) (hwbm : whereT.isBatch = false)
    (hrows : ∀ k, what.rows k = whereT.rows k)
    (k : ℕ) (hk : k < what.d - 1) :
    projCoreShPS false none (expandBatchDim what) (orthoWith whereT lt)
      [1, lt k, what.rk k] [1, what.rk (k + 1), rt (k + 1)] k =
      .ok [lt k, whereT.rows k, rt (k + 1)] := by
  have heb : expandBatchDim what = { what with isBatch := true, bS := 1 } :=
    expandBatchDim_of_single what hb
  have hebd : (expandBatchDim what).d = what.d := by rw [heb]
  rw [projCoreShPS, if_pos (by rw [hebd]; omega)]
  have hco : coreSh (expandBatchDim what) k =
      [1, what.rk k, whereT.rows k, what.rk (k + 1)] := by
    rw [coreSh_batch_tensor _ (by rw [heb]) (by rw [heb]; exact hwm),
      show (expandBatchDim what).bS = 1 from by rw [heb],
      show (expandBatchDim what).rk = what.rk from by rw [heb],
      show (expandBatchDim what).rows = what.rows from by rw [heb],
      hrows k]
  have hcl : coreSh (orthoWith whereT lt) k =
      [lt k, whereT.rows k, lt (k + 1)] := by
    rw [coreSh_plain_tensor _ (by rw [orthoWith_isBatch]; exact hwbm)
      (by rw [orthoWith_isMat]; exact hm), orthoWith_rk, orthoWith_rows]
  rw [hco, hcl]
  simp [einsumE, einsumSh, bindOps, bindOp, bindLbl, lookupN, outSh, modeL,
    amodeL, subE, bind, Except.bind, outBatchW]

/-- Last projection core of `project_sum` (weights omitted) at shape
level. -/
theorem projCoreShPS_last_eval (what whereT : TT) (lt : ℕ → ℕ)
    (hm : whereT.isMat = false) (hwm : what.isMat = false)
    (hb : what.isBatch = false)
    (hrows : ∀ k, what.rows k = whereT.rows k)
    (hd : 1 ≤ what.d) (rk1 : List ℕ) (k : ℕ) (hk : ¬k < what.d - 1) :
    projCoreShPS false none (expandBatchDim what) (orthoWith whereT lt)
      [1, lt k, what.rk k] rk1 k =
      .ok [lt k, whereT.rows k, what.rk (k + 1)] := by
  have heb : expandBatchDim what = { what with isBatch := true, bS := 1 } :=
    expandBatchDim_of_single what hb
  have hebd : (expandBatchDim what).d = what.d := by rw [heb]
  rw [projCoreShPS, if_neg (by rw [hebd]; omega)]
  have hco : coreSh (expandBatchDim what) k =
      [1, what.rk k, whereT.rows k, what.rk (k + 1)] := by
    rw [coreSh_batch_tensor _ (by rw [heb]) (by rw [heb]; exact hwm),
      show (expandBatchDim what).bS = 1 from by rw [heb],
      show (expandBatchDim what).rk = what.rk from by rw [heb],
      show (expandBatchDim what).rows = what.rows from by rw [heb],
      hrows k]
  rw [hco]
  simp [einsumE, einsumSh, bindOps, bindOp, bindLbl, lookupN, outSh, modeL]

/-- Per-core evaluation of `project_sum` (weights omitted) on a single
TT-tensor pair: the output cores coincide shape-wise with `project`'s. -/
theorem projCoreFullS_eval (lt rt : ℕ → ℕ) (what whereT : TT)
    (hm : whereT.isMat = false) (hwm : what.isMat = false)
    (hb : what.isBatch = false) (hwbm : whereT.isBatch = false)
    (hdd : what.d = whereT.d)
    (hrows : ∀ k, what.rows k = whereT.rows k)
    (hw0 : what.rk 0 = 1) (hwd : what.rk what.d = 1)
    (hlt0 : lt 0 = 1) (hrtd : rt what.d = 1)
    (hd : 1 ≤ what.d) (k : ℕ) (hk : k < what.d) :
    projCoreFullS lt rt what whereT none k =
      .ok (projResCoreSh lt rt whereT k) := by
  have heb : expandBatchDim what = { what with isBatch := true, bS := 1 } :=
    expandBatchDim_of_single what hb
  have hebd : (expandBatchDim what).d = what.d := by rw [heb]
  rw [projCoreFullS, hm, hebd]
  rcases Nat.lt_or_ge what.d 2 with hd2 | hd2
  · -- single mode: k = 0, last-index branch then first-core concatenation
    have hd1 : what.d = 1 := by omega
    have hk0 : k = 0 := by omega
    subst hk0
    rw [lhsSh_eval what whereT lt hm hwm hb hwbm hrows hw0 hlt0 0 (by omega),
      hd1, show (1 : ℕ) - (0 + 1) = 0 from by omega,
      show rhsSh false (expandBatchDim what) (orthoWith whereT rt) 0 =
        .ok [1, what.rk 1, rt 1] from by
          have hq := rhsSh_eval what whereT rt hm hwm hb hwbm hrows hwd hrtd 0
            (by omega)
          rw [Nat.sub_zero, hd1] at hq
          exact hq]
    simp only [ok_bind]
    have hproj := projCoreShPS_last_eval what whereT lt hm hwm hb hrows hd
      [1, what.rk 1, rt 1] 0 (by rw [hd1]; omega)
    rw [hproj]
    simp only [ok_bind]
    rw [show outBatchW none = false from rfl,
      assembleSh_first_eval whereT lt rt (outBatchSizeW none) (what.rk (0 + 1))
        hm hwbm,
      show what.rk (0 + 1) = 1 from by
        rw [show (0 : ℕ) + 1 = what.d from by omega]; exact hwd,
      projResCoreSh, if_pos (by omega)]
  · rcases Nat.eq_zero_or_pos k with hk0 | hk1
    · -- first core
      subst hk0
      rw [lhsSh_eval what whereT lt hm hwm hb hwbm hrows hw0 hlt0 0 (by omega),
        show rhsSh false (expandBatchDim what) (orthoWith whereT rt)
          (what.d - (0 + 1)) = .ok [1, what.rk 1, rt 1] from by
            have hq := rhsSh_eval what whereT rt hm hwm hb hwbm hrows hwd hrtd
              (what.d - 1) (by omega)
            rw [show what.d - (what.d - 1) = 1 from by omega] at hq
            exact hq]
      simp only [ok_bind]
      rw [projCoreShPS_int_eval what whereT lt rt hm hwm hb hwbm hrows 0
        (by omega)]
      simp only [ok_bind]
      rw [show outBatchW none = false from rfl,
        assembleSh_first_eval whereT lt rt (outBatchSizeW none) (rt 1) hm hwbm,
        projResCoreSh, if_neg (by omega), if_pos rfl]
    · rcases Nat.lt_or_ge k (what.d - 1) with hkm | hkl
      · -- interior core
        rw [lhsSh_eval what whereT lt hm hwm hb hwbm hrows hw0 hlt0 k
          (by omega),
          show rhsSh false (expandBatchDim what) (orthoWith whereT rt)
            (what.d - (k + 1)) = .ok [1, what.rk (k + 1), rt (k + 1)] from by
              have hq := rhsSh_eval what whereT rt hm hwm hb hwbm hrows hwd
                hrtd (what.d - (k + 1)) (by omega)
              rw [show what.d - (what.d - (k + 1)) = k + 1 from by omega] at hq
              exact hq]
        simp only [ok_bind]
        rw [projCoreShPS_int_eval what whereT lt rt hm hwm hb hwbm hrows k hkm]
        simp only [ok_bind]
        rw [show outBatchW none = false from rfl,
          assembleSh_mid_eval whereT lt rt (outBatchSizeW none) k hm hwbm hk1
            (by omega),
          projResCoreSh, if_neg (by omega), if_neg (by omega),
          if_neg (by omega)]
      · -- last core
        have hkl' : k = what.d - 1 := by omega
        subst hkl'
        rw [lhsSh_eval what whereT lt hm hwm hb hwbm hrows hw0 hlt0
          (what.d - 1) (by omega),
          show rhsSh false (expandBatchDim what) (orthoWith whereT rt)
            (what.d - (what.d - 1 + 1)) =
            .ok [1, what.rk what.d, rt what.d] from by
              have hq := rhsSh_eval what whereT rt hm hwm hb hwbm hrows hwd
                hrtd 0 (by omega)
              rw [Nat.sub_zero] at hq
              rw [show what.d - (what.d - 1 + 1) = 0 from by omega]
              exact hq]
        simp only [ok_bind]
        rw [projCoreShPS_last_eval what whereT lt hm hwm hb hrows hd
          [1, what.rk what.d, rt what.d] (what.d - 1) (by omega)]
        simp only [ok_bind]
        rw [show what.rk (what.d - 1 + 1) = 1 from by
          rw [show what.d - 1 + 1 = what.d from by omega]; exact hwd]
        have hrt1 : rt (whereT.d - 1 + 1) = 1 := by
          rw [show whereT.d - 1 + 1 = what.d from by omega]
          exact hrtd
        have has := assembleSh_last_eval whereT lt rt (outBatchSizeW none)
          (lt (what.d - 1)) hm hwbm (by omega) hrt1
        rw [← hdd] at has
        rw [show outBatchW none = false from rfl, has, projResCoreSh,
          if_neg (by omega), if_neg (by omega), if_pos (by rw [← hdd])]
        rw [hdd]

/-- Success of `project_sum` with `weights` omitted on a single TT-tensor
pair, with the output cores given explicitly (identical to `project`'s). -/
theorem projectSumSh_eval (lt rt : ℕ → ℕ) (what whereT : TT)
    (hm : whereT.isMat = false) (hwm : what.isMat = false)
    (hb : what.isBatch = false) (hwbm : whereT.isBatch = false)
    (hdd : what.d = whereT.d)
    (hrows : ∀ k, what.rows k = whereT.rows k)
    (hdt : whereT.dt = what.dt)
    (hw0 : what.rk 0 = 1) (hwd : what.rk what.d = 1)
    (hlt0 : lt 0 = 1) (hrtd : rt what.d = 1) (hd : 1 ≤ what.d) :
    projectSumSh lt rt what whereT none =
      .ok ⟨false, 0, rawShape whereT,
        (List.range what.d).map (projResCoreSh lt rt whereT)⟩ := by
  have heb : expandBatchDim what = { what with isBatch := true, bS := 1 } :=
    expandBatchDim_of_single what hb
  have hebd : (expandBatchDim what).d = what.d := by rw [heb]
  have hraw : rawShape (expandBatchDim what) = rawShape what := by
    rw [heb, rawShape, rawShape]
  have hv2 : validateSh (expandBatchDim what) whereT =
      validateSh what whereT := by
    rw [validateSh, validateSh, hraw,
      show (expandBatchDim what).dt = what.dt from by rw [heb]]
  have hv : validateSh (expandBatchDim what) whereT = .ok () := by
    rw [hv2]
    exact validateSh_ok_of what whereT hwbm
      (rawShape_eq_of what whereT hm hwm hdd hrows) hdt
  rw [projectSumSh, hv]
  simp only [ok_bind]
  rw [hm, hebd,
    rhsSh_eval what whereT rt hm hwm hb hwbm hrows hwd hrtd (what.d - 1)
      (le_refl _)]
  simp only [ok_bind]
  rw [lhsSh_eval what whereT lt hm hwm hb hwbm hrows hw0 hlt0 (what.d - 1)
    (le_refl _)]
  simp only [ok_bind]
  rw [coresLoop_eval (projCoreFullS lt rt what whereT none)
    (projResCoreSh lt rt whereT) what.d
    (fun k hk => projCoreFullS_eval lt rt what whereT hm hwm hb hwbm hdd hrows
      hw0 hwd hlt0 hrtd hd k hk)]
  simp only [ok_bind]
  rfl

theorem validateSh_expand (what whereT : TT) :
    validateSh (expandBatchDim what) whereT = validateSh what whereT := by
  rcases hb : what.isBatch with _ | _
  · rw [expandBatchDim_of_single what hb]
    rfl
  · rw [expandBatchDim, if_pos hb]

theorem bind_okE {α β : Type} (x : Except TFErr α) (f : α → Except TFErr β)
    (b : β) (h : (x >>= f) = .ok b) : ∃ a, x = .ok a ∧ f a = .ok b := by
  cases x with
  | error e => exact Except.noConfusion h
  | ok a => exact ⟨a, rfl, h⟩

theorem error_bind {α β : Type} (e : TFErr) (f : α → Except TFErr β) :
    ((Except.error e : Except TFErr α) >>= f) = .error e := rfl

/-- C1 counterexample: on the concrete pair the internal rank at cut 1 is
`4 = right_tangent_rank[1] + left_tangent_rank[1]`, while the claimed law
gives `right_tangent_rank[1] + left_tangent_rank[2] = 3`; and for a single
mode the trailing boundary rank is `3 ≠ 1`. -/
theorem claim1_counterexample :
    projectSh cLt cRt cWhat cWhere =
      .ok ⟨false, 0, [[2, 2]], [[1, 2, 4], [4, 2, 1]]⟩ ∧
    (([[1, 2, 4], [4, 2, 1]] : List (List ℕ)).getD 1 []).headD 0 ≠
      cRt 1 + cLt 2 ∧
    projectSh cLt cRt dWhat dWhere = .ok ⟨false, 0, [[2]], [[1, 2, 3]]⟩ ∧
    (([[1, 2, 3]] : List (List ℕ)).getD 0 []).getLastD 0 ≠ 1 :=
  ⟨rfl, by decide, rfl, by decide⟩

/-- C2: every successfully returned object of each of the three operations
carries exactly `where`'s raw shape (the source passes
`where.get_raw_shape()` to the constructor on every success path). -/
theorem claim2_shape_preservation (lt rt : ℕ → ℕ) (what whereT mtx : TT)
    (ws : Option (List ℕ)) :
    (∀ res, projectSh lt rt what whereT = .ok res →
      res.raw = rawShape whereT) ∧
    (∀ res, projectSumSh lt rt what whereT ws = .ok res →
      res.raw = rawShape whereT) ∧
    (∀ res, projectMatmulSh lt rt what whereT mtx = .ok res →
      res.raw = rawShape whereT) := by
  refine ⟨?_, ?_, ?_⟩
  · intro res h
    rw [projectSh] at h
    obtain ⟨u1, hu1, h⟩ := bind_okE _ _ _ h
    obtain ⟨u2, hu2, h⟩ := bind_okE _ _ _ h
    obtain ⟨u3, hu3, h⟩ := bind_okE _ _ _ h
    obtain ⟨cs, hcs, h⟩ := bind_okE _ _ _ h
    cases h
    rfl
  · intro res h
    rw [projectSumSh] at h
    obtain ⟨u1, hu1, h⟩ := bind_okE _ _ _ h
    obtain ⟨u2, hu2, h⟩ := bind_okE _ _ _ h
    obtain ⟨u3, hu3, h⟩ := bind_okE _ _ _ h
    obtain ⟨cs, hcs, h⟩ := bind_okE _ _ _ h
    cases h
    rfl
  · intro res h
    rw [projectMatmulSh] at h
    obtain ⟨u1, hu1, h⟩ := bind_okE _ _ _ h
    obtain ⟨u2, hu2, h⟩ := bind_okE _ _ _ h
    obtain ⟨u3, hu3, h⟩ := bind_okE _ _ _ h
    obtain ⟨cs, hcs, h⟩ := bind_okE _ _ _ h
    cases h
    rfl

theorem claim2_shape_preservation_witness :
    (⟨false, 0, [[2, 2]], [[1, 2, 4], [4, 2, 1]]⟩ : ResSh).raw =
      rawShape cWhere :=
  (claim2_shape_preservation cLt cRt cWhat cWhere mMtx none).1 _ rfl

/-- C6: the three validations fail with the typed errors exactly when one
of the three conditions holds (in source order), the shape mismatch
carries both raw shapes, and each of the three operations propagates the
validation error unchanged — for every choice of tangent ranks, matrix and
weights, so no contraction contributes to the failure. -/
theorem claim6_validation (lt rt : ℕ → ℕ) (what whereT mtx : TT)
    (ws : Option (List ℕ)) :
    (whereT.isBatch = true → validateSh what whereT = .error .notTT) ∧
    (whereT.isBatch = false → rawShape whereT ≠ rawShape what →
      validateSh what whereT =
        .error (.shapeMismatch (rawShape whereT) (rawShape what))) ∧
    (whereT.isBatch = false → rawShape whereT = rawShape what →
      whereT.dt ≠ what.dt →
      validateSh what whereT = .error (.dtypeMismatch whereT.dt what.dt)) ∧
    (whereT.isBatch = false → rawShape whereT = rawShape what →
      whereT.dt = what.dt → validateSh what whereT = .ok ()) ∧
    (∀ e, validateSh what whereT = .error e →
      projectSh lt rt what whereT = .error e ∧
      projectSumSh lt rt what whereT ws = .error e ∧
      projectMatmulSh lt rt what whereT mtx = .error e) := by
  refine ⟨?_, ?_, ?_, ?_, ?_⟩
  · intro hbt
    rw [validateSh, if_pos hbt]
  · intro hbf hne
    rw [validateSh, if_neg (by rw [hbf]; exact Bool.false_ne_true),
      if_pos hne]
  · intro hbf hre hdne
    rw [validateSh, if_neg (by rw [hbf]; exact Bool.false_ne_true),
      if_neg (by rw [hre]; exact fun h => h rfl), if_pos hdne]
  · intro hbf hre hde
    exact validateSh_ok_of what whereT hbf hre hde
  · intro e he
    refine ⟨?_, ?_, ?_⟩
    · rw [projectSh, he]
      rfl
    · rw [projectSumSh, validateSh_expand, he]
      rfl
    · rw [projectMatmulSh, he]
      rfl

theorem claim6_validation_witness :
    projectSh cLt cRt cWhat cWhereB = .error .notTT ∧
    projectSumSh cLt cRt cWhat cWhereB none = .error .notTT ∧
    projectMatmulSh cLt cRt cWhat cWhereB mMtx = .error .notTT :=
  (claim6_validation cLt cRt cWhat cWhereB mMtx none).2.2.2.2 .notTT
    ((claim6_validation cLt cRt cWhat cWhereB mMtx none).1 rfl)

/-- C10 (amended): a successfully returned `project_sum` object is a batch
exactly when `output_is_batch` — the weights are 2-D with second dimension
above 1 — and its batch size is then `weights_shape[1]`; with weights
omitted the result is a single TT.  (2-D weights with second dimension 1
never reach a return: the weights einsum fails, see the counterexample.) -/
theorem claim10_output_kind (lt rt : ℕ → ℕ) (what whereT : TT)
    (ws : Option (List ℕ)) :
    (∀ res, projectSumSh lt rt what whereT ws = .ok res →
      res.isBatch = outBatchW ws ∧ res.bS = outBatchSizeW ws) ∧
    (∀ l, outBatchW (some l) = true ↔ 1 < l.length ∧ 1 < l.getD 1 0) ∧
    outBatchW none = false := by
  refine ⟨?_, ?_, rfl⟩
  · intro res h
    rw [projectSumSh] at h
    obtain ⟨u1, hu1, h⟩ := bind_okE _ _ _ h
    obtain ⟨u2, hu2, h⟩ := bind_okE _ _ _ h
    obtain ⟨u3, hu3, h⟩ := bind_okE _ _ _ h
    obtain ⟨cs, hcs, h⟩ := bind_okE _ _ _ h
    cases h
    exact ⟨rfl, rfl⟩
  · intro l
    rw [outBatchW]
    simp

theorem claim10_output_kind_witness :
    (⟨true, 3, [[2, 2]], [[3, 1, 2, 4], [3, 4, 2, 1]]⟩ : ResSh).isBatch =
      outBatchW (some [2, 3]) ∧
    (⟨true, 3, [[2, 2]], [[3, 1, 2, 4], [3, 4, 2, 1]]⟩ : ResSh).bS =
      outBatchSizeW (some [2, 3]) :=
  (claim10_output_kind cLt cRt cWhatB cWhere (some [2, 3])).1 _ rfl

/-- C10 counterexample: 2-D weights of shape `1 × 1` fall in the claim's
"every other case", yet `project_sum` raises (the einsum against the
weights rejects the 2-D tensor where the subscripts demand a 1-D one)
instead of returning a single TT-Tensor. -/
theorem claim10_counterexample :
    projectSumSh cLt cRt dWhat dWhere (some [1, 1]) =
      .error (.einsumErr [([9, 0, 1], [1, 1, 1]),
        ([9, 1, 6, 2], [1, 1, 2, 1]), ([9], [1, 1])] [0, 6, 2]) := rfl

/-- C9 counterexample: 2-D weights of shape `2 × 1` (`O = 1 ≥ 1`) do not
produce an output batch of size 1 — the weights einsum
`'saib,s->aib'` receives the 2-D weights tensor and fails. -/
theorem claim9_counterexample :
    projectSumSh cLt cRt cWhatB cWhere (some [2, 1]) =
      .error (.einsumErr [([9, 0, 6, 1], [2, 1, 2, 2]), ([9], [2, 1])]
        [0, 6, 1]) := rfl

/-- C5: `project_matmul` on a single (non-batch) `what` with an
identity-shaped matrix does not return at all: its projection cores keep
the batch subscript `s` (rank 5), and the concat against the rank-4
tangent core fails — contradicting the source's own comment that the
result core shape should be `(?, ?, ?, 1)`. -/
theorem claim5_matmul_batch_axis :
    projectMatmulSh cLt cRt mWhat mWhere mMtx =
      .error (.concatErr 3 [1, 1, 2, 2, 2] [1, 2, 2, 2]) := rfl

/-- C7 (amended): `project_matmul` performs no up-front matrix check: the
argument validation ignores the matrix entirely (it passes for a matrix of
mismatching column modes), a matching matrix runs to completion on a batch
input, and a mismatching one surfaces as an einsum failure inside the
backward sweep — a contraction-stage error, not an eager shape check. -/
theorem claim7_matmul_check :
    validateSh mWhatB mWhere = .ok () ∧
    projectMatmulSh cLt cRt mWhatB mWhere mMtx =
      .ok ⟨true, 2, [[2, 2], [2, 2]],
        [[2, 1, 2, 2, 4], [2, 4, 2, 2, 1]]⟩ ∧
    projectMatmulSh cLt cRt mWhatB mWhere mMtxBad =
      .error (.einsumErr [([1, 6, 7, 4], [1, 2, 3, 1]),
        ([2, 6, 8, 5], [2, 2, 2, 1]), ([9, 3, 4, 5], [2, 1, 1, 1]),
        ([9, 0, 7, 8, 3], [2, 1, 2, 2, 1])] [9, 0, 1, 2]) :=
  ⟨rfl, rfl, rfl⟩

/-- C7 counterexample: a matrix whose column modes (4) mismatch `what`'s
rows passes the three validations untouched, and the failure that finally
surfaces is an einsum error from the first backward-sweep contraction —
not the claimed pre-contraction shape-mismatch condition. -/
theorem claim7_counterexample :
    validateSh mWhatB mWhere = .ok () ∧
    projectMatmulSh cLt cRt mWhatB mWhere mMtxBad4 =
      .error (.einsumErr [([1, 6, 7, 4], [1, 2, 4, 1]),
        ([2, 6, 8, 5], [2, 2, 2, 1]), ([9, 3, 4, 5], [2, 1, 1, 1]),
        ([9, 0, 7, 8, 3], [2, 1, 2, 2, 1])] [9, 0, 1, 2]) :=
  ⟨rfl, rfl⟩

theorem expandBatchDim_isBatch (t : TT) : (expandBatchDim t).isBatch = true := by
  rcases hb : t.isBatch with _ | _
  · rw [expandBatchDim_of_single t hb]
  · rw [expandBatchDim, if_pos hb]
    exact hb

theorem expandBatchDim_isMat (t : TT) : (expandBatchDim t).isMat = t.isMat := by
  rcases hb : t.isBatch with _ | _
  · rw [expandBatchDim_of_single t hb]
  · rw [expandBatchDim, if_pos hb]

theorem expandBatchDim_d (t : TT) : (expandBatchDim t).d = t.d := by
  rcases hb : t.isBatch with _ | _
  · rw [expandBatchDim_of_single t hb]
  · rw [expandBatchDim, if_pos hb]

theorem expandBatchDim_rows (t : TT) : (expandBatchDim t).rows = t.rows := by
  rcases hb : t.isBatch with _ | _
  · rw [expandBatchDim_of_single t hb]
  · rw [expandBatchDim, if_pos hb]

theorem expandBatchDim_cols (t : TT) : (expandBatchDim t).cols = t.cols := by
  rcases hb : t.isBatch with _ | _
  · rw [expandBatchDim_of_single t hb]
  · rw [expandBatchDim, if_pos hb]

theorem expandBatchDim_rk (t : TT) : (expandBatchDim t).rk = t.rk := by
  rcases hb : t.isBatch with _ | _
  · rw [expandBatchDim_of_single t hb]
  · rw [expandBatchDim, if_pos hb]

theorem expandBatchDim_bS_of_batch (t : TT) (hb : t.isBatch = true) :
    (expandBatchDim t).bS = t.bS := by
  rw [expandBatchDim, if_pos hb]

theorem coreSh_batch_matrix (t : TT) (hb : t.isBatch = true)
    (hm : t.isMat = true) (k : ℕ) :
    coreSh t k = [t.bS, t.rk k, t.rows k, t.cols k, t.rk (k + 1)] := by
  simp [coreSh, hb, hm]

theorem coreSh_plain_matrix (t : TT) (hb : t.isBatch = false)
    (hm : t.isMat = true) (k : ℕ) :
    coreSh t k = [t.rk k, t.rows k, t.cols k, t.rk (k + 1)] := by
  simp [coreSh, hb, hm]

/-- Raw shapes coincide for a pair matching in matrix flag, mode count and
mode sizes (rows, and columns for matrices). -/
theorem rawShape_eq_ofG (what whereT : TT) (hmm : what.isMat = whereT.isMat)
    (hdd : what.d = whereT.d)
    (hrows : ∀ k, what.rows k = whereT.rows k)
    (hcols : ∀ k, what.cols k = whereT.cols k) :
    rawShape whereT = rawShape what := by
  rw [rawShape, rawShape, hmm, hdd]
  rcases whereT.isMat with _ | _
  · simp only [Bool.false_eq_true, if_false]
    exact congrArg (fun l => [l])
      (List.map_congr_left fun a _ => (hrows a).symm)
  · simp only [if_true]
    rw [List.map_congr_left fun a _ => (hrows a).symm,
      List.map_congr_left fun a _ => (hcols a).symm]

/-- Backward sweep of `project`/`project_sum`, general form: for any batch
size, TT-tensors or TT-matrices alike, `rhs[d - j]` has shape
`(batch_size, what_rank, right_tangent_rank)` at cut `d - j`. -/
theorem rhsSh_evalG (wb rtt : TT) (mat : Bool)
    (hwb : wb.isBatch = true) (hwm : wb.isMat = mat)
    (hrb : rtt.isBatch = false) (hrm : rtt.isMat = mat)
    (hrows : ∀ k, wb.rows k = rtt.rows k)
    (hcols : ∀ k, wb.cols k = rtt.cols k)
    (hwd : wb.rk wb.d = 1) (hrtd : rtt.rk wb.d = 1) :
    ∀ j, j ≤ wb.d - 1 →
      rhsSh mat wb rtt j =
        .ok [wb.bS, wb.rk (wb.d - j), rtt.rk (wb.d - j)] := by
  intro j
  induction j with
  | zero =>
      intro _
      rw [rhsSh, Nat.sub_zero, hwd, hrtd]
  | succ j ih =>
      intro hj
      rw [rhsSh, ih (by omega)]
      show rhsStepSh mat wb rtt (wb.d - (j + 1))
        [wb.bS, wb.rk (wb.d - j), rtt.rk (wb.d - j)] = _
      rw [rhsStepSh]
      cases mat with
      | false =>
          rw [coreSh_batch_tensor wb hwb hwm (wb.d - (j + 1)),
            coreSh_plain_tensor rtt hrb hrm (wb.d - (j + 1)),
            hrows (wb.d - (j + 1)),
            show wb.d - (j + 1) + 1 = wb.d - j from by omega]
          simp [einsumE, einsumSh, bindOps, bindOp, bindLbl, lookupN, outSh,
            modeL]
      | true =>
          rw [coreSh_batch_matrix wb hwb hwm (wb.d - (j + 1)),
            coreSh_plain_matrix rtt hrb hrm (wb.d - (j + 1)),
            hrows (wb.d - (j + 1)), hcols (wb.d - (j + 1)),
            show wb.d - (j + 1) + 1 = wb.d - j from by omega]
          simp [einsumE, einsumSh, bindOps, bindOp, bindLbl, lookupN, outSh,
            modeL]

/-- Forward sweep of `project`/`project_sum`, general form: `lhs[k]` has
shape `(batch_size, left_tangent_rank, what_rank)` at cut `k`. -/
theorem lhsSh_evalG (wb ltt : TT) (mat : Bool)
    (hwb : wb.isBatch = true) (hwm : wb.isMat = mat)
    (hlb : ltt.isBatch = false) (hlm : ltt.isMat = mat)
    (hrows : ∀ k, wb.rows k = ltt.rows k)
    (hcols : ∀ k, wb.cols k = ltt.cols k)
    (hw0 : wb.rk 0 = 1) (hlt0 : ltt.rk 0 = 1) :
    ∀ k, k ≤ wb.d - 1 →
      lhsSh mat wb ltt k = .ok [wb.bS, ltt.rk k, wb.rk k] := by
  intro k
  induction k with
  | zero =>
      intro _
      rw [lhsSh, hlt0, hw0]
  | succ k ih =>
      intro hk
      rw [lhsSh, ih (by omega)]
      show lhsStepSh mat wb ltt k [wb.bS, ltt.rk k, wb.rk k] = _
      rw [lhsStepSh]
      cases mat with
      | false =>
          rw [coreSh_batch_tensor wb hwb hwm k,
            coreSh_plain_tensor ltt hlb hlm k, hrows k]
          simp [einsumE, einsumSh, bindOps, bindOp, bindLbl, lookupN, outSh,
            modeL]
      | true =>
          rw [coreSh_batch_matrix wb hwb hwm k,
            coreSh_plain_matrix ltt hlb hlm k, hrows k, hcols k]
          simp [einsumE, einsumSh, bindOps, bindOp, bindLbl, lookupN, outSh,
            modeL]

/-- Interior projection core of `project`, general form (tensor or matrix,
batch or single output). -/
theorem projCoreShP_int_evalG (wb ltt : TT) (mat outB : Bool)
    (hwb : wb.isBatch = true) (hwm : wb.isMat = mat)
    (hlb : ltt.isBatch = false) (hlm : ltt.isMat = mat)
    (hrows : ∀ k, wb.rows k = ltt.rows k)
    (hcols : ∀ k, wb.cols k = ltt.cols k)
    (k : ℕ) (hk : k < wb.d - 1) (rtk1 : ℕ) :
    projCoreShP mat outB wb ltt [wb.bS, ltt.rk k, wb.rk k]
      [wb.bS, ltt.rk (k + 1), wb.rk (k + 1)] [wb.bS, wb.rk (k + 1), rtk1]
      k =
      .ok (bdim outB wb.bS ++ [ltt.rk k, ltt.rows k] ++
        mdim mat (ltt.cols k) ++ [rtk1]) := by
  rw [projCoreShP, if_pos hk]
  cases mat with
  | false =>
      rw [coreSh_batch_tensor wb hwb hwm k, coreSh_plain_tensor ltt hlb hlm k,
        hrows k]
      cases outB with
      | false =>
          simp [einsumE, einsumSh, bindOps, bindOp, bindLbl, lookupN, outSh,
            modeL, subE, bind, Except.bind, bdim, mdim]
      | true =>
          simp [einsumE, einsumSh, bindOps, bindOp, bindLbl, lookupN, outSh,
            modeL, subE, bind, Except.bind, bdim, mdim]
  | true =>
      rw [coreSh_batch_matrix wb hwb hwm k, coreSh_plain_matrix ltt hlb hlm k,
        hrows k, hcols k]
      cases outB with
      | false =>
          simp [einsumE, einsumSh, bindOps, bindOp, bindLbl, lookupN, outSh,
            modeL, subE, bind, Except.bind, bdim, mdim]
      | true =>
          simp [einsumE, einsumSh, bindOps, bindOp, bindLbl, lookupN, outSh,
            modeL, subE, bind, Except.bind, bdim, mdim]

/-- Last-index projection core of `project`, general form. -/
theorem projCoreShP_last_evalG (wb ltt : TT) (mat outB : Bool)
    (hwb : wb.isBatch = true) (hwm : wb.isMat = mat)
    (hlb : ltt.isBatch = false) (hlm : ltt.isMat = mat)
    (hrows : ∀ k, wb.rows k = ltt.rows k)
    (hcols : ∀ k, wb.cols k = ltt.cols k)
    (k : ℕ) (hk : ¬k < wb.d - 1) (lk1 rk1 : List ℕ) :
    projCoreShP mat outB wb ltt [wb.bS, ltt.rk k, wb.rk k] lk1 rk1 k =
      .ok (bdim outB wb.bS ++ [ltt.rk k, ltt.rows k] ++
        mdim mat (ltt.cols k) ++ [wb.rk (k + 1)]) := by
  rw [projCoreShP, if_neg hk]
  cases mat with
  | false =>
      rw [coreSh_batch_tensor wb hwb hwm k, hrows k]
      cases outB with
      | false =>
          simp [einsumE, einsumSh, bindOps, bindOp, bindLbl, lookupN, outSh,
            modeL, bdim, mdim]
      | true =>
          simp [einsumE, einsumSh, bindOps, bindOp, bindLbl, lookupN, outSh,
            modeL, bdim, mdim]
  | true =>
      rw [coreSh_batch_matrix wb hwb hwm k, hrows k, hcols k]
      cases outB with
      | false =>
          simp [einsumE, einsumSh, bindOps, bindOp, bindLbl, lookupN, outSh,
            modeL, bdim, mdim]
      | true =>
          simp [einsumE, einsumSh, bindOps, bindOp, bindLbl, lookupN, outSh,
            modeL, bdim, mdim]

theorem cat3_2 (a b x y : ℕ) :
    concatE 2 [a, b, x] [a, b, y] = .ok [a, b, x + y] := by
  rw [concatE, if_pos ⟨by simp, rfl, rfl⟩]
  rfl

theorem cat4_3 (a b c x y : ℕ) :
    concatE 3 [a, b, c, x] [a, b, c, y] = .ok [a, b, c, x + y] := by
  rw [concatE, if_pos ⟨by simp, rfl, rfl⟩]
  rfl

theorem cat5_4 (a b c d x y : ℕ) :
    concatE 4 [a, b, c, d, x] [a, b, c, d, y] = .ok [a, b, c, d, x + y] := by
  rw [concatE, if_pos ⟨by simp, rfl, rfl⟩]
  rfl

theorem cat3_0 (x y b c : ℕ) :
    concatE 0 [x, b, c] [y, b, c] = .ok [x + y, b, c] := by
  rw [concatE, if_pos ⟨by simp, rfl, rfl⟩]
  rfl

theorem cat4_0 (x y b c d : ℕ) :
    concatE 0 [x, b, c, d] [y, b, c, d] = .ok [x + y, b, c, d] := by
  rw [concatE, if_pos ⟨by simp, rfl, rfl⟩]
  rfl

theorem cat4_1 (s x y b c : ℕ) :
    concatE 1 [s, x, b, c] [s, y, b, c] = .ok [s, x + y, b, c] := by
  rw [concatE, if_pos ⟨by simp, rfl, rfl⟩]
  rfl

theorem cat5_1 (s x y b c d : ℕ) :
    concatE 1 [s, x, b, c, d] [s, y, b, c, d] = .ok [s, x + y, b, c, d] := by
  rw [concatE, if_pos ⟨by simp, rfl, rfl⟩]
  rfl

/-- First-core assembly, general form:
`concat((proj_core, extended_left_core), axis=right_rank_dim)`. -/
theorem assembleSh_first_evalG (whereT : TT) (lt rt : ℕ → ℕ)
    (mat outB : Bool) (oBS c : ℕ)
    (hm : whereT.isMat = mat) (hwbm : whereT.isBatch = false) :
    assembleSh mat outB oBS whereT (orthoWith whereT lt)
      (orthoWith whereT rt)
      (bdim outB oBS ++ [lt 0, whereT.rows 0] ++ mdim mat (whereT.cols 0) ++
        [c]) 0 =
      .ok (bdim outB oBS ++ [lt 0, whereT.rows 0] ++
        mdim mat (whereT.cols 0) ++ [c + lt 1]) := by
  cases mat with
  | false =>
      have hcl : coreSh (orthoWith whereT lt) 0 =
          [lt 0, whereT.rows 0, lt 1] := by
        rw [coreSh_plain_tensor _ (by rw [orthoWith_isBatch]; exact hwbm)
          (by rw [orthoWith_isMat]; exact hm), orthoWith_rk, orthoWith_rows]
      cases outB with
      | false =>
          rw [assembleSh, if_pos rfl, hcl]
          show concatE 2 [lt 0, whereT.rows 0, c]
            [lt 0, whereT.rows 0, lt 1] = _
          rw [cat3_2]
          rfl
      | true =>
          rw [assembleSh, if_pos rfl, hcl]
          show concatE 3 [oBS, lt 0, whereT.rows 0, c]
            (oBS :: [lt 0, whereT.rows 0, lt 1]) = _
          rw [show (oBS :: [lt 0, whereT.rows 0, lt 1]) =
            [oBS, lt 0, whereT.rows 0, lt 1] from rfl, cat4_3]
          rfl
  | true =>
      have hcl : coreSh (orthoWith whereT lt) 0 =
          [lt 0, whereT.rows 0, whereT.cols 0, lt 1] := by
        rw [coreSh_plain_matrix _ (by rw [orthoWith_isBatch]; exact hwbm)
          (by rw [orthoWith_isMat]; exact hm), orthoWith_rk, orthoWith_rows]
        rfl
      cases outB with
      | false =>
          rw [assembleSh, if_pos rfl, hcl]
          show concatE 3 [lt 0, whereT.rows 0, whereT.cols 0, c]
            [lt 0, whereT.rows 0, whereT.cols 0, lt 1] = _
          rw [cat4_3]
          rfl
      | true =>
          rw [assembleSh, if_pos rfl, hcl]
          show concatE 4 [oBS, lt 0, whereT.rows 0, whereT.cols 0, c]
            (oBS :: [lt 0, whereT.rows 0, whereT.cols 0, lt 1]) = _
          rw [show (oBS :: [lt 0, whereT.rows 0, whereT.cols 0, lt 1]) =
            [oBS, lt 0, whereT.rows 0, whereT.cols 0, lt 1] from rfl, cat5_4]
          rfl

/-- Last-core assembly (`d ≥ 2`), general form:
`concat((extended_right_core, proj_core), axis=left_rank_dim)`. -/
theorem assembleSh_last_evalG (whereT : TT) (lt rt : ℕ → ℕ)
    (mat outB : Bool) (oBS x : ℕ)
    (hm : whereT.isMat = mat) (hwbm : whereT.isBatch = false)
    (hd2 : 2 ≤ whereT.d) (hrt : rt (whereT.d - 1 + 1) = 1) :
    assembleSh mat outB oBS whereT (orthoWith whereT lt)
      (orthoWith whereT rt)
      (bdim outB oBS ++ [x, whereT.rows (whereT.d - 1)] ++
        mdim mat (whereT.cols (whereT.d - 1)) ++ [1]) (whereT.d - 1) =
      .ok (bdim outB oBS ++
        [rt (whereT.d - 1) + x, whereT.rows (whereT.d - 1)] ++
        mdim mat (whereT.cols (whereT.d - 1)) ++ [1]) := by
  cases mat with
  | false =>
      have hcr : coreSh (orthoWith whereT rt) (whereT.d - 1) =
          [rt (whereT.d - 1), whereT.rows (whereT.d - 1), 1] := by
        rw [coreSh_plain_tensor _ (by rw [orthoWith_isBatch]; exact hwbm)
          (by rw [orthoWith_isMat]; exact hm), orthoWith_rk, orthoWith_rows,
          hrt]
      cases outB with
      | false =>
          rw [assembleSh, if_neg (by omega), if_pos rfl, hcr]
          show concatE 0 [rt (whereT.d - 1), whereT.rows (whereT.d - 1), 1]
            [x, whereT.rows (whereT.d - 1), 1] = _
          rw [cat3_0]
          rfl
      | true =>
          rw [assembleSh, if_neg (by omega), if_pos rfl, hcr]
          show concatE 1
            (oBS :: [rt (whereT.d - 1), whereT.rows (whereT.d - 1), 1])
            [oBS, x, whereT.rows (whereT.d - 1), 1] = _
          rw [show (oBS ::
            [rt (whereT.d - 1), whereT.rows (whereT.d - 1), 1]) =
            [oBS, rt (whereT.d - 1), whereT.rows (whereT.d - 1), 1] from rfl,
            cat4_1]
          rfl
  | true =>
      have hcr : coreSh (orthoWith whereT rt) (whereT.d - 1) =
          [rt (whereT.d - 1), whereT.rows (whereT.d - 1),
            whereT.cols (whereT.d - 1), 1] := by
        rw [coreSh_plain_matrix _ (by rw [orthoWith_isBatch]; exact hwbm)
          (by rw [orthoWith_isMat]; exact hm), orthoWith_rk, orthoWith_rows,
          hrt]
        rfl
      cases outB with
      | false =>
          rw [assembleSh, if_neg (by omega), if_pos rfl, hcr]
          show concatE 0 [rt (whereT.d - 1), whereT.rows (whereT.d - 1),
            whereT.cols (whereT.d - 1), 1]
            [x, whereT.rows (whereT.d - 1), whereT.cols (whereT.d - 1), 1] = _
          rw [cat4_0]
          rfl
      | true =>
          rw [assembleSh, if_neg (by omega), if_pos rfl, hcr]
          show concatE 1 (oBS :: [rt (whereT.d - 1),
            whereT.rows (whereT.d - 1), whereT.cols (whereT.d - 1), 1])
            [oBS, x, whereT.rows (whereT.d - 1),
              whereT.cols (whereT.d - 1), 1] = _
          rw [show (oBS :: [rt (whereT.d - 1), whereT.rows (whereT.d - 1),
            whereT.cols (whereT.d - 1), 1]) =
            [oBS, rt (whereT.d - 1), whereT.rows (whereT.d - 1),
              whereT.cols (whereT.d - 1), 1] from rfl, cat5_1]
          rfl

/-- Interior-core assembly, general form: the 2×2 block
`[[right_core, zeros], [proj_core, left_core]]` with the optional output
batch entry in front. -/
theorem assembleSh_mid_evalG (whereT : TT) (lt rt : ℕ → ℕ)
    (mat outB : Bool) (oBS k : ℕ)
    (hm : whereT.isMat = mat) (hwbm : whereT.isBatch = false)
    (hk1 : 1 ≤ k) (hk : k < whereT.d - 1) :
    assembleSh mat outB oBS whereT (orthoWith whereT lt)
      (orthoWith whereT rt)
      (bdim outB oBS ++ [lt k, whereT.rows k] ++ mdim mat (whereT.cols k) ++
        [rt (k + 1)]) k =
      .ok (bdim outB oBS ++ [rt k + lt k, whereT.rows k] ++
        mdim mat (whereT.cols k) ++ [rt (k + 1) + lt (k + 1)]) := by
  cases mat with
  | false =>
      have hcl : coreSh (orthoWith whereT lt) k =
          [lt k, whereT.rows k, lt (k + 1)] := by
        rw [coreSh_plain_tensor _ (by rw [orthoWith_isBatch]; exact hwbm)
          (by rw [orthoWith_isMat]; exact hm), orthoWith_rk, orthoWith_rows]
      have hcr : coreSh (orthoWith whereT rt) k =
          [rt k, whereT.rows k, rt (k + 1)] := by
        rw [coreSh_plain_tensor _ (by rw [orthoWith_isBatch]; exact hwbm)
          (by rw [orthoWith_isMat]; exact hm), orthoWith_rk, orthoWith_rows]
      cases outB with
      | false =>
          rw [assembleSh, if_neg (by omega), if_neg (by omega), hcl, hcr]
          show (do
            let upper ← concatE 2 [rt k, whereT.rows k, rt (k + 1)]
              [rt k, whereT.rows k, lt (k + 1)]
            let lower ← concatE 2 [lt k, whereT.rows k, rt (k + 1)]
              [lt k, whereT.rows k, lt (k + 1)]
            concatE 0 upper lower : Except TFErr (List ℕ)) = _
          rw [cat3_2]
          simp only [ok_bind]
          rw [cat3_2]
          simp only [ok_bind]
          rw [cat3_0]
          rfl
      | true =>
          rw [assembleSh, if_neg (by omega), if_neg (by omega), hcl, hcr]
          show (do
            let upper ← concatE 3 [oBS, rt k, whereT.rows k, rt (k + 1)]
              [oBS, rt k, whereT.rows k, lt (k + 1)]
            let lower ← concatE 3 [oBS, lt k, whereT.rows k, rt (k + 1)]
              [oBS, lt k, whereT.rows k, lt (k + 1)]
            concatE 1 upper lower : Except TFErr (List ℕ)) = _
          rw [cat4_3]
          simp only [ok_bind]
          rw [cat4_3]
          simp only [ok_bind]
          rw [cat4_1]
          rfl
  | true =>
      have hcl : coreSh (orthoWith whereT lt) k =
          [lt k, whereT.rows k, whereT.cols k, lt (k + 1)] := by
        rw [coreSh_plain_matrix _ (by rw [orthoWith_isBatch]; exact hwbm)
          (by rw [orthoWith_isMat]; exact hm), orthoWith_rk, orthoWith_rows]
        rfl
      have hcr : coreSh (orthoWith whereT rt) k =
          [rt k, whereT.rows k, whereT.cols k, rt (k + 1)] := by
        rw [coreSh_plain_matrix _ (by rw [orthoWith_isBatch]; exact hwbm)
          (by rw [orthoWith_isMat]; exact hm), orthoWith_rk, orthoWith_rows]
        rfl
      cases outB with
      | false =>
          rw [assembleSh, if_neg (by omega), if_neg (by omega), hcl, hcr]
          show (do
            let upper ← concatE 3
              [rt k, whereT.rows k, whereT.cols k, rt (k + 1)]
              [rt k, whereT.rows k, whereT.cols k, lt (k + 1)]
            let lower ← concatE 3
              [lt k, whereT.rows k, whereT.cols k, rt (k + 1)]
              [lt k, whereT.rows k, whereT.cols k, lt (k + 1)]
            concatE 0 upper lower : Except TFErr (List ℕ)) = _
          rw [cat4_3]
          simp only [ok_bind]
          rw [cat4_3]
          simp only [ok_bind]
          rw [cat4_0]
          rfl
      | true =>
          rw [assembleSh, if_neg (by omega), if_neg (by omega), hcl, hcr]
          show (do
            let upper ← concatE 4
              [oBS, rt k, whereT.rows k, whereT.cols k, rt (k + 1)]
              [oBS, rt k, whereT.rows k, whereT.cols k, lt (k + 1)]
            let lower ← concatE 4
              [oBS, lt k, whereT.rows k, whereT.cols k, rt (k + 1)]
              [oBS, lt k, whereT.rows k, whereT.cols k, lt (k + 1)]
            concatE 1 upper lower : Except TFErr (List ℕ)) = _
          rw [cat5_4]
          simp only [ok_bind]
          rw [cat5_4]
          simp only [ok_bind]
          rw [cat5_1]
          rfl

theorem orthoWith_cols (t : TT) (r : ℕ → ℕ) :
    (orthoWith t r).cols = t.cols := rfl

/-- Per-core evaluation of `project` on any valid pair (tensor or matrix,
single or batch perturbation). -/
theorem projCoreFull_evalG (lt rt : ℕ → ℕ) (what whereT : TT)
    (hmm : what.isMat = whereT.isMat) (hwbm : whereT.isBatch = false)
    (hdd : what.d = whereT.d)
    (hrows : ∀ k, what.rows k = whereT.rows k)
    (hcols : ∀ k, what.cols k = whereT.cols k)
    (hw0 : what.rk 0 = 1) (hwd : what.rk what.d = 1)
    (hlt0 : lt 0 = 1) (hrtd : rt what.d = 1)
    (hd : 1 ≤ what.d) (k : ℕ) (hk : k < what.d) :
    projCoreFull lt rt what whereT k =
      .ok (projResCoreShG lt rt whereT what.isBatch what.bS k) := by
  have hwbB := expandBatchDim_isBatch what
  have hwm : (expandBatchDim what).isMat = whereT.isMat := by
    rw [expandBatchDim_isMat]; exact hmm
  have hebd := expandBatchDim_d what
  have hlb : (orthoWith whereT lt).isBatch = false := by
    rw [orthoWith_isBatch]; exact hwbm
  have hrb : (orthoWith whereT rt).isBatch = false := by
    rw [orthoWith_isBatch]; exact hwbm
  have hlm : (orthoWith whereT lt).isMat = whereT.isMat :=
    orthoWith_isMat whereT lt
  have hrm : (orthoWith whereT rt).isMat = whereT.isMat :=
    orthoWith_isMat whereT rt
  have hrowsL : ∀ j, (expandBatchDim what).rows j =
      (orthoWith whereT lt).rows j := by
    intro j; rw [expandBatchDim_rows, orthoWith_rows]; exact hrows j
  have hcolsL : ∀ j, (expandBatchDim what).cols j =
      (orthoWith whereT lt).cols j := by
    intro j; rw [expandBatchDim_cols, orthoWith_cols]; exact hcols j
  have hrowsR : ∀ j, (expandBatchDim what).rows j =
      (orthoWith whereT rt).rows j := by
    intro j; rw [expandBatchDim_rows, orthoWith_rows]; exact hrows j
  have hcolsR : ∀ j, (expandBatchDim what).cols j =
      (orthoWith whereT rt).cols j := by
    intro j; rw [expandBatchDim_cols, orthoWith_cols]; exact hcols j
  have hw0' : (expandBatchDim what).rk 0 = 1 := by
    rw [expandBatchDim_rk]; exact hw0
  have hwd' : (expandBatchDim what).rk (expandBatchDim what).d = 1 := by
    rw [expandBatchDim_rk, hebd]; exact hwd
  have hlt0' : (orthoWith whereT lt).rk 0 = 1 := hlt0
  have hrtd' : (orthoWith whereT rt).rk (expandBatchDim what).d = 1 := by
    rw [hebd]; exact hrtd
  rw [projCoreFull, hebd]
  rw [lhsSh_evalG (expandBatchDim what) (orthoWith whereT lt) whereT.isMat
    hwbB hwm hlb hlm hrowsL hcolsL hw0' hlt0' k (by omega)]
  rcases Nat.lt_or_ge what.d 2 with hd2 | hd2
  · -- single mode: k = 0, last-index branch then first-core concatenation
    have hd1 : what.d = 1 := by omega
    have hk0 : k = 0 := by omega
    subst hk0
    rw [hd1]
    rw [show min (0 + 1) (1 - 1) = 0 from by omega,
      lhsSh_evalG (expandBatchDim what) (orthoWith whereT lt) whereT.isMat
        hwbB hwm hlb hlm hrowsL hcolsL hw0' hlt0' 0 (by omega),
      show (1 : ℕ) - (0 + 1) = 0 from by omega,
      show rhsSh whereT.isMat (expandBatchDim what) (orthoWith whereT rt) 0 =
        .ok [(expandBatchDim what).bS, (expandBatchDim what).rk 1,
          (orthoWith whereT rt).rk 1] from by
          have hq := rhsSh_evalG (expandBatchDim what) (orthoWith whereT rt)
            whereT.isMat hwbB hwm hrb hrm hrowsR hcolsR hwd' hrtd' 0
            (by omega)
          rw [Nat.sub_zero, hebd, hd1] at hq
          exact hq]
    simp only [ok_bind]
    rw [projCoreShP_last_evalG (expandBatchDim what) (orthoWith whereT lt)
      whereT.isMat what.isBatch hwbB hwm hlb hlm hrowsL hcolsL 0
      (by rw [hebd, hd1]; omega) _ _]
    simp only [ok_bind]
    rw [show (expandBatchDim what).rk (0 + 1) = 1 from by
      rw [expandBatchDim_rk, show (0 : ℕ) + 1 = what.d from by omega]
      exact hwd]
    simp only [orthoWith_rk, orthoWith_rows, orthoWith_cols]
    rcases hob : what.isBatch with _ | _
    · rw [show bdim false (expandBatchDim what).bS = bdim false what.bS
        from rfl,
        assembleSh_first_evalG whereT lt rt whereT.isMat false what.bS 1
          rfl hwbm,
        projResCoreShG, if_pos (by omega)]
      simp only [List.append_assoc]
    · rw [expandBatchDim_bS_of_batch what hob,
        assembleSh_first_evalG whereT lt rt whereT.isMat true what.bS 1
          rfl hwbm,
        projResCoreShG, if_pos (by omega)]
      simp only [List.append_assoc]
  · rcases Nat.eq_zero_or_pos k with hk0 | hk1
    · -- first core
      subst hk0
      rw [show min (0 + 1) (what.d - 1) = 1 from by omega,
        lhsSh_evalG (expandBatchDim what) (orthoWith whereT lt) whereT.isMat
          hwbB hwm hlb hlm hrowsL hcolsL hw0' hlt0' 1 (by omega),
        show rhsSh whereT.isMat (expandBatchDim what) (orthoWith whereT rt)
          (what.d - (0 + 1)) =
          .ok [(expandBatchDim what).bS, (expandBatchDim what).rk 1,
            (orthoWith whereT rt).rk 1] from by
            have hq := rhsSh_evalG (expandBatchDim what) (orthoWith whereT rt)
              whereT.isMat hwbB hwm hrb hrm hrowsR hcolsR hwd' hrtd'
              (what.d - 1) (by rw [hebd])
            rw [hebd, show what.d - (what.d - 1) = 1 from by omega] at hq
            exact hq]
      simp only [ok_bind]
      rw [projCoreShP_int_evalG (expandBatchDim what) (orthoWith whereT lt)
        whereT.isMat what.isBatch hwbB hwm hlb hlm hrowsL hcolsL 0
        (by rw [hebd]; omega) _]
      simp only [ok_bind]
      simp only [orthoWith_rk, orthoWith_rows, orthoWith_cols]
      rcases hob : what.isBatch with _ | _
      · rw [show bdim false (expandBatchDim what).bS = bdim false what.bS
          from rfl,
          assembleSh_first_evalG whereT lt rt whereT.isMat false what.bS
            (rt 1) rfl hwbm,
          projResCoreShG, if_neg (by omega), if_pos rfl]
        simp only [List.append_assoc]
      · rw [expandBatchDim_bS_of_batch what hob,
          assembleSh_first_evalG whereT lt rt whereT.isMat true what.bS
            (rt 1) rfl hwbm,
          projResCoreShG, if_neg (by omega), if_pos rfl]
        simp only [List.append_assoc]
    · rcases Nat.lt_or_ge k (what.d - 1) with hkm | hkl
      · -- interior core
        rw [show min (k + 1) (what.d - 1) = k + 1 from by omega,
          lhsSh_evalG (expandBatchDim what) (orthoWith whereT lt)
            whereT.isMat hwbB hwm hlb hlm hrowsL hcolsL hw0' hlt0' (k + 1)
            (by omega),
          show rhsSh whereT.isMat (expandBatchDim what) (orthoWith whereT rt)
            (what.d - (k + 1)) =
            .ok [(expandBatchDim what).bS, (expandBatchDim what).rk (k + 1),
              (orthoWith whereT rt).rk (k + 1)] from by
              have hq := rhsSh_evalG (expandBatchDim what)
                (orthoWith whereT rt) whereT.isMat hwbB hwm hrb hrm hrowsR
                hcolsR hwd' hrtd' (what.d - (k + 1)) (by rw [hebd]; omega)
              rw [hebd,
                show what.d - (what.d - (k + 1)) = k + 1 from by omega] at hq
              exact hq]
        simp only [ok_bind]
        rw [projCoreShP_int_evalG (expandBatchDim what) (orthoWith whereT lt)
          whereT.isMat what.isBatch hwbB hwm hlb hlm hrowsL hcolsL k
          (by rw [hebd]; omega) _]
        simp only [ok_bind]
        simp only [orthoWith_rk, orthoWith_rows, orthoWith_cols]
        rcases hob : what.isBatch with _ | _
        · rw [show bdim false (expandBatchDim what).bS = bdim false what.bS
            from rfl,
            assembleSh_mid_evalG whereT lt rt whereT.isMat false what.bS k
              rfl hwbm hk1 (by omega),
            projResCoreShG, if_neg (by omega), if_neg (by omega),
            if_neg (by omega)]
          simp only [List.append_assoc]
        · rw [expandBatchDim_bS_of_batch what hob,
            assembleSh_mid_evalG whereT lt rt whereT.isMat true what.bS k
              rfl hwbm hk1 (by omega),
            projResCoreShG, if_neg (by omega), if_neg (by omega),
            if_neg (by omega)]
          simp only [List.append_assoc]
      · -- last core
        have hkl' : k = what.d - 1 := by omega
        subst hkl'
        rw [show min (what.d - 1 + 1) (what.d - 1) = what.d - 1 from by omega,
          lhsSh_evalG (expandBatchDim what) (orthoWith whereT lt)
            whereT.isMat hwbB hwm hlb hlm hrowsL hcolsL hw0' hlt0'
            (what.d - 1) (by omega),
          show rhsSh whereT.isMat (expandBatchDim what) (orthoWith whereT rt)
            (what.d - (what.d - 1 + 1)) =
            .ok [(expandBatchDim what).bS, (expandBatchDim what).rk what.d,
              (orthoWith whereT rt).rk what.d] from by
              have hq := rhsSh_evalG (expandBatchDim what)
                (orthoWith whereT rt) whereT.isMat hwbB hwm hrb hrm hrowsR
                hcolsR hwd' hrtd' 0 (by omega)
              rw [Nat.sub_zero, hebd] at hq
              rw [show what.d - (what.d - 1 + 1) = 0 from by omega]
              exact hq]
        simp only [ok_bind]
        rw [projCoreShP_last_evalG (expandBatchDim what)
          (orthoWith whereT lt) whereT.isMat what.isBatch hwbB hwm hlb hlm
          hrowsL hcolsL (what.d - 1) (by rw [hebd]; omega) _ _]
        simp only [ok_bind]
        rw [show (expandBatchDim what).rk (what.d - 1 + 1) = 1 from by
          rw [expandBatchDim_rk, show what.d - 1 + 1 = what.d from by omega]
          exact hwd]
        simp only [orthoWith_rk, orthoWith_rows, orthoWith_cols]
        have hrt1 : rt (whereT.d - 1 + 1) = 1 := by
          rw [show whereT.d - 1 + 1 = what.d from by omega]
          exact hrtd
        rcases hob : what.isBatch with _ | _
        · have has := assembleSh_last_evalG whereT lt rt whereT.isMat false
            what.bS (lt (what.d - 1)) rfl hwbm (by omega) hrt1
          rw [← hdd] at has
          rw [show bdim false (expandBatchDim what).bS = bdim false what.bS
            from rfl, has,
            projResCoreShG, if_neg (by omega), if_neg (by omega),
            if_pos (by rw [← hdd])]
          rw [hdd]
          simp only [List.append_assoc]
        · have has := assembleSh_last_evalG whereT lt rt whereT.isMat true
            what.bS (lt (what.d - 1)) rfl hwbm (by omega) hrt1
          rw [← hdd] at has
          rw [expandBatchDim_bS_of_batch what hob, has,
            projResCoreShG, if_neg (by omega), if_neg (by omega),
            if_pos (by rw [← hdd])]
          rw [hdd]
          simp only [List.append_assoc]

/-- Success of `project` on any valid pair — TT-tensor or TT-matrix,
single or batch perturbation — with the output cores given explicitly. -/
theorem projectSh_evalG (lt rt : ℕ → ℕ) (what whereT : TT)
    (hmm : what.isMat = whereT.isMat) (hwbm : whereT.isBatch = false)
    (hdd : what.d = whereT.d)
    (hrows : ∀ k, what.rows k = whereT.rows k)
    (hcols : ∀ k, what.cols k = whereT.cols k)
    (hdt : whereT.dt = what.dt)
    (hw0 : what.rk 0 = 1) (hwd : what.rk what.d = 1)
    (hlt0 : lt 0 = 1) (hrtd : rt what.d = 1) (hd : 1 ≤ what.d) :
    projectSh lt rt what whereT =
      .ok ⟨what.isBatch, what.bS, rawShape whereT,
        (List.range what.d).map
          (projResCoreShG lt rt whereT what.isBatch what.bS)⟩ := by
  have hwbB := expandBatchDim_isBatch what
  have hwm : (expandBatchDim what).isMat = whereT.isMat := by
    rw [expandBatchDim_isMat]; exact hmm
  have hebd := expandBatchDim_d what
  have hlb : (orthoWith whereT lt).isBatch = false := by
    rw [orthoWith_isBatch]; exact hwbm
  have hrb : (orthoWith whereT rt).isBatch = false := by
    rw [orthoWith_isBatch]; exact hwbm
  have hlm : (orthoWith whereT lt).isMat = whereT.isMat :=
    orthoWith_isMat whereT lt
  have hrm : (orthoWith whereT rt).isMat = whereT.isMat :=
    orthoWith_isMat whereT rt
  have hrowsL : ∀ j, (expandBatchDim what).rows j =
      (orthoWith whereT lt).rows j := by
    intro j; rw [expandBatchDim_rows, orthoWith_rows]; exact hrows j
  have hcolsL : ∀ j, (expandBatchDim what).cols j =
      (orthoWith whereT lt).cols j := by
    intro j; rw [expandBatchDim_cols, orthoWith_cols]; exact hcols j
  have hrowsR : ∀ j, (expandBatchDim what).rows j =
      (orthoWith whereT rt).rows j := by
    intro j; rw [expandBatchDim_rows, orthoWith_rows]; exact hrows j
  have hcolsR : ∀ j, (expandBatchDim what).cols j =
      (orthoWith whereT rt).cols j := by
    intro j; rw [expandBatchDim_cols, orthoWith_cols]; exact hcols j
  have hw0' : (expandBatchDim what).rk 0 = 1 := by
    rw [expandBatchDim_rk]; exact hw0
  have hwd' : (expandBatchDim what).rk (expandBatchDim what).d = 1 := by
    rw [expandBatchDim_rk, hebd]; exact hwd
  have hlt0' : (orthoWith whereT lt).rk 0 = 1 := hlt0
  have hrtd' : (orthoWith whereT rt).rk (expandBatchDim what).d = 1 := by
    rw [hebd]; exact hrtd
  have hv := validateSh_ok_of what whereT hwbm
    (rawShape_eq_ofG what whereT hmm hdd hrows hcols) hdt
  rw [projectSh, hv]
  simp only [ok_bind]
  rw [hebd,
    rhsSh_evalG (expandBatchDim what) (orthoWith whereT rt) whereT.isMat
      hwbB hwm hrb hrm hrowsR hcolsR hwd' hrtd' (what.d - 1)
      (by rw [hebd])]
  simp only [ok_bind]
  rw [lhsSh_evalG (expandBatchDim what) (orthoWith whereT lt) whereT.isMat
    hwbB hwm hlb hlm hrowsL hcolsL hw0' hlt0' (what.d - 1) (by omega)]
  simp only [ok_bind]
  rw [coresLoop_eval (projCoreFull lt rt what whereT)
    (projResCoreShG lt rt whereT what.isBatch what.bS) what.d
    (fun k hk => projCoreFull_evalG lt rt what whereT hmm hwbm hdd hrows
      hcols hw0 hwd hlt0 hrtd hd k hk)]
  simp only [ok_bind]

/-- Interior projection core of `project_sum` with `weights=None`, general
form. -/
theorem projCoreShPS_int_evalGN (wb ltt : TT) (mat : Bool)
    (hwb : wb.isBatch = true) (hwm : wb.isMat = mat)
    (hlb : ltt.isBatch = false) (hlm : ltt.isMat = mat)
    (hrows : ∀ k, wb.rows k = ltt.rows k)
    (hcols : ∀ k, wb.cols k = ltt.cols k)
    (k : ℕ) (hk : k < wb.d - 1) (rtk1 : ℕ) :
    projCoreShPS mat none wb ltt [wb.bS, ltt.rk k, wb.rk k]
      [wb.bS, wb.rk (k + 1), rtk1] k =
      .ok (bdim false 0 ++ [ltt.rk k, ltt.rows k] ++
        mdim mat (ltt.cols k) ++ [rtk1]) := by
  rw [projCoreShPS, if_pos hk]
  cases mat with
  | false =>
      rw [coreSh_batch_tensor wb hwb hwm k, coreSh_plain_tensor ltt hlb hlm k,
        hrows k]
      simp [einsumE, einsumSh, bindOps, bindOp, bindLbl, lookupN, outSh,
        modeL, amodeL, subE, bind, Except.bind, outBatchW, bdim, mdim]
  | true =>
      rw [coreSh_batch_matrix wb hwb hwm k, coreSh_plain_matrix ltt hlb hlm k,
        hrows k, hcols k]
      simp [einsumE, einsumSh, bindOps, bindOp, bindLbl, lookupN, outSh,
        modeL, amodeL, subE, bind, Except.bind, outBatchW, bdim, mdim]

/-- Last projection core of `project_sum` with `weights=None`, general
form. -/
theorem projCoreShPS_last_evalGN (wb ltt : TT) (mat : Bool)
    (hwb : wb.isBatch = true) (hwm : wb.isMat = mat)
    (hlb : ltt.isBatch = false) (hlm : ltt.isMat = mat)
    (hrows : ∀ k, wb.rows k = ltt.rows k)
    (hcols : ∀ k, wb.cols k = ltt.cols k)
    (k : ℕ) (hk : ¬k < wb.d - 1) (rk1 : List ℕ) :
    projCoreShPS mat none wb ltt [wb.bS, ltt.rk k, wb.rk k] rk1 k =
      .ok (bdim false 0 ++ [ltt.rk k, ltt.rows k] ++
        mdim mat (ltt.cols k) ++ [wb.rk (k + 1)]) := by
  rw [projCoreShPS, if_neg hk]
  cases mat with
  | false =>
      rw [coreSh_batch_tensor wb hwb hwm k, hrows k]
      simp [einsumE, einsumSh, bindOps, bindOp, bindLbl, lookupN, outSh,
        modeL, bdim, mdim]
  | true =>
      rw [coreSh_batch_matrix wb hwb hwm k, hrows k, hcols k]
      simp [einsumE, einsumSh, bindOps, bindOp, bindLbl, lookupN, outSh,
        modeL, bdim, mdim]

/-- Interior projection core of `project_sum` with 1-D weights of length
`batch_size`, general form: same shape as with `weights=None`. -/
theorem projCoreShPS_int_evalG1 (wb ltt : TT) (mat : Bool)
    (hwb : wb.isBatch = true) (hwm : wb.isMat = mat)
    (hlb : ltt.isBatch = false) (hlm : ltt.isMat = mat)
    (hrows : ∀ k, wb.rows k = ltt.rows k)
    (hcols : ∀ k, wb.cols k = ltt.cols k)
    (k : ℕ) (hk : k < wb.d - 1) (rtk1 : ℕ) :
    projCoreShPS mat (some [wb.bS]) wb ltt [wb.bS, ltt.rk k, wb.rk k]
      [wb.bS, wb.rk (k + 1), rtk1] k =
      .ok (bdim false 0 ++ [ltt.rk k, ltt.rows k] ++
        mdim mat (ltt.cols k) ++ [rtk1]) := by
  rw [projCoreShPS, if_pos hk]
  cases mat with
  | false =>
      rw [coreSh_batch_tensor wb hwb hwm k, coreSh_plain_tensor ltt hlb hlm k,
        hrows k]
      simp [einsumE, einsumSh, bindOps, bindOp, bindLbl, lookupN, outSh,
        modeL, amodeL, subE, bind, Except.bind, outBatchW, bdim, mdim]
  | true =>
      rw [coreSh_batch_matrix wb hwb hwm k, coreSh_plain_matrix ltt hlb hlm k,
        hrows k, hcols k]
      simp [einsumE, einsumSh, bindOps, bindOp, bindLbl, lookupN, outSh,
        modeL, amodeL, subE, bind, Except.bind, outBatchW, bdim, mdim]

/-- Last projection core of `project_sum` with 1-D weights, general
form. -/
theorem projCoreShPS_last_evalG1 (wb ltt : TT) (mat : Bool)
    (hwb : wb.isBatch = true) (hwm : wb.isMat = mat)
    (hlb : ltt.isBatch = false) (hlm : ltt.isMat = mat)
    (hrows : ∀ k, wb.rows k = ltt.rows k)
    (hcols : ∀ k, wb.cols k = ltt.cols k)
    (k : ℕ) (hk : ¬k < wb.d - 1) (rk1 : List ℕ) :
    projCoreShPS mat (some [wb.bS]) wb ltt [wb.bS, ltt.rk k, wb.rk k] rk1
      k =
      .ok (bdim false 0 ++ [ltt.rk k, ltt.rows k] ++
        mdim mat (ltt.cols k) ++ [wb.rk (k + 1)]) := by
  rw [projCoreShPS, if_neg hk]
  cases mat with
  | false =>
      rw [coreSh_batch_tensor wb hwb hwm k, hrows k]
      simp [einsumE, einsumSh, bindOps, bindOp, bindLbl, lookupN, outSh,
        modeL, outBatchW, bdim, mdim]
  | true =>
      rw [coreSh_batch_matrix wb hwb hwm k, hrows k, hcols k]
      simp [einsumE, einsumSh, bindOps, bindOp, bindLbl, lookupN, outSh,
        modeL, outBatchW, bdim, mdim]

/-- Interior projection core of `project_sum` with an `S × O` weight
matrix, `O ≥ 2`, general form: the output batch entry `O` leads. -/
theorem projCoreShPS_int_evalG2 (wb ltt : TT) (mat : Bool) (O : ℕ)
    (hO : 1 < O)
    (hwb : wb.isBatch = true) (hwm : wb.isMat = mat)
    (hlb : ltt.isBatch = false) (hlm : ltt.isMat = mat)
    (hrows : ∀ k, wb.rows k = ltt.rows k)
    (hcols : ∀ k, wb.cols k = ltt.cols k)
    (k : ℕ) (hk : k < wb.d - 1) (rtk1 : ℕ) :
    projCoreShPS mat (some [wb.bS, O]) wb ltt [wb.bS, ltt.rk k, wb.rk k]
      [wb.bS, wb.rk (k + 1), rtk1] k =
      .ok (bdim true O ++ [ltt.rk k, ltt.rows k] ++
        mdim mat (ltt.cols k) ++ [rtk1]) := by
  have hob : outBatchW (some [wb.bS, O]) = true := by
    simp [outBatchW]
    omega
  rw [projCoreShPS, if_pos hk]
  cases mat with
  | false =>
      rw [coreSh_batch_tensor wb hwb hwm k, coreSh_plain_tensor ltt hlb hlm k,
        hrows k]
      simp [hob, einsumE, einsumSh, bindOps, bindOp, bindLbl, lookupN, outSh,
        modeL, amodeL, subE, bind, Except.bind, bdim, mdim]
  | true =>
      rw [coreSh_batch_matrix wb hwb hwm k, coreSh_plain_matrix ltt hlb hlm k,
        hrows k, hcols k]
      simp [hob, einsumE, einsumSh, bindOps, bindOp, bindLbl, lookupN, outSh,
        modeL, amodeL, subE, bind, Except.bind, bdim, mdim]

/-- Last projection core of `project_sum` with an `S × O` weight matrix,
`O ≥ 2`, general form. -/
theorem projCoreShPS_last_evalG2 (wb ltt : TT) (mat : Bool) (O : ℕ)
    (hO : 1 < O)
    (hwb : wb.isBatch = true) (hwm : wb.isMat = mat)
    (hlb : ltt.isBatch = false) (hlm : ltt.isMat = mat)
    (hrows : ∀ k, wb.rows k = ltt.rows k)
    (hcols : ∀ k, wb.cols k = ltt.cols k)
    (k : ℕ) (hk : ¬k < wb.d - 1) (rk1 : List ℕ) :
    projCoreShPS mat (some [wb.bS, O]) wb ltt [wb.bS, ltt.rk k, wb.rk k]
      rk1 k =
      .ok (bdim true O ++ [ltt.rk k, ltt.rows k] ++
        mdim mat (ltt.cols k) ++ [wb.rk (k + 1)]) := by
  have hob : outBatchW (some [wb.bS, O]) = true := by
    simp [outBatchW]
    omega
  rw [projCoreShPS, if_neg hk]
  cases mat with
  | false =>
      rw [coreSh_batch_tensor wb hwb hwm k, hrows k]
      simp [hob, einsumE, einsumSh, bindOps, bindOp, bindLbl, lookupN, outSh,
        modeL, bdim, mdim]
  | true =>
      rw [coreSh_batch_matrix wb hwb hwm k, hrows k, hcols k]
      simp [hob, einsumE, einsumSh, bindOps, bindOp, bindLbl, lookupN, outSh,
        modeL, bdim, mdim]

/-- Per-core evaluation of `project_sum` (N weights), general
form. -/
theorem projCoreFullS_evalGN (lt rt : ℕ → ℕ) (what whereT : TT)
    (hmm : what.isMat = whereT.isMat) (hwbm : whereT.isBatch = false)
    (hdd : what.d = whereT.d)
    (hrows : ∀ k, what.rows k = whereT.rows k)
    (hcols : ∀ k, what.cols k = whereT.cols k)
    (hw0 : what.rk 0 = 1) (hwd : what.rk what.d = 1)
    (hlt0 : lt 0 = 1) (hrtd : rt what.d = 1)
    (hd : 1 ≤ what.d) (k : ℕ) (hk : k < what.d) :
    projCoreFullS lt rt what whereT (none) k =
      .ok (projResCoreShG lt rt whereT false 0 k) := by
  have hwbB := expandBatchDim_isBatch what
  have hwm : (expandBatchDim what).isMat = whereT.isMat := by
    rw [expandBatchDim_isMat]; exact hmm
  have hebd := expandBatchDim_d what
  have hlb : (orthoWith whereT lt).isBatch = false := by
    rw [orthoWith_isBatch]; exact hwbm
  have hrb : (orthoWith whereT rt).isBatch = false := by
    rw [orthoWith_isBatch]; exact hwbm
  have hlm : (orthoWith whereT lt).isMat = whereT.isMat :=
    orthoWith_isMat whereT lt
  have hrm : (orthoWith whereT rt).isMat = whereT.isMat :=
    orthoWith_isMat whereT rt
  have hrowsL : ∀ j, (expandBatchDim what).rows j =
      (orthoWith whereT lt).rows j := by
    intro j; rw [expandBatchDim_rows, orthoWith_rows]; exact hrows j
  have hcolsL : ∀ j, (expandBatchDim what).cols j =
      (orthoWith whereT lt).cols j := by
    intro j; rw [expandBatchDim_cols, orthoWith_cols]; exact hcols j
  have hrowsR : ∀ j, (expandBatchDim what).rows j =
      (orthoWith whereT rt).rows j := by
    intro j; rw [expandBatchDim_rows, orthoWith_rows]; exact hrows j
  have hcolsR : ∀ j, (expandBatchDim what).cols j =
      (orthoWith whereT rt).cols j := by
    intro j; rw [expandBatchDim_cols, orthoWith_cols]; exact hcols j
  have hw0q : (expandBatchDim what).rk 0 = 1 := by
    rw [expandBatchDim_rk]; exact hw0
  have hwdq : (expandBatchDim what).rk (expandBatchDim what).d = 1 := by
    rw [expandBatchDim_rk, hebd]; exact hwd
  have hlt0q : (orthoWith whereT lt).rk 0 = 1 := hlt0
  have hrtdq : (orthoWith whereT rt).rk (expandBatchDim what).d = 1 := by
    rw [hebd]; exact hrtd
  rw [projCoreFullS, hebd]
  rw [lhsSh_evalG (expandBatchDim what) (orthoWith whereT lt) whereT.isMat
    hwbB hwm hlb hlm hrowsL hcolsL hw0q hlt0q k (by omega)]
  rcases Nat.lt_or_ge what.d 2 with hd2 | hd2
  · have hd1 : what.d = 1 := by omega
    have hk0 : k = 0 := by omega
    subst hk0
    rw [hd1, show (1 : ℕ) - (0 + 1) = 0 from by omega,
      show rhsSh whereT.isMat (expandBatchDim what) (orthoWith whereT rt) 0 =
        .ok [(expandBatchDim what).bS, (expandBatchDim what).rk 1,
          (orthoWith whereT rt).rk 1] from by
          have hq := rhsSh_evalG (expandBatchDim what) (orthoWith whereT rt)
            whereT.isMat hwbB hwm hrb hrm hrowsR hcolsR hwdq hrtdq 0
            (by omega)
          rw [Nat.sub_zero, hebd, hd1] at hq
          exact hq]
    simp only [ok_bind]
    rw [projCoreShPS_last_evalGN (expandBatchDim what) (orthoWith whereT lt)
      whereT.isMat hwbB hwm hlb hlm hrowsL hcolsL 0
      (by rw [hebd, hd1]; omega) _]
    simp only [ok_bind]
    rw [show (expandBatchDim what).rk (0 + 1) = 1 from by
      rw [expandBatchDim_rk, show (0 : ℕ) + 1 = what.d from by omega]
      exact hwd]
    simp only [orthoWith_rk, orthoWith_rows, orthoWith_cols]
    rw [show outBatchW none = false from rfl,
        show outBatchSizeW none = 0 from rfl,
      assembleSh_first_evalG whereT lt rt whereT.isMat false 0 1
        rfl hwbm,
      projResCoreShG, if_pos (by omega)]
    simp only [List.append_assoc]
  · rcases Nat.eq_zero_or_pos k with hk0 | hk1
    · subst hk0
      rw [show rhsSh whereT.isMat (expandBatchDim what) (orthoWith whereT rt)
          (what.d - (0 + 1)) =
          .ok [(expandBatchDim what).bS, (expandBatchDim what).rk 1,
            (orthoWith whereT rt).rk 1] from by
            have hq := rhsSh_evalG (expandBatchDim what) (orthoWith whereT rt)
              whereT.isMat hwbB hwm hrb hrm hrowsR hcolsR hwdq hrtdq
              (what.d - 1) (by rw [hebd])
            rw [hebd, show what.d - (what.d - 1) = 1 from by omega] at hq
            exact hq]
      simp only [ok_bind]
      rw [projCoreShPS_int_evalGN (expandBatchDim what) (orthoWith whereT lt)
        whereT.isMat hwbB hwm hlb hlm hrowsL hcolsL 0
        (by rw [hebd]; omega) _]
      simp only [ok_bind]
      simp only [orthoWith_rk, orthoWith_rows, orthoWith_cols]
      rw [show outBatchW none = false from rfl,
        show outBatchSizeW none = 0 from rfl,
        assembleSh_first_evalG whereT lt rt whereT.isMat false 0
          (rt 1) rfl hwbm,
        projResCoreShG, if_neg (by omega), if_pos rfl]
      simp only [List.append_assoc]
    · rcases Nat.lt_or_ge k (what.d - 1) with hkm | hkl
      · rw [show rhsSh whereT.isMat (expandBatchDim what)
            (orthoWith whereT rt) (what.d - (k + 1)) =
            .ok [(expandBatchDim what).bS, (expandBatchDim what).rk (k + 1),
              (orthoWith whereT rt).rk (k + 1)] from by
              have hq := rhsSh_evalG (expandBatchDim what)
                (orthoWith whereT rt) whereT.isMat hwbB hwm hrb hrm hrowsR
                hcolsR hwdq hrtdq (what.d - (k + 1)) (by rw [hebd]; omega)
              rw [hebd,
                show what.d - (what.d - (k + 1)) = k + 1 from by omega] at hq
              exact hq]
        simp only [ok_bind]
        rw [projCoreShPS_int_evalGN (expandBatchDim what) (orthoWith whereT lt)
          whereT.isMat hwbB hwm hlb hlm hrowsL hcolsL k
          (by rw [hebd]; omega) _]
        simp only [ok_bind]
        simp only [orthoWith_rk, orthoWith_rows, orthoWith_cols]
        rw [show outBatchW none = false from rfl,
        show outBatchSizeW none = 0 from rfl,
          assembleSh_mid_evalG whereT lt rt whereT.isMat false 0 k
            rfl hwbm hk1 (by omega),
          projResCoreShG, if_neg (by omega), if_neg (by omega),
          if_neg (by omega)]
        simp only [List.append_assoc]
      · have hklq : k = what.d - 1 := by omega
        subst hklq
        rw [show rhsSh whereT.isMat (expandBatchDim what)
            (orthoWith whereT rt) (what.d - (what.d - 1 + 1)) =
            .ok [(expandBatchDim what).bS, (expandBatchDim what).rk what.d,
              (orthoWith whereT rt).rk what.d] from by
              have hq := rhsSh_evalG (expandBatchDim what)
                (orthoWith whereT rt) whereT.isMat hwbB hwm hrb hrm hrowsR
                hcolsR hwdq hrtdq 0 (by omega)
              rw [Nat.sub_zero, hebd] at hq
              rw [show what.d - (what.d - 1 + 1) = 0 from by omega]
              exact hq]
        simp only [ok_bind]
        rw [projCoreShPS_last_evalGN (expandBatchDim what) (orthoWith whereT lt)
          whereT.isMat hwbB hwm hlb hlm hrowsL hcolsL
          (what.d - 1) (by rw [hebd]; omega) _]
        simp only [ok_bind]
        rw [show (expandBatchDim what).rk (what.d - 1 + 1) = 1 from by
          rw [expandBatchDim_rk, show what.d - 1 + 1 = what.d from by omega]
          exact hwd]
        simp only [orthoWith_rk, orthoWith_rows, orthoWith_cols]
        have hrt1 : rt (whereT.d - 1 + 1) = 1 := by
          rw [show whereT.d - 1 + 1 = what.d from by omega]
          exact hrtd
        have has := assembleSh_last_evalG whereT lt rt whereT.isMat false
          0 (lt (what.d - 1)) rfl hwbm (by omega) hrt1
        rw [← hdd] at has
        rw [show outBatchW none = false from rfl,
        show outBatchSizeW none = 0 from rfl, has,
          projResCoreShG, if_neg (by omega), if_neg (by omega),
          if_pos (by rw [← hdd])]
        rw [hdd]
        simp only [List.append_assoc]

/-- Per-core evaluation of `project_sum` (1 weights), general
form. -/
theorem projCoreFullS_evalG1 (lt rt : ℕ → ℕ) (what whereT : TT)
    (hmm : what.isMat = whereT.isMat) (hwbm : whereT.isBatch = false)
    (hdd : what.d = whereT.d)
    (hrows : ∀ k, what.rows k = whereT.rows k)
    (hcols : ∀ k, what.cols k = whereT.cols k)
    (hw0 : what.rk 0 = 1) (hwd : what.rk what.d = 1)
    (hlt0 : lt 0 = 1) (hrtd : rt what.d = 1)
    (hd : 1 ≤ what.d) (k : ℕ) (hk : k < what.d) :
    projCoreFullS lt rt what whereT (some [(expandBatchDim what).bS]) k =
      .ok (projResCoreShG lt rt whereT false 0 k) := by
  have hwbB := expandBatchDim_isBatch what
  have hwm : (expandBatchDim what).isMat = whereT.isMat := by
    rw [expandBatchDim_isMat]; exact hmm
  have hebd := expandBatchDim_d what
  have hlb : (orthoWith whereT lt).isBatch = false := by
    rw [orthoWith_isBatch]; exact hwbm
  have hrb : (orthoWith whereT rt).isBatch = false := by
    rw [orthoWith_isBatch]; exact hwbm
  have hlm : (orthoWith whereT lt).isMat = whereT.isMat :=
    orthoWith_isMat whereT lt
  have hrm : (orthoWith whereT rt).isMat = whereT.isMat :=
    orthoWith_isMat whereT rt
  have hrowsL : ∀ j, (expandBatchDim what).rows j =
      (orthoWith whereT lt).rows j := by
    intro j; rw [expandBatchDim_rows, orthoWith_rows]; exact hrows j
  have hcolsL : ∀ j, (expandBatchDim what).cols j =
      (orthoWith whereT lt).cols j := by
    intro j; rw [expandBatchDim_cols, orthoWith_cols]; exact hcols j
  have hrowsR : ∀ j, (expandBatchDim what).rows j =
      (orthoWith whereT rt).rows j := by
    intro j; rw [expandBatchDim_rows, orthoWith_rows]; exact hrows j
  have hcolsR : ∀ j, (expandBatchDim what).cols j =
      (orthoWith whereT rt).cols j := by
    intro j; rw [expandBatchDim_cols, orthoWith_cols]; exact hcols j
  have hw0q : (expandBatchDim what).rk 0 = 1 := by
    rw [expandBatchDim_rk]; exact hw0
  have hwdq : (expandBatchDim what).rk (expandBatchDim what).d = 1 := by
    rw [expandBatchDim_rk, hebd]; exact hwd
  have hlt0q : (orthoWith whereT lt).rk 0 = 1 := hlt0
  have hrtdq : (orthoWith whereT rt).rk (expandBatchDim what).d = 1 := by
    rw [hebd]; exact hrtd
  rw [projCoreFullS, hebd]
  rw [lhsSh_evalG (expandBatchDim what) (orthoWith whereT lt) whereT.isMat
    hwbB hwm hlb hlm hrowsL hcolsL hw0q hlt0q k (by omega)]
  rcases Nat.lt_or_ge what.d 2 with hd2 | hd2
  · have hd1 : what.d = 1 := by omega
    have hk0 : k = 0 := by omega
    subst hk0
    rw [hd1, show (1 : ℕ) - (0 + 1) = 0 from by omega,
      show rhsSh whereT.isMat (expandBatchDim what) (orthoWith whereT rt) 0 =
        .ok [(expandBatchDim what).bS, (expandBatchDim what).rk 1,
          (orthoWith whereT rt).rk 1] from by
          have hq := rhsSh_evalG (expandBatchDim what) (orthoWith whereT rt)
            whereT.isMat hwbB hwm hrb hrm hrowsR hcolsR hwdq hrtdq 0
            (by omega)
          rw [Nat.sub_zero, hebd, hd1] at hq
          exact hq]
    simp only [ok_bind]
    rw [projCoreShPS_last_evalG1 (expandBatchDim what) (orthoWith whereT lt)
      whereT.isMat hwbB hwm hlb hlm hrowsL hcolsL 0
      (by rw [hebd, hd1]; omega) _]
    simp only [ok_bind]
    rw [show (expandBatchDim what).rk (0 + 1) = 1 from by
      rw [expandBatchDim_rk, show (0 : ℕ) + 1 = what.d from by omega]
      exact hwd]
    simp only [orthoWith_rk, orthoWith_rows, orthoWith_cols]
    rw [show outBatchW (some [(expandBatchDim what).bS]) = false from rfl,
        show outBatchSizeW (some [(expandBatchDim what).bS]) = 0 from rfl,
      assembleSh_first_evalG whereT lt rt whereT.isMat false 0 1
        rfl hwbm,
      projResCoreShG, if_pos (by omega)]
    simp only [List.append_assoc]
  · rcases Nat.eq_zero_or_pos k with hk0 | hk1
    · subst hk0
      rw [show rhsSh whereT.isMat (expandBatchDim what) (orthoWith whereT rt)
          (what.d - (0 + 1)) =
          .ok [(expandBatchDim what).bS, (expandBatchDim what).rk 1,
            (orthoWith whereT rt).rk 1] from by
            have hq := rhsSh_evalG (expandBatchDim what) (orthoWith whereT rt)
              whereT.isMat hwbB hwm hrb hrm hrowsR hcolsR hwdq hrtdq
              (what.d - 1) (by rw [hebd])
            rw [hebd, show what.d - (what.d - 1) = 1 from by omega] at hq
            exact hq]
      simp only [ok_bind]
      rw [projCoreShPS_int_evalG1 (expandBatchDim what) (orthoWith whereT lt)
        whereT.isMat hwbB hwm hlb hlm hrowsL hcolsL 0
        (by rw [hebd]; omega) _]
      simp only [ok_bind]
      simp only [orthoWith_rk, orthoWith_rows, orthoWith_cols]
      rw [show outBatchW (some [(expandBatchDim what).bS]) = false from rfl,
        show outBatchSizeW (some [(expandBatchDim what).bS]) = 0 from rfl,
        assembleSh_first_evalG whereT lt rt whereT.isMat false 0
          (rt 1) rfl hwbm,
        projResCoreShG, if_neg (by omega), if_pos rfl]
      simp only [List.append_assoc]
    · rcases Nat.lt_or_ge k (what.d - 1) with hkm | hkl
      · rw [show rhsSh whereT.isMat (expandBatchDim what)
            (orthoWith whereT rt) (what.d - (k + 1)) =
            .ok [(expandBatchDim what).bS, (expandBatchDim what).rk (k + 1),
              (orthoWith whereT rt).rk (k + 1)] from by
              have hq := rhsSh_evalG (expandBatchDim what)
                (orthoWith whereT rt) whereT.isMat hwbB hwm hrb hrm hrowsR
                hcolsR hwdq hrtdq (what.d - (k + 1)) (by rw [hebd]; omega)
              rw [hebd,
                show what.d - (what.d - (k + 1)) = k + 1 from by omega] at hq
              exact hq]
        simp only [ok_bind]
        rw [projCoreShPS_int_evalG1 (expandBatchDim what) (orthoWith whereT lt)
          whereT.isMat hwbB hwm hlb hlm hrowsL hcolsL k
          (by rw [hebd]; omega) _]
        simp only [ok_bind]
        simp only [orthoWith_rk, orthoWith_rows, orthoWith_cols]
        rw [show outBatchW (some [(expandBatchDim what).bS]) = false from rfl,
        show outBatchSizeW (some [(expandBatchDim what).bS]) = 0 from rfl,
          assembleSh_mid_evalG whereT lt rt whereT.isMat false 0 k
            rfl hwbm hk1 (by omega),
          projResCoreShG, if_neg (by omega), if_neg (by omega),
          if_neg (by omega)]
        simp only [List.append_assoc]
      · have hklq : k = what.d - 1 := by omega
        subst hklq
        rw [show rhsSh whereT.isMat (expandBatchDim what)
            (orthoWith whereT rt) (what.d - (what.d - 1 + 1)) =
            .ok [(expandBatchDim what).bS, (expandBatchDim what).rk what.d,
              (orthoWith whereT rt).rk what.d] from by
              have hq := rhsSh_evalG (expandBatchDim what)
                (orthoWith whereT rt) whereT.isMat hwbB hwm hrb hrm hrowsR
                hcolsR hwdq hrtdq 0 (by omega)
              rw [Nat.sub_zero, hebd] at hq
              rw [show what.d - (what.d - 1 + 1) = 0 from by omega]
              exact hq]
        simp only [ok_bind]
        rw [projCoreShPS_last_evalG1 (expandBatchDim what) (orthoWith whereT lt)
          whereT.isMat hwbB hwm hlb hlm hrowsL hcolsL
          (what.d - 1) (by rw [hebd]; omega) _]
        simp only [ok_bind]
        rw [show (expandBatchDim what).rk (what.d - 1 + 1) = 1 from by
          rw [expandBatchDim_rk, show what.d - 1 + 1 = what.d from by omega]
          exact hwd]
        simp only [orthoWith_rk, orthoWith_rows, orthoWith_cols]
        have hrt1 : rt (whereT.d - 1 + 1) = 1 := by
          rw [show whereT.d - 1 + 1 = what.d from by omega]
          exact hrtd
        have has := assembleSh_last_evalG whereT lt rt whereT.isMat false
          0 (lt (what.d - 1)) rfl hwbm (by omega) hrt1
        rw [← hdd] at has
        rw [show outBatchW (some [(expandBatchDim what).bS]) = false from rfl,
        show outBatchSizeW (some [(expandBatchDim what).bS]) = 0 from rfl, has,
          projResCoreShG, if_neg (by omega), if_neg (by omega),
          if_pos (by rw [← hdd])]
        rw [hdd]
        simp only [List.append_assoc]

/-- Per-core evaluation of `project_sum` (2 weights), general
form. -/
theorem projCoreFullS_evalG2 (lt rt : ℕ → ℕ) (what whereT : TT)
    (O : ℕ) (hO : 1 < O)
    (hmm : what.isMat = whereT.isMat) (hwbm : whereT.isBatch = false)
    (hdd : what.d = whereT.d)
    (hrows : ∀ k, what.rows k = whereT.rows k)
    (hcols : ∀ k, what.cols k = whereT.cols k)
    (hw0 : what.rk 0 = 1) (hwd : what.rk what.d = 1)
    (hlt0 : lt 0 = 1) (hrtd : rt what.d = 1)
    (hd : 1 ≤ what.d) (k : ℕ) (hk : k < what.d) :
    projCoreFullS lt rt what whereT (some [(expandBatchDim what).bS, O]) k =
      .ok (projResCoreShG lt rt whereT true O k) := by
  have hwbB := expandBatchDim_isBatch what
  have hwm : (expandBatchDim what).isMat = whereT.isMat := by
    rw [expandBatchDim_isMat]; exact hmm
  have hebd := expandBatchDim_d what
  have hlb : (orthoWith whereT lt).isBatch = false := by
    rw [orthoWith_isBatch]; exact hwbm
  have hrb : (orthoWith whereT rt).isBatch = false := by
    rw [orthoWith_isBatch]; exact hwbm
  have hlm : (orthoWith whereT lt).isMat = whereT.isMat :=
    orthoWith_isMat whereT lt
  have hrm : (orthoWith whereT rt).isMat = whereT.isMat :=
    orthoWith_isMat whereT rt
  have hrowsL : ∀ j, (expandBatchDim what).rows j =
      (orthoWith whereT lt).rows j := by
    intro j; rw [expandBatchDim_rows, orthoWith_rows]; exact hrows j
  have hcolsL : ∀ j, (expandBatchDim what).cols j =
      (orthoWith whereT lt).cols j := by
    intro j; rw [expandBatchDim_cols, orthoWith_cols]; exact hcols j
  have hrowsR : ∀ j, (expandBatchDim what).rows j =
      (orthoWith whereT rt).rows j := by
    intro j; rw [expandBatchDim_rows, orthoWith_rows]; exact hrows j
  have hcolsR : ∀ j, (expandBatchDim what).cols j =
      (orthoWith whereT rt).cols j := by
    intro j; rw [expandBatchDim_cols, orthoWith_cols]; exact hcols j
  have hw0q : (expandBatchDim what).rk 0 = 1 := by
    rw [expandBatchDim_rk]; exact hw0
  have hwdq : (expandBatchDim what).rk (expandBatchDim what).d = 1 := by
    rw [expandBatchDim_rk, hebd]; exact hwd
  have hlt0q : (orthoWith whereT lt).rk 0 = 1 := hlt0
  have hrtdq : (orthoWith whereT rt).rk (expandBatchDim what).d = 1 := by
    rw [hebd]; exact hrtd
  have hob : outBatchW (some [(expandBatchDim what).bS, O]) = true := by
    simp [outBatchW]
    omega
  rw [projCoreFullS, hebd]
  rw [lhsSh_evalG (expandBatchDim what) (orthoWith whereT lt) whereT.isMat
    hwbB hwm hlb hlm hrowsL hcolsL hw0q hlt0q k (by omega)]
  rcases Nat.lt_or_ge what.d 2 with hd2 | hd2
  · have hd1 : what.d = 1 := by omega
    have hk0 : k = 0 := by omega
    subst hk0
    rw [hd1, show (1 : ℕ) - (0 + 1) = 0 from by omega,
      show rhsSh whereT.isMat (expandBatchDim what) (orthoWith whereT rt) 0 =
        .ok [(expandBatchDim what).bS, (expandBatchDim what).rk 1,
          (orthoWith whereT rt).rk 1] from by
          have hq := rhsSh_evalG (expandBatchDim what) (orthoWith whereT rt)
            whereT.isMat hwbB hwm hrb hrm hrowsR hcolsR hwdq hrtdq 0
            (by omega)
          rw [Nat.sub_zero, hebd, hd1] at hq
          exact hq]
    simp only [ok_bind]
    rw [projCoreShPS_last_evalG2 (expandBatchDim what) (orthoWith whereT lt)
      whereT.isMat O hO hwbB hwm hlb hlm hrowsL hcolsL 0
      (by rw [hebd, hd1]; omega) _]
    simp only [ok_bind]
    rw [show (expandBatchDim what).rk (0 + 1) = 1 from by
      rw [expandBatchDim_rk, show (0 : ℕ) + 1 = what.d from by omega]
      exact hwd]
    simp only [orthoWith_rk, orthoWith_rows, orthoWith_cols]
    rw [hob,
        show outBatchSizeW (some [(expandBatchDim what).bS, O]) = O from rfl,
      assembleSh_first_evalG whereT lt rt whereT.isMat true O 1
        rfl hwbm,
      projResCoreShG, if_pos (by omega)]
    simp only [List.append_assoc]
  · rcases Nat.eq_zero_or_pos k with hk0 | hk1
    · subst hk0
      rw [show rhsSh whereT.isMat (expandBatchDim what) (orthoWith whereT rt)
          (what.d - (0 + 1)) =
          .ok [(expandBatchDim what).bS, (expandBatchDim what).rk 1,
            (orthoWith whereT rt).rk 1] from by
            have hq := rhsSh_evalG (expandBatchDim what) (orthoWith whereT rt)
              whereT.isMat hwbB hwm hrb hrm hrowsR hcolsR hwdq hrtdq
              (what.d - 1) (by rw [hebd])
            rw [hebd, show what.d - (what.d - 1) = 1 from by omega] at hq
            exact hq]
      simp only [ok_bind]
      rw [projCoreShPS_int_evalG2 (expandBatchDim what) (orthoWith whereT lt)
        whereT.isMat O hO hwbB hwm hlb hlm hrowsL hcolsL 0
        (by rw [hebd]; omega) _]
      simp only [ok_bind]
      simp only [orthoWith_rk, orthoWith_rows, orthoWith_cols]
      rw [hob,
        show outBatchSizeW (some [(expandBatchDim what).bS, O]) = O from rfl,
        assembleSh_first_evalG whereT lt rt whereT.isMat true O
          (rt 1) rfl hwbm,
        projResCoreShG, if_neg (by omega), if_pos rfl]
      simp only [List.append_assoc]
    · rcases Nat.lt_or_ge k (what.d - 1) with hkm | hkl
      · rw [show rhsSh whereT.isMat (expandBatchDim what)
            (orthoWith whereT rt) (what.d - (k + 1)) =
            .ok [(expandBatchDim what).bS, (expandBatchDim what).rk (k + 1),
              (orthoWith whereT rt).rk (k + 1)] from by
              have hq := rhsSh_evalG (expandBatchDim what)
                (orthoWith whereT rt) whereT.isMat hwbB hwm hrb hrm hrowsR
                hcolsR hwdq hrtdq (what.d - (k + 1)) (by rw [hebd]; omega)
              rw [hebd,
                show what.d - (what.d - (k + 1)) = k + 1 from by omega] at hq
              exact hq]
        simp only [ok_bind]
        rw [projCoreShPS_int_evalG2 (expandBatchDim what) (orthoWith whereT lt)
          whereT.isMat O hO hwbB hwm hlb hlm hrowsL hcolsL k
          (by rw [hebd]; omega) _]
        simp only [ok_bind]
        simp only [orthoWith_rk, orthoWith_rows, orthoWith_cols]
        rw [hob,
        show outBatchSizeW (some [(expandBatchDim what).bS, O]) = O from rfl,
          assembleSh_mid_evalG whereT lt rt whereT.isMat true O k
            rfl hwbm hk1 (by omega),
          projResCoreShG, if_neg (by omega), if_neg (by omega),
          if_neg (by omega)]
        simp only [List.append_assoc]
      · have hklq : k = what.d - 1 := by omega
        subst hklq
        rw [show rhsSh whereT.isMat (expandBatchDim what)
            (orthoWith whereT rt) (what.d - (what.d - 1 + 1)) =
            .ok [(expandBatchDim what).bS, (expandBatchDim what).rk what.d,
              (orthoWith whereT rt).rk what.d] from by
              have hq := rhsSh_evalG (expandBatchDim what)
                (orthoWith whereT rt) whereT.isMat hwbB hwm hrb hrm hrowsR
                hcolsR hwdq hrtdq 0 (by omega)
              rw [Nat.sub_zero, hebd] at hq
              rw [show what.d - (what.d - 1 + 1) = 0 from by omega]
              exact hq]
        simp only [ok_bind]
        rw [projCoreShPS_last_evalG2 (expandBatchDim what) (orthoWith whereT lt)
          whereT.isMat O hO hwbB hwm hlb hlm hrowsL hcolsL
          (what.d - 1) (by rw [hebd]; omega) _]
        simp only [ok_bind]
        rw [show (expandBatchDim what).rk (what.d - 1 + 1) = 1 from by
          rw [expandBatchDim_rk, show what.d - 1 + 1 = what.d from by omega]
          exact hwd]
        simp only [orthoWith_rk, orthoWith_rows, orthoWith_cols]
        have hrt1 : rt (whereT.d - 1 + 1) = 1 := by
          rw [show whereT.d - 1 + 1 = what.d from by omega]
          exact hrtd
        have has := assembleSh_last_evalG whereT lt rt whereT.isMat true
          O (lt (what.d - 1)) rfl hwbm (by omega) hrt1
        rw [← hdd] at has
        rw [hob,
        show outBatchSizeW (some [(expandBatchDim what).bS, O]) = O from rfl, has,
          projResCoreShG, if_neg (by omega), if_neg (by omega),
          if_pos (by rw [← hdd])]
        rw [hdd]
        simp only [List.append_assoc]

/-- Success of `project_sum` (N weights) on any valid pair, with
the output cores given explicitly. -/
theorem projectSumSh_evalGN (lt rt : ℕ → ℕ) (what whereT : TT)
    (hmm : what.isMat = whereT.isMat) (hwbm : whereT.isBatch = false)
    (hdd : what.d = whereT.d)
    (hrows : ∀ k, what.rows k = whereT.rows k)
    (hcols : ∀ k, what.cols k = whereT.cols k)
    (hdt : whereT.dt = what.dt)
    (hw0 : what.rk 0 = 1) (hwd : what.rk what.d = 1)
    (hlt0 : lt 0 = 1) (hrtd : rt what.d = 1) (hd : 1 ≤ what.d) :
    projectSumSh lt rt what whereT (none) =
      .ok ⟨false, 0, rawShape whereT,
        (List.range what.d).map
          (projResCoreShG lt rt whereT false 0)⟩ := by
  have hwbB := expandBatchDim_isBatch what
  have hwm : (expandBatchDim what).isMat = whereT.isMat := by
    rw [expandBatchDim_isMat]; exact hmm
  have hebd := expandBatchDim_d what
  have hlb : (orthoWith whereT lt).isBatch = false := by
    rw [orthoWith_isBatch]; exact hwbm
  have hrb : (orthoWith whereT rt).isBatch = false := by
    rw [orthoWith_isBatch]; exact hwbm
  have hlm : (orthoWith whereT lt).isMat = whereT.isMat :=
    orthoWith_isMat whereT lt
  have hrm : (orthoWith whereT rt).isMat = whereT.isMat :=
    orthoWith_isMat whereT rt
  have hrowsL : ∀ j, (expandBatchDim what).rows j =
      (orthoWith whereT lt).rows j := by
    intro j; rw [expandBatchDim_rows, orthoWith_rows]; exact hrows j
  have hcolsL : ∀ j, (expandBatchDim what).cols j =
      (orthoWith whereT lt).cols j := by
    intro j; rw [expandBatchDim_cols, orthoWith_cols]; exact hcols j
  have hrowsR : ∀ j, (expandBatchDim what).rows j =
      (orthoWith whereT rt).rows j := by
    intro j; rw [expandBatchDim_rows, orthoWith_rows]; exact hrows j
  have hcolsR : ∀ j, (expandBatchDim what).cols j =
      (orthoWith whereT rt).cols j := by
    intro j; rw [expandBatchDim_cols, orthoWith_cols]; exact hcols j
  have hw0q : (expandBatchDim what).rk 0 = 1 := by
    rw [expandBatchDim_rk]; exact hw0
  have hwdq : (expandBatchDim what).rk (expandBatchDim what).d = 1 := by
    rw [expandBatchDim_rk, hebd]; exact hwd
  have hlt0q : (orthoWith whereT lt).rk 0 = 1 := hlt0
  have hrtdq : (orthoWith whereT rt).rk (expandBatchDim what).d = 1 := by
    rw [hebd]; exact hrtd
  have hv : validateSh (expandBatchDim what) whereT = .ok () := by
    rw [validateSh_expand]
    exact validateSh_ok_of what whereT hwbm
      (rawShape_eq_ofG what whereT hmm hdd hrows hcols) hdt
  rw [projectSumSh, hv]
  simp only [ok_bind]
  rw [hebd,
    rhsSh_evalG (expandBatchDim what) (orthoWith whereT rt) whereT.isMat
      hwbB hwm hrb hrm hrowsR hcolsR hwdq hrtdq (what.d - 1)
      (by rw [hebd])]
  simp only [ok_bind]
  rw [lhsSh_evalG (expandBatchDim what) (orthoWith whereT lt) whereT.isMat
    hwbB hwm hlb hlm hrowsL hcolsL hw0q hlt0q (what.d - 1) (by omega)]
  simp only [ok_bind]
  rw [coresLoop_eval (projCoreFullS lt rt what whereT (none))
    (projResCoreShG lt rt whereT false 0) what.d
    (fun k hk => projCoreFullS_evalGN lt rt what whereT hmm hwbm
      hdd hrows hcols hw0 hwd hlt0 hrtd hd k hk)]
  simp only [ok_bind]
  rfl

/-- Success of `project_sum` (1 weights) on any valid pair, with
the output cores given explicitly. -/
theorem projectSumSh_evalG1 (lt rt : ℕ → ℕ) (what whereT : TT)
    (hmm : what.isMat = whereT.isMat) (hwbm : whereT.isBatch = false)
    (hdd : what.d = whereT.d)
    (hrows : ∀ k, what.rows k = whereT.rows k)
    (hcols : ∀ k, what.cols k = whereT.cols k)
    (hdt : whereT.dt = what.dt)
    (hw0 : what.rk 0 = 1) (hwd : what.rk what.d = 1)
    (hlt0 : lt 0 = 1) (hrtd : rt what.d = 1) (hd : 1 ≤ what.d) :
    projectSumSh lt rt what whereT (some [(expandBatchDim what).bS]) =
      .ok ⟨false, 0, rawShape whereT,
        (List.range what.d).map
          (projResCoreShG lt rt whereT false 0)⟩ := by
  have hwbB := expandBatchDim_isBatch what
  have hwm : (expandBatchDim what).isMat = whereT.isMat := by
    rw [expandBatchDim_isMat]; exact hmm
  have hebd := expandBatchDim_d what
  have hlb : (orthoWith whereT lt).isBatch = false := by
    rw [orthoWith_isBatch]; exact hwbm
  have hrb : (orthoWith whereT rt).isBatch = false := by
    rw [orthoWith_isBatch]; exact hwbm
  have hlm : (orthoWith whereT lt).isMat = whereT.isMat :=
    orthoWith_isMat whereT lt
  have hrm : (orthoWith whereT rt).isMat = whereT.isMat :=
    orthoWith_isMat whereT rt
  have hrowsL : ∀ j, (expandBatchDim what).rows j =
      (orthoWith whereT lt).rows j := by
    intro j; rw [expandBatchDim_rows, orthoWith_rows]; exact hrows j
  have hcolsL : ∀ j, (expandBatchDim what).cols j =
      (orthoWith whereT lt).cols j := by
    intro j; rw [expandBatchDim_cols, orthoWith_cols]; exact hcols j
  have hrowsR : ∀ j, (expandBatchDim what).rows j =
      (orthoWith whereT rt).rows j := by
    intro j; rw [expandBatchDim_rows, orthoWith_rows]; exact hrows j
  have hcolsR : ∀ j, (expandBatchDim what).cols j =
      (orthoWith whereT rt).cols j := by
    intro j; rw [expandBatchDim_cols, orthoWith_cols]; exact hcols j
  have hw0q : (expandBatchDim what).rk 0 = 1 := by
    rw [expandBatchDim_rk]; exact hw0
  have hwdq : (expandBatchDim what).rk (expandBatchDim what).d = 1 := by
    rw [expandBatchDim_rk, hebd]; exact hwd
  have hlt0q : (orthoWith whereT lt).rk 0 = 1 := hlt0
  have hrtdq : (orthoWith whereT rt).rk (expandBatchDim what).d = 1 := by
    rw [hebd]; exact hrtd
  have hv : validateSh (expandBatchDim what) whereT = .ok () := by
    rw [validateSh_expand]
    exact validateSh_ok_of what whereT hwbm
      (rawShape_eq_ofG what whereT hmm hdd hrows hcols) hdt
  rw [projectSumSh, hv]
  simp only [ok_bind]
  rw [hebd,
    rhsSh_evalG (expandBatchDim what) (orthoWith whereT rt) whereT.isMat
      hwbB hwm hrb hrm hrowsR hcolsR hwdq hrtdq (what.d - 1)
      (by rw [hebd])]
  simp only [ok_bind]
  rw [lhsSh_evalG (expandBatchDim what) (orthoWith whereT lt) whereT.isMat
    hwbB hwm hlb hlm hrowsL hcolsL hw0q hlt0q (what.d - 1) (by omega)]
  simp only [ok_bind]
  rw [coresLoop_eval (projCoreFullS lt rt what whereT (some [(expandBatchDim what).bS]))
    (projResCoreShG lt rt whereT false 0) what.d
    (fun k hk => projCoreFullS_evalG1 lt rt what whereT hmm hwbm
      hdd hrows hcols hw0 hwd hlt0 hrtd hd k hk)]
  simp only [ok_bind]
  rfl

/-- Success of `project_sum` (2 weights) on any valid pair, with
the output cores given explicitly. -/
theorem projectSumSh_evalG2 (lt rt : ℕ → ℕ) (what whereT : TT)
    (O : ℕ) (hO : 1 < O)
    (hmm : what.isMat = whereT.isMat) (hwbm : whereT.isBatch = false)
    (hdd : what.d = whereT.d)
    (hrows : ∀ k, what.rows k = whereT.rows k)
    (hcols : ∀ k, what.cols k = whereT.cols k)
    (hdt : whereT.dt = what.dt)
    (hw0 : what.rk 0 = 1) (hwd : what.rk what.d = 1)
    (hlt0 : lt 0 = 1) (hrtd : rt what.d = 1) (hd : 1 ≤ what.d) :
    projectSumSh lt rt what whereT (some [(expandBatchDim what).bS, O]) =
      .ok ⟨true, O, rawShape whereT,
        (List.range what.d).map
          (projResCoreShG lt rt whereT true O)⟩ := by
  have hwbB := expandBatchDim_isBatch what
  have hwm : (expandBatchDim what).isMat = whereT.isMat := by
    rw [expandBatchDim_isMat]; exact hmm
  have hebd := expandBatchDim_d what
  have hlb : (orthoWith whereT lt).isBatch = false := by
    rw [orthoWith_isBatch]; exact hwbm
  have hrb : (orthoWith whereT rt).isBatch = false := by
    rw [orthoWith_isBatch]; exact hwbm
  have hlm : (orthoWith whereT lt).isMat = whereT.isMat :=
    orthoWith_isMat whereT lt
  have hrm : (orthoWith whereT rt).isMat = whereT.isMat :=
    orthoWith_isMat whereT rt
  have hrowsL : ∀ j, (expandBatchDim what).rows j =
      (orthoWith whereT lt).rows j := by
    intro j; rw [expandBatchDim_rows, orthoWith_rows]; exact hrows j
  have hcolsL : ∀ j, (expandBatchDim what).cols j =
      (orthoWith whereT lt).cols j := by
    intro j; rw [expandBatchDim_cols, orthoWith_cols]; exact hcols j
  have hrowsR : ∀ j, (expandBatchDim what).rows j =
      (orthoWith whereT rt).rows j := by
    intro j; rw [expandBatchDim_rows, orthoWith_rows]; exact hrows j
  have hcolsR : ∀ j, (expandBatchDim what).cols j =
      (orthoWith whereT rt).cols j := by
    intro j; rw [expandBatchDim_cols, orthoWith_cols]; exact hcols j
  have hw0q : (expandBatchDim what).rk 0 = 1 := by
    rw [expandBatchDim_rk]; exact hw0
  have hwdq : (expandBatchDim what).rk (expandBatchDim what).d = 1 := by
    rw [expandBatchDim_rk, hebd]; exact hwd
  have hlt0q : (orthoWith whereT lt).rk 0 = 1 := hlt0
  have hrtdq : (orthoWith whereT rt).rk (expandBatchDim what).d = 1 := by
    rw [hebd]; exact hrtd
  have hv : validateSh (expandBatchDim what) whereT = .ok () := by
    rw [validateSh_expand]
    exact validateSh_ok_of what whereT hwbm
      (rawShape_eq_ofG what whereT hmm hdd hrows hcols) hdt
  have hob : outBatchW (some [(expandBatchDim what).bS, O]) = true := by
    simp [outBatchW]
    omega
  rw [projectSumSh, hv]
  simp only [ok_bind]
  rw [hebd,
    rhsSh_evalG (expandBatchDim what) (orthoWith whereT rt) whereT.isMat
      hwbB hwm hrb hrm hrowsR hcolsR hwdq hrtdq (what.d - 1)
      (by rw [hebd])]
  simp only [ok_bind]
  rw [lhsSh_evalG (expandBatchDim what) (orthoWith whereT lt) whereT.isMat
    hwbB hwm hlb hlm hrowsL hcolsL hw0q hlt0q (what.d - 1) (by omega)]
  simp only [ok_bind]
  rw [coresLoop_eval (projCoreFullS lt rt what whereT (some [(expandBatchDim what).bS, O]))
    (projResCoreShG lt rt whereT true O) what.d
    (fun k hk => projCoreFullS_evalG2 lt rt what whereT O hO hmm hwbm
      hdd hrows hcols hw0 hwd hlt0 hrtd hd k hk)]
  simp only [ok_bind]
  rw [hob, show outBatchSizeW (some [(expandBatchDim what).bS, O]) = O
    from rfl]

/-- Backward sweep of `project_matmul`: `rhs[d - j]` has shape
`(batch_size, what_rank, matrix_rank, right_tangent_rank)`. -/
theorem rhsShM_evalG (wb rtt mtx : TT)
    (hwb : wb.isBatch = true) (hwm : wb.isMat = true)
    (hrb : rtt.isBatch = false) (hrm : rtt.isMat = true)
    (hmb : mtx.isBatch = false) (hmmat : mtx.isMat = true)
    (hrows : ∀ k, wb.rows k = rtt.rows k)
    (hcols : ∀ k, wb.cols k = rtt.cols k)
    (hmr : ∀ k, mtx.rows k = rtt.rows k)
    (hmc : ∀ k, mtx.cols k = rtt.rows k)
    (hwd : wb.rk wb.d = 1) (hrtd : rtt.rk wb.d = 1)
    (hmd : mtx.rk wb.d = 1) :
    ∀ j, j ≤ wb.d - 1 →
      rhsShM wb rtt mtx j =
        .ok [wb.bS, wb.rk (wb.d - j), mtx.rk (wb.d - j),
          rtt.rk (wb.d - j)] := by
  intro j
  induction j with
  | zero =>
      intro _
      rw [rhsShM, Nat.sub_zero, hwd, hrtd, hmd]
  | succ j ih =>
      intro hj
      rw [rhsShM, ih (by omega)]
      show rhsStepShM wb rtt mtx (wb.d - (j + 1))
        [wb.bS, wb.rk (wb.d - j), mtx.rk (wb.d - j), rtt.rk (wb.d - j)] = _
      rw [rhsStepShM,
        coreSh_batch_matrix wb hwb hwm (wb.d - (j + 1)),
        coreSh_plain_matrix rtt hrb hrm (wb.d - (j + 1)),
        coreSh_plain_matrix mtx hmb hmmat (wb.d - (j + 1)),
        hrows (wb.d - (j + 1)), hcols (wb.d - (j + 1)),
        hmr (wb.d - (j + 1)), hmc (wb.d - (j + 1)),
        show wb.d - (j + 1) + 1 = wb.d - j from by omega]
      simp [einsumE, einsumSh, bindOps, bindOp, bindLbl, lookupN, outSh]

/-- Forward sweep of `project_matmul`: `lhs[k]` has shape
`(batch_size, left_tangent_rank, matrix_rank, what_rank)`. -/
theorem lhsShM_evalG (wb ltt mtx : TT)
    (hwb : wb.isBatch = true) (hwm : wb.isMat = true)
    (hlb : ltt.isBatch = false) (hlm : ltt.isMat = true)
    (hmb : mtx.isBatch = false) (hmmat : mtx.isMat = true)
    (hrows : ∀ k, wb.rows k = ltt.rows k)
    (hcols : ∀ k, wb.cols k = ltt.cols k)
    (hmr : ∀ k, mtx.rows k = ltt.rows k)
    (hmc : ∀ k, mtx.cols k = ltt.rows k)
    (hw0 : wb.rk 0 = 1) (hlt0 : ltt.rk 0 = 1) (hm0 : mtx.rk 0 = 1) :
    ∀ k, k ≤ wb.d - 1 →
      lhsShM wb ltt mtx k =
        .ok [wb.bS, ltt.rk k, mtx.rk k, wb.rk k] := by
  intro k
  induction k with
  | zero =>
      intro _
      rw [lhsShM, hlt0, hm0, hw0]
  | succ k ih =>
      intro hk
      rw [lhsShM, ih (by omega)]
      show lhsStepShM wb ltt mtx k
        [wb.bS, ltt.rk k, mtx.rk k, wb.rk k] = _
      rw [lhsStepShM,
        coreSh_batch_matrix wb hwb hwm k,
        coreSh_plain_matrix ltt hlb hlm k,
        coreSh_plain_matrix mtx hmb hmmat k,
        hrows k, hcols k, hmr k, hmc k]
      simp [einsumE, einsumSh, bindOps, bindOp, bindLbl, lookupN, outSh]

/-- Interior projection core of `project_matmul`, general form — note the
output keeps the batch entry in front. -/
theorem projCoreShM_int_evalG (wb ltt mtx : TT)
    (hwb : wb.isBatch = true) (hwm : wb.isMat = true)
    (hlb : ltt.isBatch = false) (hlm : ltt.isMat = true)
    (hmb : mtx.isBatch = false) (hmmat : mtx.isMat = true)
    (hrows : ∀ k, wb.rows k = ltt.rows k)
    (hcols : ∀ k, wb.cols k = ltt.cols k)
    (hmr : ∀ k, mtx.rows k = ltt.rows k)
    (hmc : ∀ k, mtx.cols k = ltt.rows k)
    (k : ℕ) (hk : k < wb.d - 1) (rtk1 : ℕ) :
    projCoreShM wb ltt mtx [wb.bS, ltt.rk k, mtx.rk k, wb.rk k]
      [wb.bS, ltt.rk (k + 1), mtx.rk (k + 1), wb.rk (k + 1)]
      [wb.bS, wb.rk (k + 1), mtx.rk (k + 1), rtk1] k =
      .ok (bdim true wb.bS ++ [ltt.rk k, ltt.rows k] ++
        mdim true (ltt.cols k) ++ [rtk1]) := by
  rw [projCoreShM, if_pos hk,
    coreSh_batch_matrix wb hwb hwm k,
    coreSh_plain_matrix ltt hlb hlm k,
    coreSh_plain_matrix mtx hmb hmmat k,
    hrows k, hcols k, hmr k, hmc k]
  simp [einsumE, einsumSh, bindOps, bindOp, bindLbl, lookupN, outSh, subE,
    bind, Except.bind, bdim, mdim]

/-- Last projection core of `project_matmul`, general form. -/
theorem projCoreShM_last_evalG (wb ltt mtx : TT)
    (hwb : wb.isBatch = true) (hwm : wb.isMat = true)
    (hlb : ltt.isBatch = false) (hlm : ltt.isMat = true)
    (hmb : mtx.isBatch = false) (hmmat : mtx.isMat = true)
    (hrows : ∀ k, wb.rows k = ltt.rows k)
    (hcols : ∀ k, wb.cols k = ltt.cols k)
    (hmr : ∀ k, mtx.rows k = ltt.rows k)
    (hmc : ∀ k, mtx.cols k = ltt.rows k)
    (k : ℕ) (hk : ¬k < wb.d - 1) (lk1 rk1 : List ℕ) :
    projCoreShM wb ltt mtx [wb.bS, ltt.rk k, mtx.rk k, wb.rk k] lk1 rk1 k =
      .ok (bdim true wb.bS ++ [ltt.rk k, ltt.rows k] ++
        mdim true (ltt.cols k) ++ [wb.rk (k + 1)]) := by
  rw [projCoreShM, if_neg hk,
    coreSh_batch_matrix wb hwb hwm k,
    coreSh_plain_matrix mtx hmb hmmat k,
    hrows k, hcols k, hmr k, hmc k]
  simp [einsumE, einsumSh, bindOps, bindOp, bindLbl, lookupN, outSh, bdim,
    mdim]

/-- Per-core evaluation of `project_matmul` on a batch of TT-matrix
perturbations with a compatible matrix. -/
theorem projCoreFullM_evalG (lt rt : ℕ → ℕ) (what whereT mtx : TT)
    (hmat : whereT.isMat = true) (hwmat : what.isMat = true)
    (hbt : what.isBatch = true) (hwbm : whereT.isBatch = false)
    (hdd : what.d = whereT.d)
    (hrows : ∀ k, what.rows k = whereT.rows k)
    (hcols : ∀ k, what.cols k = whereT.cols k)
    (hmb : mtx.isBatch = false) (hmmat : mtx.isMat = true)
    (hmr : ∀ k, mtx.rows k = whereT.rows k)
    (hmc : ∀ k, mtx.cols k = whereT.rows k)
    (hw0 : what.rk 0 = 1) (hwd : what.rk what.d = 1)
    (hm0 : mtx.rk 0 = 1) (hmd : mtx.rk what.d = 1)
    (hlt0 : lt 0 = 1) (hrtd : rt what.d = 1)
    (hd : 1 ≤ what.d) (k : ℕ) (hk : k < what.d) :
    projCoreFullM lt rt what whereT mtx k =
      .ok (projResCoreShG lt rt whereT true what.bS k) := by
  have hwbB := expandBatchDim_isBatch what
  have hwm : (expandBatchDim what).isMat = true := by
    rw [expandBatchDim_isMat]; exact hwmat
  have hebd := expandBatchDim_d what
  have hbs := expandBatchDim_bS_of_batch what hbt
  have hlb : (orthoWith whereT lt).isBatch = false := by
    rw [orthoWith_isBatch]; exact hwbm
  have hrb : (orthoWith whereT rt).isBatch = false := by
    rw [orthoWith_isBatch]; exact hwbm
  have hlm : (orthoWith whereT lt).isMat = true := hmat
  have hrm : (orthoWith whereT rt).isMat = true := hmat
  have hrowsL : ∀ j, (expandBatchDim what).rows j =
      (orthoWith whereT lt).rows j := by
    intro j; rw [expandBatchDim_rows, orthoWith_rows]; exact hrows j
  have hcolsL : ∀ j, (expandBatchDim what).cols j =
      (orthoWith whereT lt).cols j := by
    intro j; rw [expandBatchDim_cols, orthoWith_cols]; exact hcols j
  have hrowsR : ∀ j, (expandBatchDim what).rows j =
      (orthoWith whereT rt).rows j := by
    intro j; rw [expandBatchDim_rows, orthoWith_rows]; exact hrows j
  have hcolsR : ∀ j, (expandBatchDim what).cols j =
      (orthoWith whereT rt).cols j := by
    intro j; rw [expandBatchDim_cols, orthoWith_cols]; exact hcols j
  have hmrL : ∀ j, mtx.rows j = (orthoWith whereT lt).rows j := by
    intro j; rw [orthoWith_rows]; exact hmr j
  have hmcL : ∀ j, mtx.cols j = (orthoWith whereT lt).rows j := by
    intro j; rw [orthoWith_rows]; exact hmc j
  have hmrR : ∀ j, mtx.rows j = (orthoWith whereT rt).rows j := by
    intro j; rw [orthoWith_rows]; exact hmr j
  have hmcR : ∀ j, mtx.cols j = (orthoWith whereT rt).rows j := by
    intro j; rw [orthoWith_rows]; exact hmc j
  have hw0q : (expandBatchDim what).rk 0 = 1 := by
    rw [expandBatchDim_rk]; exact hw0
  have hwdq : (expandBatchDim what).rk (expandBatchDim what).d = 1 := by
    rw [expandBatchDim_rk, hebd]; exact hwd
  have hlt0q : (orthoWith whereT lt).rk 0 = 1 := hlt0
  have hrtdq : (orthoWith whereT rt).rk (expandBatchDim what).d = 1 := by
    rw [hebd]; exact hrtd
  have hmdq : mtx.rk (expandBatchDim what).d = 1 := by
    rw [hebd]; exact hmd
  rw [projCoreFullM, hebd]
  rw [lhsShM_evalG (expandBatchDim what) (orthoWith whereT lt) mtx
    hwbB hwm hlb hlm hmb hmmat hrowsL hcolsL hmrL hmcL hw0q hlt0q hm0 k
    (by omega)]
  rcases Nat.lt_or_ge what.d 2 with hd2 | hd2
  · have hd1 : what.d = 1 := by omega
    have hk0 : k = 0 := by omega
    subst hk0
    rw [hd1]
    rw [show min (0 + 1) (1 - 1) = 0 from by omega,
      lhsShM_evalG (expandBatchDim what) (orthoWith whereT lt) mtx
        hwbB hwm hlb hlm hmb hmmat hrowsL hcolsL hmrL hmcL hw0q hlt0q hm0 0
        (by omega),
      show (1 : ℕ) - (0 + 1) = 0 from by omega,
      show rhsShM (expandBatchDim what) (orthoWith whereT rt) mtx 0 =
        .ok [(expandBatchDim what).bS, (expandBatchDim what).rk 1,
          mtx.rk 1, (orthoWith whereT rt).rk 1] from by
          have hq := rhsShM_evalG (expandBatchDim what) (orthoWith whereT rt)
            mtx hwbB hwm hrb hrm hmb hmmat hrowsR hcolsR hmrR hmcR hwdq
            hrtdq hmdq 0 (by omega)
          rw [Nat.sub_zero, hebd, hd1] at hq
          exact hq]
    simp only [ok_bind]
    rw [projCoreShM_last_evalG (expandBatchDim what) (orthoWith whereT lt)
      mtx hwbB hwm hlb hlm hmb hmmat hrowsL hcolsL hmrL hmcL 0
      (by rw [hebd, hd1]; omega) _ _]
    simp only [ok_bind]
    rw [show (expandBatchDim what).rk (0 + 1) = 1 from by
      rw [expandBatchDim_rk, show (0 : ℕ) + 1 = what.d from by omega]
      exact hwd]
    simp only [orthoWith_rk, orthoWith_rows, orthoWith_cols]
    rw [hbs, hbt,
      assembleSh_first_evalG whereT lt rt true true what.bS 1 hmat hwbm,
      projResCoreShG, if_pos (by omega), hmat]
    simp only [List.append_assoc]
  · rcases Nat.eq_zero_or_pos k with hk0 | hk1
    · subst hk0
      rw [show min (0 + 1) (what.d - 1) = 1 from by omega,
        lhsShM_evalG (expandBatchDim what) (orthoWith whereT lt) mtx
          hwbB hwm hlb hlm hmb hmmat hrowsL hcolsL hmrL hmcL hw0q hlt0q hm0
          1 (by omega),
        show rhsShM (expandBatchDim what) (orthoWith whereT rt) mtx
          (what.d - (0 + 1)) =
          .ok [(expandBatchDim what).bS, (expandBatchDim what).rk 1,
            mtx.rk 1, (orthoWith whereT rt).rk 1] from by
            have hq := rhsShM_evalG (expandBatchDim what)
              (orthoWith whereT rt) mtx hwbB hwm hrb hrm hmb hmmat hrowsR
              hcolsR hmrR hmcR hwdq hrtdq hmdq (what.d - 1) (by rw [hebd])
            rw [hebd, show what.d - (what.d - 1) = 1 from by omega] at hq
            exact hq]
      simp only [ok_bind]
      rw [projCoreShM_int_evalG (expandBatchDim what) (orthoWith whereT lt)
        mtx hwbB hwm hlb hlm hmb hmmat hrowsL hcolsL hmrL hmcL 0
        (by rw [hebd]; omega) _]
      simp only [ok_bind]
      simp only [orthoWith_rk, orthoWith_rows, orthoWith_cols]
      rw [hbs, hbt,
        assembleSh_first_evalG whereT lt rt true true what.bS (rt 1) hmat
          hwbm,
        projResCoreShG, if_neg (by omega), if_pos rfl, hmat]
      simp only [List.append_assoc]
    · rcases Nat.lt_or_ge k (what.d - 1) with hkm | hkl
      · rw [show min (k + 1) (what.d - 1) = k + 1 from by omega,
          lhsShM_evalG (expandBatchDim what) (orthoWith whereT lt) mtx
            hwbB hwm hlb hlm hmb hmmat hrowsL hcolsL hmrL hmcL hw0q hlt0q
            hm0 (k + 1) (by omega),
          show rhsShM (expandBatchDim what) (orthoWith whereT rt) mtx
            (what.d - (k + 1)) =
            .ok [(expandBatchDim what).bS, (expandBatchDim what).rk (k + 1),
              mtx.rk (k + 1), (orthoWith whereT rt).rk (k + 1)] from by
              have hq := rhsShM_evalG (expandBatchDim what)
                (orthoWith whereT rt) mtx hwbB hwm hrb hrm hmb hmmat hrowsR
                hcolsR hmrR hmcR hwdq hrtdq hmdq (what.d - (k + 1))
                (by rw [hebd]; omega)
              rw [hebd,
                show what.d - (what.d - (k + 1)) = k + 1 from by omega] at hq
              exact hq]
        simp only [ok_bind]
        rw [projCoreShM_int_evalG (expandBatchDim what) (orthoWith whereT lt)
          mtx hwbB hwm hlb hlm hmb hmmat hrowsL hcolsL hmrL hmcL k
          (by rw [hebd]; omega) _]
        simp only [ok_bind]
        simp only [orthoWith_rk, orthoWith_rows, orthoWith_cols]
        rw [hbs, hbt,
          assembleSh_mid_evalG whereT lt rt true true what.bS k hmat hwbm
            hk1 (by omega),
          projResCoreShG, if_neg (by omega), if_neg (by omega),
          if_neg (by omega), hmat]
        simp only [List.append_assoc]
      · have hklq : k = what.d - 1 := by omega
        subst hklq
        rw [show min (what.d - 1 + 1) (what.d - 1) = what.d - 1 from by
            omega,
          lhsShM_evalG (expandBatchDim what) (orthoWith whereT lt) mtx
            hwbB hwm hlb hlm hmb hmmat hrowsL hcolsL hmrL hmcL hw0q hlt0q
            hm0 (what.d - 1) (by omega),
          show rhsShM (expandBatchDim what) (orthoWith whereT rt) mtx
            (what.d - (what.d - 1 + 1)) =
            .ok [(expandBatchDim what).bS, (expandBatchDim what).rk what.d,
              mtx.rk what.d, (orthoWith whereT rt).rk what.d] from by
              have hq := rhsShM_evalG (expandBatchDim what)
                (orthoWith whereT rt) mtx hwbB hwm hrb hrm hmb hmmat hrowsR
                hcolsR hmrR hmcR hwdq hrtdq hmdq 0 (by omega)
              rw [Nat.sub_zero, hebd] at hq
              rw [show what.d - (what.d - 1 + 1) = 0 from by omega]
              exact hq]
        simp only [ok_bind]
        rw [projCoreShM_last_evalG (expandBatchDim what)
          (orthoWith whereT lt) mtx hwbB hwm hlb hlm hmb hmmat hrowsL hcolsL
          hmrL hmcL (what.d - 1) (by rw [hebd]; omega) _ _]
        simp only [ok_bind]
        rw [show (expandBatchDim what).rk (what.d - 1 + 1) = 1 from by
          rw [expandBatchDim_rk, show what.d - 1 + 1 = what.d from by omega]
          exact hwd]
        simp only [orthoWith_rk, orthoWith_rows, orthoWith_cols]
        have hrt1 : rt (whereT.d - 1 + 1) = 1 := by
          rw [show whereT.d - 1 + 1 = what.d from by omega]
          exact hrtd
        have has := assembleSh_last_evalG whereT lt rt true true
          what.bS (lt (what.d - 1)) hmat hwbm (by omega) hrt1
        rw [← hdd] at has
        rw [hbs, hbt, has,
          projResCoreShG, if_neg (by omega), if_neg (by omega),
          if_pos (by rw [← hdd]), hmat]
        rw [hdd]
        simp only [List.append_assoc]

/-- Success of `project_matmul` on a batch of TT-matrix perturbations with
a matrix of compatible row and column modes, with the output cores given
explicitly. -/
theorem projectMatmulSh_evalG (lt rt : ℕ → ℕ) (what whereT mtx : TT)
    (hmat : whereT.isMat = true) (hwmat : what.isMat = true)
    (hbt : what.isBatch = true) (hwbm : whereT.isBatch = false)
    (hdd : what.d = whereT.d)
    (hrows : ∀ k, what.rows k = whereT.rows k)
    (hcols : ∀ k, what.cols k = whereT.cols k)
    (hdt : whereT.dt = what.dt)
    (hmb : mtx.isBatch = false) (hmmat : mtx.isMat = true)
    (hmr : ∀ k, mtx.rows k = whereT.rows k)
    (hmc : ∀ k, mtx.cols k = whereT.rows k)
    (hw0 : what.rk 0 = 1) (hwd : what.rk what.d = 1)
    (hm0 : mtx.rk 0 = 1) (hmd : mtx.rk what.d = 1)
    (hlt0 : lt 0 = 1) (hrtd : rt what.d = 1) (hd : 1 ≤ what.d) :
    projectMatmulSh lt rt what whereT mtx =
      .ok ⟨true, what.bS, rawShape whereT,
        (List.range what.d).map
          (projResCoreShG lt rt whereT true what.bS)⟩ := by
  have hwbB := expandBatchDim_isBatch what
  have hwm : (expandBatchDim what).isMat = true := by
    rw [expandBatchDim_isMat]; exact hwmat
  have hebd := expandBatchDim_d what
  have hlb : (orthoWith whereT lt).isBatch = false := by
    rw [orthoWith_isBatch]; exact hwbm
  have hrb : (orthoWith whereT rt).isBatch = false := by
    rw [orthoWith_isBatch]; exact hwbm
  have hlm : (orthoWith whereT lt).isMat = true := hmat
  have hrm : (orthoWith whereT rt).isMat = true := hmat
  have hrowsL : ∀ j, (expandBatchDim what).rows j =
      (orthoWith whereT lt).rows j := by
    intro j; rw [expandBatchDim_rows, orthoWith_rows]; exact hrows j
  have hcolsL : ∀ j, (expandBatchDim what).cols j =
      (orthoWith whereT lt).cols j := by
    intro j; rw [expandBatchDim_cols, orthoWith_cols]; exact hcols j
  have hrowsR : ∀ j, (expandBatchDim what).rows j =
      (orthoWith whereT rt).rows j := by
    intro j; rw [expandBatchDim_rows, orthoWith_rows]; exact hrows j
  have hcolsR : ∀ j, (expandBatchDim what).cols j =
      (orthoWith whereT rt).cols j := by
    intro j; rw [expandBatchDim_cols, orthoWith_cols]; exact hcols j
  have hmrL : ∀ j, mtx.rows j = (orthoWith whereT lt).rows j := by
    intro j; rw [orthoWith_rows]; exact hmr j
  have hmcL : ∀ j, mtx.cols j = (orthoWith whereT lt).rows j := by
    intro j; rw [orthoWith_rows]; exact hmc j
  have hmrR : ∀ j, mtx.rows j = (orthoWith whereT rt).rows j := by
    intro j; rw [orthoWith_rows]; exact hmr j
  have hmcR : ∀ j, mtx.cols j = (orthoWith whereT rt).rows j := by
    intro j; rw [orthoWith_rows]; exact hmc j
  have hw0q : (expandBatchDim what).rk 0 = 1 := by
    rw [expandBatchDim_rk]; exact hw0
  have hwdq : (expandBatchDim what).rk (expandBatchDim what).d = 1 := by
    rw [expandBatchDim_rk, hebd]; exact hwd
  have hlt0q : (orthoWith whereT lt).rk 0 = 1 := hlt0
  have hrtdq : (orthoWith whereT rt).rk (expandBatchDim what).d = 1 := by
    rw [hebd]; exact hrtd
  have hmdq : mtx.rk (expandBatchDim what).d = 1 := by
    rw [hebd]; exact hmd
  have hv := validateSh_ok_of what whereT hwbm
    (rawShape_eq_ofG what whereT (by rw [hwmat, hmat]) hdd hrows hcols) hdt
  rw [projectMatmulSh, hv]
  simp only [ok_bind]
  rw [hebd,
    rhsShM_evalG (expandBatchDim what) (orthoWith whereT rt) mtx
      hwbB hwm hrb hrm hmb hmmat hrowsR hcolsR hmrR hmcR hwdq hrtdq hmdq
      (what.d - 1) (by rw [hebd])]
  simp only [ok_bind]
  rw [lhsShM_evalG (expandBatchDim what) (orthoWith whereT lt) mtx
    hwbB hwm hlb hlm hmb hmmat hrowsL hcolsL hmrL hmcL hw0q hlt0q hm0
    (what.d - 1) (by omega)]
  simp only [ok_bind]
  rw [coresLoop_eval (projCoreFullM lt rt what whereT mtx)
    (projResCoreShG lt rt whereT true what.bS) what.d
    (fun k hk => projCoreFullM_evalG lt rt what whereT mtx hmat hwmat hbt
      hwbm hdd hrows hcols hmb hmmat hmr hmc hw0 hwd hm0 hmd hlt0 hrtd hd
      k hk)]
  simp only [ok_bind]
  rw [hbt]

/-- C1 (amended): on every returning call of the three operations — any
valid pair (TT-tensor or TT-matrix point, single or batch perturbation)
for `project`, with weights omitted, 1-D, or `S × O` (`O ≥ 2`) for
`project_sum`, and a batch perturbation with a compatible matrix for
`project_matmul` — the output cores are the explicitly computed
concatenations, whose internal rank at each interior cut `k` is
`right_tangent_rank[k] + left_tangent_rank[k]` (the SAME cut index on
both summands, not `k+1`); the leading boundary rank is 1, and the
trailing boundary rank is 1 only for `d ≥ 2` — for `d = 1` it is
`1 + left_tangent_rank[1]`. -/
theorem claim1_rank_law (lt rt : ℕ → ℕ) (what whereT mtx : TT)
    (hmm : what.isMat = whereT.isMat) (hwbm : whereT.isBatch = false)
    (hdd : what.d = whereT.d)
    (hrows : ∀ k, what.rows k = whereT.rows k)
    (hcols : ∀ k, what.cols k = whereT.cols k)
    (hdt : whereT.dt = what.dt)
    (hw0 : what.rk 0 = 1) (hwd : what.rk what.d = 1)
    (hlt0 : lt 0 = 1) (hrtd : rt what.d = 1) (hd : 1 ≤ what.d) :
    projectSh lt rt what whereT =
      .ok ⟨what.isBatch, what.bS, rawShape whereT,
        (List.range what.d).map
          (projResCoreShG lt rt whereT what.isBatch what.bS)⟩ ∧
    projectSumSh lt rt what whereT none =
      .ok ⟨false, 0, rawShape whereT,
        (List.range what.d).map (projResCoreShG lt rt whereT false 0)⟩ ∧
    projectSumSh lt rt what whereT (some [(expandBatchDim what).bS]) =
      .ok ⟨false, 0, rawShape whereT,
        (List.range what.d).map (projResCoreShG lt rt whereT false 0)⟩ ∧
    (∀ O, 1 < O →
      projectSumSh lt rt what whereT (some [(expandBatchDim what).bS, O]) =
        .ok ⟨true, O, rawShape whereT,
          (List.range what.d).map (projResCoreShG lt rt whereT true O)⟩) ∧
    (whereT.isMat = true → what.isBatch = true → mtx.isBatch = false →
      mtx.isMat = true → (∀ k, mtx.rows k = whereT.rows k) →
      (∀ k, mtx.cols k = whereT.rows k) → mtx.rk 0 = 1 →
      mtx.rk what.d = 1 →
      projectMatmulSh lt rt what whereT mtx =
        .ok ⟨true, what.bS, rawShape whereT,
          (List.range what.d).map
            (projResCoreShG lt rt whereT true what.bS)⟩) ∧
    (∀ outB oBS k, 1 ≤ k → k < whereT.d →
      (projResCoreShG lt rt whereT outB oBS k).getD
        (if outB then 1 else 0) 0 = rt k + lt k) ∧
    (∀ outB oBS,
      (projResCoreShG lt rt whereT outB oBS 0).getD
        (if outB then 1 else 0) 0 = 1) ∧
    (∀ outB oBS,
      (projResCoreShG lt rt whereT outB oBS (whereT.d - 1)).getLastD 0 =
        (if whereT.d = 1 then 1 + lt 1 else 1)) := by
  refine ⟨projectSh_evalG lt rt what whereT hmm hwbm hdd hrows hcols hdt hw0
      hwd hlt0 hrtd hd,
    projectSumSh_evalGN lt rt what whereT hmm hwbm hdd hrows hcols hdt hw0
      hwd hlt0 hrtd hd,
    projectSumSh_evalG1 lt rt what whereT hmm hwbm hdd hrows hcols hdt hw0
      hwd hlt0 hrtd hd,
    fun O hO => projectSumSh_evalG2 lt rt what whereT O hO hmm hwbm hdd
      hrows hcols hdt hw0 hwd hlt0 hrtd hd,
    fun h1 h2 h3 h4 h5 h6 h7 h8 => projectMatmulSh_evalG lt rt what whereT
      mtx h1 (hmm.trans h1) h2 hwbm hdd hrows hcols hdt h3 h4 h5 h6 hw0 hwd
      h7 h8 hlt0 hrtd hd, ?_, ?_, ?_⟩
  · intro outB oBS k h1 hk
    rw [projResCoreShG, if_neg (by omega), if_neg (by omega)]
    by_cases hkl : k = whereT.d - 1
    · rw [if_pos hkl, hkl]
      cases outB with
      | false => simp [bdim]
      | true => simp [bdim]
    · rw [if_neg hkl]
      cases outB with
      | false => simp [bdim]
      | true => simp [bdim]
  · intro outB oBS
    rw [projResCoreShG]
    by_cases hd1 : whereT.d = 1
    · rw [if_pos hd1]
      cases outB with
      | false => simp [bdim, hlt0]
      | true => simp [bdim, hlt0]
    · rw [if_neg hd1, if_pos rfl]
      cases outB with
      | false => simp [bdim, hlt0]
      | true => simp [bdim, hlt0]
  · intro outB oBS
    by_cases hd1 : whereT.d = 1
    · rw [projResCoreShG, if_pos hd1, if_pos hd1, ← List.append_assoc,
        ← List.append_assoc, List.getLastD_concat]
    · rw [projResCoreShG, if_neg hd1, if_neg (by omega), if_pos rfl,
        if_neg hd1, ← List.append_assoc, ← List.append_assoc,
        List.getLastD_concat]

theorem claim1_rank_law_witness :
    projectSh cLt cRt mWhatB mWhere =
      .ok ⟨mWhatB.isBatch, mWhatB.bS, rawShape mWhere,
        (List.range mWhatB.d).map
          (projResCoreShG cLt cRt mWhere mWhatB.isBatch mWhatB.bS)⟩ ∧
    projectSumSh cLt cRt mWhatB mWhere none =
      .ok ⟨false, 0, rawShape mWhere,
        (List.range mWhatB.d).map (projResCoreShG cLt cRt mWhere false 0)⟩ ∧
    projectSumSh cLt cRt mWhatB mWhere
        (some [(expandBatchDim mWhatB).bS]) =
      .ok ⟨false, 0, rawShape mWhere,
        (List.range mWhatB.d).map (projResCoreShG cLt cRt mWhere false 0)⟩ ∧
    (∀ O, 1 < O →
      projectSumSh cLt cRt mWhatB mWhere
          (some [(expandBatchDim mWhatB).bS, O]) =
        .ok ⟨true, O, rawShape mWhere,
          (List.range mWhatB.d).map (projResCoreShG cLt cRt mWhere true O)⟩) ∧
    (mWhere.isMat = true → mWhatB.isBatch = true → mMtx.isBatch = false →
      mMtx.isMat = true → (∀ k, mMtx.rows k = mWhere.rows k) →
      (∀ k, mMtx.cols k = mWhere.rows k) → mMtx.rk 0 = 1 →
      mMtx.rk mWhatB.d = 1 →
      projectMatmulSh cLt cRt mWhatB mWhere mMtx =
        .ok ⟨true, mWhatB.bS, rawShape mWhere,
          (List.range mWhatB.d).map
            (projResCoreShG cLt cRt mWhere true mWhatB.bS)⟩) ∧
    (∀ outB oBS k, 1 ≤ k → k < mWhere.d →
      (projResCoreShG cLt cRt mWhere outB oBS k).getD
        (if outB then 1 else 0) 0 = cRt k + cLt k) ∧
    (∀ outB oBS,
      (projResCoreShG cLt cRt mWhere outB oBS 0).getD
        (if outB then 1 else 0) 0 = 1) ∧
    (∀ outB oBS,
      (projResCoreShG cLt cRt mWhere outB oBS (mWhere.d - 1)).getLastD 0 =
        (if mWhere.d = 1 then 1 + cLt 1 else 1)) :=
  claim1_rank_law cLt cRt mWhatB mWhere mMtx rfl rfl rfl (fun _ => rfl)
    (fun _ => rfl) rfl rfl rfl rfl rfl (by decide)
